import Mathlib

/-!
# Trace-context carrier and message envelope of `main.go`

A shallow embedding of the `Carrier` type (a `map[string]string` behind the
`TextMapCarrier` methods `Get`, `Set`, `Keys`), of the `Message` envelope and of
the two roles `processA` / `processB` that exchange a `Message` as JSON bytes.

* Go strings are byte sequences; they are modelled as lists of byte values.
* Go maps are reference values that may be `nil`; they are modelled as an optional
  association list whose keys are pairwise distinct. A write to a nil map panics.
* `json.Marshal` and `json.Unmarshal` are calls into Go's standard library. Their
  behaviour on the type `Message` is modelled after the package `encoding/json`
  (and `unicode/utf8`): the struct tags give the member names, map keys are written
  sorted, strings are written HTML-escaped with bytes that are not valid UTF-8
  replaced by U+FFFD; the reader checks the whole input against the JSON grammar,
  limits the nesting depth, selects struct fields by name exactly or up to case,
  skips unknown members, and reports an error for a value of the wrong JSON type.
* The tracing library is outside the program: its calls are recorded as events.
-/

set_option maxRecDepth 100000

namespace TracePropagation

/-! ## Go values -/

/-- A Go `string`: a sequence of bytes, each element being a byte value (below 256).
The functions below are defined on every list of numbers. -/
abbrev GoString := List Nat

/-- The bytes of an ASCII text. -/
def ascii (s : String) : GoString := s.data.map Char.toNat

/-- The ways the program can stop with a run-time panic. -/
inductive GoPanic
  /-- The run-time error `assignment to entry in nil map`. -/
  | nilMapAssign
  /-- An explicit `panic(msg)` call. -/
  | explicit (msg : String)
  deriving DecidableEq, Repr

/-- The entries of a non-nil Go map. -/
abbrev Entries := List (GoString × GoString)

/-- A Go `map[string]string`: `none` is the nil map. -/
abbrev GoMap := Option Entries

/-- Value stored under `k` among the entries, if any. -/
def Entries.find (k : GoString) : Entries → Option GoString
  | [] => none
  | (k', v) :: rest => if k' = k then some v else Entries.find k rest

/-- Entries after `m[k] = v`: the entry of `k` is overwritten or a new one is added. -/
def Entries.store (k v : GoString) : Entries → Entries
  | [] => [(k, v)]
  | (k', v') :: rest =>
    if k' = k then (k, v) :: rest else (k', v') :: Entries.store k v rest

/-- Go map read `m[k]`: the zero value (empty string) for an absent key, also on a nil map. -/
def GoMap.index (m : GoMap) (k : GoString) : GoString :=
  match m with
  | none => []
  | some es => (Entries.find k es).getD []

/-- Go map write `m[k] = v`: panics on a nil map. -/
def GoMap.assign (m : GoMap) (k v : GoString) : Except GoPanic GoMap :=
  match m with
  | none => .error .nilMapAssign
  | some es => .ok (some (Entries.store k v es))

/-- One order in which `for key := range m` may visit the keys (none for a nil map). -/
def GoMap.rangeKeys (m : GoMap) : List GoString :=
  match m with
  | none => []
  | some es => es.map Prod.fst

/-- Go `len(m)`. -/
def GoMap.len (m : GoMap) : Nat :=
  match m with
  | none => 0
  | some es => es.length

/-! ## `Carrier` and `Message` -/

/-- The struct `Carrier`, with its single field `Fields` (JSON name `fields`). -/
structure Carrier where
  Fields : GoMap
  deriving DecidableEq, Repr

/-- The method `Carrier.Get`: `return c.Fields[key]`. -/
def Carrier.Get (c : Carrier) (key : GoString) : GoString :=
  GoMap.index c.Fields key

/-- The method `Carrier.Set`: `c.Fields[key] = value`. The receiver is a copy of the
struct but shares the map, so the caller sees the write; the result is the carrier
as the caller sees it afterwards. -/
def Carrier.Set (c : Carrier) (key value : GoString) : Except GoPanic Carrier :=
  match GoMap.assign c.Fields key value with
  | .error p => .error p
  | .ok m => .ok { Fields := m }

/-- The method `Carrier.Keys`: start from an empty slice and append every key the
range loop visits. -/
def Carrier.Keys (c : Carrier) : List GoString :=
  (GoMap.rangeKeys c.Fields).foldl (fun keys key => keys ++ [key]) []

/-- The iteration order of a Go map is unspecified: `ks` is a possible result of
`Keys()` when it is a reordering of the keys visited. -/
def Carrier.KeysMayReturn (c : Carrier) (ks : List GoString) : Prop :=
  ks.Perm (Carrier.Keys c)

/-- A sequence of `Set` calls, stopping at the first panic. -/
def Carrier.setAll (c : Carrier) : List (GoString × GoString) → Except GoPanic Carrier
  | [] => .ok c
  | (k, v) :: rest =>
    match Carrier.Set c k v with
    | .error p => .error p
    | .ok c' => Carrier.setAll c' rest

/-- The struct `Message`. -/
structure Message where
  TraceContext : Carrier
  Body : GoString
  deriving DecidableEq, Repr

/-- The carrier built in `processA`: `Carrier{Fields: map[string]string{}}`. -/
def newCarrier : Carrier := { Fields := some [] }

/-- The zero value of `Carrier`: its `Fields` map is nil. -/
def zeroCarrier : Carrier := { Fields := none }

/-- The zero value of `Message`, as declared by `var newMessage Message`. -/
def zeroMessage : Message := { TraceContext := zeroCarrier, Body := [] }

/-! ## UTF-8 (Go package `unicode/utf8`) -/

/-- The rune `utf8.RuneError`, U+FFFD. -/
def runeError : Nat := 0xFFFD

/-- The rune `utf8.MaxRune`. -/
def maxRune : Nat := 0x10FFFF

/-- Smallest second byte accepted after the first byte `p0` (table `acceptRanges`). -/
def acceptLo (p0 : Nat) : Nat :=
  if p0 = 0xE0 then 0xA0 else if p0 = 0xF0 then 0x90 else 0x80

/-- Largest second byte accepted after the first byte `p0` (table `acceptRanges`). -/
def acceptHi (p0 : Nat) : Nat :=
  if p0 = 0xED then 0x9F else if p0 = 0xF4 then 0x8F else 0xBF

/-- The function `utf8.DecodeRune`: the first rune of `p` and its width in bytes.
An empty input gives `(RuneError, 0)`, an invalid encoding gives `(RuneError, 1)`. -/
def decodeRune : GoString → Nat × Nat
  | [] => (runeError, 0)
  | p0 :: rest =>
    if p0 < 0x80 then (p0, 1)
    else if p0 < 0xC2 ∨ 0xF4 < p0 then (runeError, 1)
    else
      match rest with
      | [] => (runeError, 1)
      | b1 :: rest1 =>
        if b1 < acceptLo p0 ∨ acceptHi p0 < b1 then (runeError, 1)
        else if p0 < 0xE0 then ((p0 % 32) * 64 + b1 % 64, 2)
        else
          match rest1 with
          | [] => (runeError, 1)
          | b2 :: rest2 =>
            if b2 < 0x80 ∨ 0xBF < b2 then (runeError, 1)
            else if p0 < 0xF0 then ((p0 % 16) * 4096 + (b1 % 64) * 64 + b2 % 64, 3)
            else
              match rest2 with
              | [] => (runeError, 1)
              | b3 :: _ =>
                if b3 < 0x80 ∨ 0xBF < b3 then (runeError, 1)
                else ((p0 % 8) * 262144 + (b1 % 64) * 4096 + (b2 % 64) * 64 + b3 % 64, 4)

/-- The function `utf8.EncodeRune`: surrogates and runes above `MaxRune` are written
as `RuneError`. -/
def encodeRune (r : Nat) : GoString :=
  if r ≤ 0x7F then [r]
  else if r ≤ 0x7FF then [0xC0 + r / 64, 0x80 + r % 64]
  else if maxRune < r ∨ (0xD800 ≤ r ∧ r ≤ 0xDFFF) then [0xEF, 0xBF, 0xBD]
  else if r ≤ 0xFFFF then [0xE0 + r / 4096, 0x80 + (r / 64) % 64, 0x80 + r % 64]
  else [0xF0 + r / 262144, 0x80 + (r / 4096) % 64, 0x80 + (r / 64) % 64, 0x80 + r % 64]

/-- The function `utf8.Valid`, read with a count of continuation bytes still to pass:
every rune of the string decodes without error. -/
def validUTF8From : Nat → GoString → Bool
  | _, [] => true
  | n + 1, _ :: rest => validUTF8From n rest
  | 0, b :: rest =>
    if b < 0x80 then validUTF8From 0 rest
    else if decodeRune (b :: rest) = (runeError, 1) then false
    else validUTF8From ((decodeRune (b :: rest)).2 - 1) rest

/-- The function `utf8.ValidString`. -/
def validUTF8 (s : GoString) : Bool := validUTF8From 0 s

/-! ## Writing JSON (Go package `encoding/json`, `Marshal`) -/

/-- Lower-case hexadecimal digit of a value below 16 (the table `hex`). -/
def hexDigit (n : Nat) : Nat := if n < 10 then 0x30 + n else 0x57 + n

/-- The table `htmlSafeSet`: ASCII bytes written as they are. -/
def htmlSafe (b : Nat) : Bool :=
  decide (0x20 ≤ b ∧ b < 0x80 ∧ b ≠ 0x22 ∧ b ≠ 0x26 ∧ b ≠ 0x3C ∧ b ≠ 0x3E ∧ b ≠ 0x5C)

/-- The escape written for an ASCII byte outside `htmlSafeSet`: a short escape for
the quote, the backslash and five control bytes, `\u00XX` for the others (Go
before 1.22 writes `\b` and `\f` in the `\u00XX` form too; both forms read back as
the same byte). -/
def escapeByte (b : Nat) : GoString :=
  if b = 0x5C ∨ b = 0x22 then [0x5C, b]
  else if b = 0x08 then [0x5C, 0x62]
  else if b = 0x0C then [0x5C, 0x66]
  else if b = 0x0A then [0x5C, 0x6E]
  else if b = 0x0D then [0x5C, 0x72]
  else if b = 0x09 then [0x5C, 0x74]
  else [0x5C, 0x75, 0x30, 0x30, hexDigit (b / 16), hexDigit (b % 16)]

/-- The loop of `appendString` (with `escapeHTML` set, as `Marshal` does). The two
counters say how many following bytes belong to a rune already handled: `copy`
bytes are written as they are, `skip` bytes were replaced by an escape. -/
def quoteBody : Nat → Nat → GoString → GoString
  | _, _, [] => []
  | copy + 1, _, b :: rest => b :: quoteBody copy 0 rest
  | 0, skip + 1, _ :: rest => quoteBody 0 skip rest
  | 0, 0, b :: rest =>
    if b < 0x80 then
      if htmlSafe b then b :: quoteBody 0 0 rest else escapeByte b ++ quoteBody 0 0 rest
    else if decodeRune (b :: rest) = (runeError, 1) then
      [0x5C, 0x75, 0x66, 0x66, 0x66, 0x64] ++ quoteBody 0 0 rest
    else if (decodeRune (b :: rest)).1 = 0x2028 ∨ (decodeRune (b :: rest)).1 = 0x2029 then
      [0x5C, 0x75, 0x32, 0x30, 0x32, hexDigit ((decodeRune (b :: rest)).1 % 16)]
        ++ quoteBody 0 ((decodeRune (b :: rest)).2 - 1) rest
    else b :: quoteBody ((decodeRune (b :: rest)).2 - 1) 0 rest

/-- The function `appendString`: a Go string as a JSON string literal. -/
def appendString (s : GoString) : GoString := 0x22 :: (quoteBody 0 0 s ++ [0x22])

/-- Byte-wise lexicographic order of Go strings (`<` on `string`). -/
def bytesLt : GoString → GoString → Bool
  | [], [] => false
  | [], _ :: _ => true
  | _ :: _, [] => false
  | a :: as, b :: bs => if a < b then true else if b < a then false else bytesLt as bs

/-- Insertion of an entry into a list sorted by key. -/
def insertEntry (e : GoString × GoString) : Entries → Entries
  | [] => [e]
  | e' :: rest => if bytesLt e.1 e'.1 then e :: e' :: rest else e' :: insertEntry e rest

/-- The map encoder sorts the entries by key before writing them. -/
def sortEntries : Entries → Entries
  | [] => []
  | e :: rest => insertEntry e (sortEntries rest)

/-- The members `"key":"value"` of a map, separated by commas. -/
def encodeEntries : Entries → GoString
  | [] => []
  | (k, v) :: rest =>
    match rest with
    | [] => appendString k ++ [0x3A] ++ appendString v
    | _ :: _ => appendString k ++ [0x3A] ++ appendString v ++ [0x2C] ++ encodeEntries rest

/-- The bytes written for a map of strings: `null` for a nil map, else an object with
the keys sorted. -/
def encodeMap : GoMap → GoString
  | none => ascii "null"
  | some es => [0x7B] ++ encodeEntries (sortEntries es) ++ [0x7D]

/-- The bytes written for a `Carrier`: one member, named `fields` by the struct tag. -/
def encodeCarrier (c : Carrier) : GoString :=
  ascii "\x7b\"fields\":" ++ encodeMap c.Fields ++ ascii "\x7d"

/-- The bytes written for a `Message`: the members `traceContext` and `body`, in the
order of the declaration. -/
def encodeMessage (m : Message) : GoString :=
  ascii "\x7b\"traceContext\":" ++ encodeCarrier m.TraceContext
    ++ ascii ",\"body\":" ++ appendString m.Body ++ ascii "\x7d"

/-- The errors `Marshal` can report. -/
inductive MarshalError
  /-- A value of a kind JSON cannot represent (`UnsupportedTypeError`). -/
  | unsupportedType
  /-- A value JSON cannot represent (`UnsupportedValueError`). -/
  | unsupportedValue
  deriving DecidableEq, Repr

/-- A Go `float64` as far as the encoder tells values apart: a finite number (held
by its decimal text), a NaN or an infinity. -/
inductive GoFloat
  | finite (text : GoString)
  | nan
  | inf
  deriving DecidableEq, Repr

/-- A Go value as reflection shows it to the encoder, by kind: the kinds the fields
of `Message` have (string, map with string keys, struct) and kinds on which the
encoder can fail. A struct is held as its exported fields, each with its JSON name. -/
inductive GoValue
  | string (s : GoString)
  | bool (b : Bool)
  | float64 (x : GoFloat)
  | map (entries : Option (List (GoString × GoValue)))
  | struct (fields : List (GoString × GoValue))
  | chan
  | func
  | complex128

/-- Insertion of a pair into a list sorted by key. -/
def insertByKey {α : Type} (e : GoString × α) : List (GoString × α) → List (GoString × α)
  | [] => [e]
  | e' :: rest => if bytesLt e.1 e'.1 then e :: e' :: rest else e' :: insertByKey e rest

/-- The pairs sorted by key. -/
def sortByKey {α : Type} : List (GoString × α) → List (GoString × α)
  | [] => []
  | e :: rest => insertByKey e (sortByKey rest)

/-- The members `"name":value` of a struct or of a map in the order given, separated
by commas; the first value that could not be written makes the whole fail. -/
def joinMembers : List (GoString × Except MarshalError GoString) → Except MarshalError GoString
  | [] => .ok []
  | (k, v) :: rest =>
    match v with
    | .error e => .error e
    | .ok bytes =>
      match rest with
      | [] => .ok (appendString k ++ [0x3A] ++ bytes)
      | _ :: _ =>
        match joinMembers rest with
        | .error e => .error e
        | .ok more => .ok (appendString k ++ [0x3A] ++ bytes ++ [0x2C] ++ more)

/-- An object around its members. -/
def wrapObject : Except MarshalError GoString → Except MarshalError GoString
  | .ok body => .ok ([0x7B] ++ body ++ [0x7D])
  | .error e => .error e

mutual
/-- The encoder chosen by the kind of a value: the JSON bytes of the value, or the
error of the first part of it that cannot be written. Channels, functions and
complex numbers have no encoder (`UnsupportedTypeError`), a NaN or an infinity has
no JSON form (`UnsupportedValueError`); a struct is written with its fields in
order, a map with its keys sorted, a nil map as `null`. -/
def encodeValue : GoValue → Except MarshalError GoString
  | .string s => .ok (appendString s)
  | .bool b => .ok (if b then ascii "true" else ascii "false")
  | .float64 (.finite text) => .ok text
  | .float64 .nan => .error .unsupportedValue
  | .float64 .inf => .error .unsupportedValue
  | .map none => .ok (ascii "null")
  | .map (some es) => wrapObject (joinMembers (sortByKey (encodeEach es)))
  | .struct fields => wrapObject (joinMembers (encodeEach fields))
  | .chan => .error .unsupportedType
  | .func => .error .unsupportedType
  | .complex128 => .error .unsupportedType
/-- Every value of the pairs run through the encoder. -/
def encodeEach : List (GoString × GoValue) → List (GoString × Except MarshalError GoString)
  | [] => []
  | (k, v) :: rest => (k, encodeValue v) :: encodeEach rest
end

/-- The value reflection shows for a `Carrier`: a struct with the one field `Fields`,
named `fields` by its tag, a map from strings to strings. -/
def Carrier.toValue (c : Carrier) : GoValue :=
  .struct [(ascii "fields",
    .map (c.Fields.map (fun es => es.map (fun e => (e.1, GoValue.string e.2)))))]

/-- The value reflection shows for a `Message`: a struct with the fields
`TraceContext` and `Body`, named `traceContext` and `body` by their tags. -/
def Message.toValue (m : Message) : GoValue :=
  .struct [(ascii "traceContext", m.TraceContext.toValue), (ascii "body", .string m.Body)]

/-- The call `json.Marshal(newMessage)`: the encoder run on the value of the message. -/
def json_Marshal (m : Message) : Except MarshalError GoString :=
  encodeValue m.toValue

/-! ## Reading JSON (Go package `encoding/json`, `Unmarshal`) -/

/-- A JSON value as read from the input; strings are held decoded. -/
inductive JSON
  | null
  | bool (b : Bool)
  | num (raw : GoString)
  | str (s : GoString)
  | arr (items : List JSON)
  | obj (members : List (GoString × JSON))

/-- The scanner's `maxNestingDepth`. -/
def maxNestingDepth : Nat := 10000

/-- The function `isSpace` of the scanner. -/
def isSpace (c : Nat) : Bool := decide (c = 0x20 ∨ c = 0x09 ∨ c = 0x0D ∨ c = 0x0A)

/-- Input after the leading white space. -/
def skipWs : GoString → GoString
  | [] => []
  | c :: rest => if isSpace c then skipWs rest else c :: rest

/-- Value of a hexadecimal digit, in either case. -/
def hexVal (c : Nat) : Option Nat :=
  if 0x30 ≤ c ∧ c ≤ 0x39 then some (c - 0x30)
  else if 0x61 ≤ c ∧ c ≤ 0x66 then some (c - 0x61 + 10)
  else if 0x41 ≤ c ∧ c ≤ 0x46 then some (c - 0x41 + 10)
  else none

/-- The function `getu4` on the four bytes after `\u`. -/
def getu4 (h1 h2 h3 h4 : Nat) : Option Nat :=
  match hexVal h1, hexVal h2, hexVal h3, hexVal h4 with
  | some a, some b, some c, some d => some (a * 4096 + b * 256 + c * 16 + d)
  | _, _, _, _ => none

/-- The low surrogate written as `\uXXXX` at the start of the input, if there is one. -/
def lowSurrogate : GoString → Option Nat
  | 0x5C :: 0x75 :: h1 :: h2 :: h3 :: h4 :: _ =>
    match getu4 h1 h2 h3 h4 with
    | some r => if 0xDC00 ≤ r ∧ r ≤ 0xDFFF then some r else none
    | none => none
  | _ => none

/-- The byte an escape letter stands for (`\"`, `\\`, `\/`, `\b`, `\f`, `\n`, `\r`, `\t`). -/
def unescape (e : Nat) : Option Nat :=
  if e = 0x22 ∨ e = 0x5C ∨ e = 0x2F then some e
  else if e = 0x62 then some 0x08
  else if e = 0x66 then some 0x0C
  else if e = 0x6E then some 0x0A
  else if e = 0x72 then some 0x0D
  else if e = 0x74 then some 0x09
  else none

/-- Result of a string literal with `b` put in front of the decoded bytes. -/
def prepend (b : GoString) : Option (GoString × GoString) → Option (GoString × GoString)
  | none => none
  | some (s, rest) => some (b ++ s, rest)

/-- A string literal after its opening quote: the scanner's string states together
with `unquoteBytes`. Gives the decoded bytes and the input after the closing quote.
Control bytes and unknown escapes are refused; bytes that are not valid UTF-8 and
unpaired surrogate escapes are replaced by U+FFFD. The counter says how many
following bytes belong to a rune or escape already decoded. -/
def parseStringBody : Nat → GoString → Option (GoString × GoString)
  | _, [] => none
  | n + 1, _ :: rest => parseStringBody n rest
  | 0, c :: rest =>
    if c = 0x22 then some ([], rest)
    else if c = 0x5C then
      match rest with
      | [] => none
      | e :: rest1 =>
        if e = 0x75 then
          match rest1 with
          | h1 :: h2 :: h3 :: h4 :: rest2 =>
            match getu4 h1 h2 h3 h4 with
            | none => none
            | some r =>
              if 0xD800 ≤ r ∧ r ≤ 0xDFFF then
                match (if r ≤ 0xDBFF then lowSurrogate rest2 else none) with
                | some r2 =>
                  prepend (encodeRune ((r - 0xD800) * 1024 + (r2 - 0xDC00) + 0x10000))
                    (parseStringBody 6 rest2)
                | none => prepend (encodeRune runeError) (parseStringBody 0 rest2)
              else prepend (encodeRune r) (parseStringBody 0 rest2)
          | _ => none
        else
          match unescape e with
          | some b => prepend [b] (parseStringBody 0 rest1)
          | none => none
    else if c < 0x20 then none
    else if c < 0x80 then prepend [c] (parseStringBody 0 rest)
    else
      prepend (encodeRune (decodeRune (c :: rest)).1)
        (parseStringBody ((decodeRune (c :: rest)).2 - 1) rest)

/-- The decimal digits at the start of the input, and the rest. -/
def takeDigits : GoString → GoString × GoString
  | [] => ([], [])
  | c :: rest =>
    if 0x30 ≤ c ∧ c ≤ 0x39 then ((c :: (takeDigits rest).1), (takeDigits rest).2)
    else ([], c :: rest)

/-- At least one decimal digit. -/
def takeDigits1 (s : GoString) : Option (GoString × GoString) :=
  match takeDigits s with
  | ([], _) => none
  | (d :: ds, rest) => some (d :: ds, rest)

/-- The integer part of a number: `0` or a non-zero digit followed by digits. -/
def parseInt : GoString → Option (GoString × GoString)
  | [] => none
  | c :: rest =>
    if c = 0x30 then some ([0x30], rest)
    else if 0x31 ≤ c ∧ c ≤ 0x39 then some (c :: (takeDigits rest).1, (takeDigits rest).2)
    else none

/-- The optional fraction of a number. -/
def parseFrac : GoString → Option (GoString × GoString)
  | [] => some ([], [])
  | c :: rest =>
    if c = 0x2E then
      match takeDigits1 rest with
      | some (ds, rest1) => some (c :: ds, rest1)
      | none => none
    else some ([], c :: rest)

/-- The optional exponent of a number. -/
def parseExp : GoString → Option (GoString × GoString)
  | [] => some ([], [])
  | c :: rest =>
    if c = 0x65 ∨ c = 0x45 then
      match rest with
      | [] => none
      | sg :: rest1 =>
        if sg = 0x2B ∨ sg = 0x2D then
          match takeDigits1 rest1 with
          | some (ds, rest2) => some (c :: sg :: ds, rest2)
          | none => none
        else
          match takeDigits1 (sg :: rest1) with
          | some (ds, rest2) => some (c :: ds, rest2)
          | none => none
    else some ([], c :: rest)

/-- A number without its sign. -/
def parseUnsigned (s : GoString) : Option (GoString × GoString) :=
  match parseInt s with
  | none => none
  | some (i, rest) =>
    match parseFrac rest with
    | none => none
    | some (f, rest1) =>
      match parseExp rest1 with
      | none => none
      | some (e, rest2) => some (i ++ f ++ e, rest2)

/-- A number literal: its bytes and the rest of the input. -/
def parseNumber : GoString → Option (GoString × GoString)
  | [] => none
  | c :: rest =>
    if c = 0x2D then
      match parseUnsigned rest with
      | some (n, rest1) => some (c :: n, rest1)
      | none => none
    else parseUnsigned (c :: rest)

/-- The input after the literal `lit`, when it starts with it. -/
def stripLiteral : GoString → GoString → Option GoString
  | [], s => some s
  | _ :: _, [] => none
  | l :: lit, c :: s => if l = c then stripLiteral lit s else none

mutual
/-- One JSON value at the start of the input (no leading white space), with the
number of containers already open; `fuel` bounds the recursion. -/
def parseValue : Nat → Nat → GoString → Option (JSON × GoString)
  | 0, _, _ => none
  | _ + 1, _, [] => none
  | fuel + 1, depth, c :: rest =>
    if c = 0x7B then
      if maxNestingDepth < depth + 1 then none
      else
        match skipWs rest with
        | [] => none
        | c1 :: rest1 =>
          if c1 = 0x7D then some (JSON.obj [], rest1)
          else
            match parseMembers fuel (depth + 1) (c1 :: rest1) with
            | some (ms, rest2) => some (JSON.obj ms, rest2)
            | none => none
    else if c = 0x5B then
      if maxNestingDepth < depth + 1 then none
      else
        match skipWs rest with
        | [] => none
        | c1 :: rest1 =>
          if c1 = 0x5D then some (JSON.arr [], rest1)
          else
            match parseElems fuel (depth + 1) (c1 :: rest1) with
            | some (vs, rest2) => some (JSON.arr vs, rest2)
            | none => none
    else if c = 0x22 then
      match parseStringBody 0 rest with
      | some (s, rest1) => some (JSON.str s, rest1)
      | none => none
    else if c = 0x74 then
      match stripLiteral (ascii "rue") rest with
      | some rest1 => some (JSON.bool true, rest1)
      | none => none
    else if c = 0x66 then
      match stripLiteral (ascii "alse") rest with
      | some rest1 => some (JSON.bool false, rest1)
      | none => none
    else if c = 0x6E then
      match stripLiteral (ascii "ull") rest with
      | some rest1 => some (JSON.null, rest1)
      | none => none
    else
      match parseNumber (c :: rest) with
      | some (n, rest1) => some (JSON.num n, rest1)
      | none => none
/-- The elements of a non-empty array up to its closing bracket. -/
def parseElems : Nat → Nat → GoString → Option (List JSON × GoString)
  | 0, _, _ => none
  | fuel + 1, depth, s =>
    match parseValue fuel depth s with
    | none => none
    | some (v, rest) =>
      match skipWs rest with
      | [] => none
      | c :: rest1 =>
        if c = 0x2C then
          match parseElems fuel depth (skipWs rest1) with
          | some (vs, rest2) => some (v :: vs, rest2)
          | none => none
        else if c = 0x5D then some ([v], rest1)
        else none
/-- The members of a non-empty object up to its closing brace. -/
def parseMembers : Nat → Nat → GoString → Option (List (GoString × JSON) × GoString)
  | 0, _, _ => none
  | _ + 1, _, [] => none
  | fuel + 1, depth, c :: rest =>
    if c = 0x22 then
      match parseStringBody 0 rest with
      | none => none
      | some (key, rest1) =>
        match skipWs rest1 with
        | [] => none
        | c2 :: rest2 =>
          if c2 = 0x3A then
            match parseValue fuel depth (skipWs rest2) with
            | none => none
            | some (v, rest3) =>
              match skipWs rest3 with
              | [] => none
              | c4 :: rest4 =>
                if c4 = 0x2C then
                  match parseMembers fuel depth (skipWs rest4) with
                  | some (ms, rest5) => some ((key, v) :: ms, rest5)
                  | none => none
                else if c4 = 0x7D then some ([(key, v)], rest4)
                else none
          else none
    else none
end

/-- A whole JSON text, as `checkValid` accepts it: one value between optional white
space and nothing else. -/
def parseJSON (data : GoString) : Option JSON :=
  match parseValue (2 * data.length + 2) 0 (skipWs data) with
  | some (v, rest) =>
    match skipWs rest with
    | [] => some v
    | _ :: _ => none
  | none => none

/-- The errors `Unmarshal` can report. -/
inductive UnmarshalError
  /-- The input is not a JSON text (Go `SyntaxError`). -/
  | malformed
  /-- A JSON value does not fit the Go field it is read into (`UnmarshalTypeError`). -/
  | typeMismatch
  deriving DecidableEq, Repr

/-- The function `foldRune` on the runes whose case orbit holds an ASCII letter:
the long s folds to `S`, the Kelvin sign to `K`. Other runes outside ASCII fold to
runes outside ASCII and are kept as they are here. -/
def foldRune (r : Nat) : Nat :=
  if r = 0x17F then 0x53 else if r = 0x212A then 0x4B else r

/-- The function `foldName`: the name with every rune replaced by the least rune of
its case orbit. The counter says how many following bytes belong to a rune already
folded. -/
def foldNameFrom : Nat → GoString → GoString
  | _, [] => []
  | n + 1, _ :: rest => foldNameFrom n rest
  | 0, c :: rest =>
    if c < 0x80 then
      (if 0x61 ≤ c ∧ c ≤ 0x7A then c - 0x20 else c) :: foldNameFrom 0 rest
    else
      encodeRune (foldRune (decodeRune (c :: rest)).1)
        ++ foldNameFrom ((decodeRune (c :: rest)).2 - 1) rest

/-- The function `foldName`. -/
def foldName (s : GoString) : GoString := foldNameFrom 0 s

/-- The struct field an object key selects: the field with exactly that name, else
the first field whose name equals it up to case. -/
def matchField (names : List GoString) (key : GoString) : Option GoString :=
  match names.find? (fun n => decide (n = key)) with
  | some n => some n
  | none => names.find? (fun n => decide (foldName n = foldName key))

/-- JSON names of the fields of `Message`. -/
def messageFields : List GoString := [ascii "traceContext", ascii "body"]

/-- JSON names of the fields of `Carrier`. -/
def carrierFields : List GoString := [ascii "fields"]

/-- A JSON value read into a Go `string` holding `cur`: `null` leaves it as it is. -/
def decodeString (cur : GoString) : JSON → Except UnmarshalError GoString
  | .str s => .ok s
  | .null => .ok cur
  | _ => .error .typeMismatch

/-- The members of a JSON object read into the entries of a map, in order; every
value is read into a fresh empty string. -/
def decodeEntries (es : Entries) : List (GoString × JSON) → Except UnmarshalError Entries
  | [] => .ok es
  | (k, v) :: rest =>
    match decodeString [] v with
    | .error e => .error e
    | .ok s => decodeEntries (Entries.store k s es) rest

/-- A JSON value read into a `map[string]string` holding `cur`: `null` makes it nil,
an object is added to the map (made first when it is nil). -/
def decodeMap (cur : GoMap) : JSON → Except UnmarshalError GoMap
  | .null => .ok none
  | .obj ms =>
    match decodeEntries (cur.getD []) ms with
    | .ok es => .ok (some es)
    | .error e => .error e
  | _ => .error .typeMismatch

/-- The members of a JSON object read into a `Carrier`; unknown members are skipped. -/
def decodeCarrierMembers (cur : Carrier) : List (GoString × JSON) → Except UnmarshalError Carrier
  | [] => .ok cur
  | (k, v) :: rest =>
    match matchField carrierFields k with
    | some _ =>
      match decodeMap cur.Fields v with
      | .error e => .error e
      | .ok m => decodeCarrierMembers { Fields := m } rest
    | none => decodeCarrierMembers cur rest

/-- A JSON value read into a `Carrier`: `null` leaves it as it is. -/
def decodeCarrier (cur : Carrier) : JSON → Except UnmarshalError Carrier
  | .null => .ok cur
  | .obj ms => decodeCarrierMembers cur ms
  | _ => .error .typeMismatch

/-- The members of a JSON object read into a `Message`; unknown members are skipped. -/
def decodeMessageMembers (cur : Message) : List (GoString × JSON) → Except UnmarshalError Message
  | [] => .ok cur
  | (k, v) :: rest =>
    match matchField messageFields k with
    | some n =>
      if n = ascii "traceContext" then
        match decodeCarrier cur.TraceContext v with
        | .error e => .error e
        | .ok c => decodeMessageMembers { cur with TraceContext := c } rest
      else
        match decodeString cur.Body v with
        | .error e => .error e
        | .ok b => decodeMessageMembers { cur with Body := b } rest
    | none => decodeMessageMembers cur rest

/-- A JSON value read into a `Message`: `null` leaves it as it is. -/
def decodeMessage (cur : Message) : JSON → Except UnmarshalError Message
  | .null => .ok cur
  | .obj ms => decodeMessageMembers cur ms
  | _ => .error .typeMismatch

/-- The call `json.Unmarshal(message, &newMessage)` on a zero `Message`: the input is
checked to be a JSON text, then read into the struct. A value of the wrong JSON
type for a field makes the call report an error (Go records the first such error
and reports it at the end; the caller stops on it either way). -/
def json_Unmarshal (data : GoString) : Except UnmarshalError Message :=
  match parseJSON data with
  | none => .error .malformed
  | some v => decodeMessage zeroMessage v

/-- Every key and value among the entries is valid UTF-8. -/
def entriesValid (es : Entries) : Prop :=
  ∀ e ∈ es, validUTF8 e.1 = true ∧ validUTF8 e.2 = true

/-- The JSON members a list of entries is written as. -/
def entriesJSON (es : Entries) : List (GoString × JSON) :=
  es.map (fun e => (e.1, JSON.str e.2))

/-- The JSON value a map is written as. -/
def mapJSON : GoMap → JSON
  | none => JSON.null
  | some es => JSON.obj (entriesJSON (sortEntries es))

/-- The JSON value a `Message` is written as. -/
def messageJSON (m : Message) : JSON :=
  JSON.obj [(ascii "traceContext", JSON.obj [(ascii "fields", mapJSON m.TraceContext.Fields)]),
    (ascii "body", JSON.str m.Body)]

/-- The keys of a map are pairwise distinct (true of every Go map). -/
def GoMap.distinctKeys : GoMap → Prop
  | none => True
  | some es => (es.map Prod.fst).Nodup

/-- Every key and value of the map is valid UTF-8. -/
def GoMap.validUTF8 : GoMap → Prop
  | none => True
  | some es => entriesValid es

instance (es : Entries) : Decidable (entriesValid es) := by
  unfold entriesValid; infer_instance

instance (m : GoMap) : Decidable (GoMap.distinctKeys m) := by
  cases m <;> unfold GoMap.distinctKeys <;> infer_instance

instance (m : GoMap) : Decidable (GoMap.validUTF8 m) := by
  cases m <;> unfold GoMap.validUTF8 <;> infer_instance

/-- The steps of a run that reach the tracing library or the other role, in order. -/
inductive Event
  /-- The call `otel.Tracer(name)`. -/
  | getTracer (name : String)
  /-- The call `tracer.Start(ctx, name)`. -/
  | spanStart (name : String)
  /-- The call `span.AddEvent(text)`. -/
  | spanEvent (text : String)
  /-- The span event that reports the carrier after injection (`%+v` of the carrier). -/
  | carrierInjected (carrier : Carrier)
  /-- The call `span.End()`. -/
  | spanEnd (name : String)
  /-- The propagator's `Inject`, which calls `Set` with these pairs. -/
  | inject (pairs : List (GoString × GoString))
  /-- The propagator's `Extract` on this carrier. -/
  | extract (carrier : Carrier)
  /-- The call `processB(messageBytes)`. -/
  | callProcessB (messageBytes : GoString)
  deriving DecidableEq, Repr

/-- A run of a function: the steps taken and the panic that ended it, if any. -/
structure Run where
  events : List Event
  panicked : Option GoPanic
  deriving DecidableEq, Repr

/-- The function `processB`: get the tracer, read the bytes into a `Message`, stop
with a panic when that fails, otherwise hand the carrier to `Extract` and start the
span `processB`. -/
def processB (message : GoString) : Run :=
  match json_Unmarshal message with
  | .error _ =>
    { events := [.getTracer "processB"],
      panicked := some (.explicit "Unable to unmarshal JSON message") }
  | .ok newMessage =>
    { events := [.getTracer "processB", .extract newMessage.TraceContext,
        .spanStart "processB",
        .spanEvent "context extracted from carrier, now we're in the right parent trace",
        .spanEnd "processB"],
      panicked := none }

/-- The function `processA`, given the pairs the propagator injects: get the tracer,
start the span `processA`, build the carrier, let the propagator inject into it, wrap
it in a `Message`, write it as JSON, stop with a panic when that fails, otherwise
call `processB` with the bytes. The deferred `span.End()` runs also when the
function panics. -/
def processA (injected : List (GoString × GoString)) : Run :=
  match Carrier.setAll newCarrier injected with
  | .error p =>
    { events := [.getTracer "processA", .spanStart "processA", .inject injected,
        .spanEnd "processA"],
      panicked := some p }
  | .ok traceCarrier =>
    match json_Marshal
        { TraceContext := traceCarrier, Body := ascii "a message meant for process B" } with
    | .error _ =>
      { events := [.getTracer "processA", .spanStart "processA", .inject injected,
          .carrierInjected traceCarrier, .spanEnd "processA"],
        panicked := some (.explicit "Unable to marshal JSON message") }
    | .ok messageBytes =>
      match (processB messageBytes).panicked with
      | some p =>
        { events := [.getTracer "processA", .spanStart "processA", .inject injected,
            .carrierInjected traceCarrier, .spanEvent "sending message to processB",
            .callProcessB messageBytes]
            ++ (processB messageBytes).events ++ [.spanEnd "processA"],
          panicked := some p }
      | none =>
        { events := [.getTracer "processA", .spanStart "processA", .inject injected,
            .carrierInjected traceCarrier, .spanEvent "sending message to processB",
            .callProcessB messageBytes]
            ++ (processB messageBytes).events
            ++ [.spanEvent "message sent to processB", .spanEnd "processA"],
          panicked := none }

/-! ## The JSON grammar of RFC 8259, over bytes -/

/-- White space: space, tab, line feed, carriage return. -/
def IsWs (s : GoString) : Prop :=
  ∀ c ∈ s, c = 0x20 ∨ c = 0x09 ∨ c = 0x0A ∨ c = 0x0D

/-- A hexadecimal digit. -/
def IsHex (c : Nat) : Prop :=
  (0x30 ≤ c ∧ c ≤ 0x39) ∨ (0x41 ≤ c ∧ c ≤ 0x46) ∨ (0x61 ≤ c ∧ c ≤ 0x66)

/-- A continuation byte of UTF-8. -/
def IsCont (c : Nat) : Prop := 0x80 ≤ c ∧ c ≤ 0xBF

/-- The bytes that follow the first byte `b` of a character outside ASCII in
well-formed UTF-8 (Unicode, table 3-7): two to four bytes in all, no overlong form,
no surrogate, nothing above U+10FFFF. -/
def IsUTF8Tail (b : Nat) : GoString → Prop
  | [b1] => 0xC2 ≤ b ∧ b ≤ 0xDF ∧ IsCont b1
  | [b1, b2] =>
    ((b = 0xE0 ∧ 0xA0 ≤ b1 ∧ b1 ≤ 0xBF) ∨ (0xE1 ≤ b ∧ b ≤ 0xEC ∧ IsCont b1) ∨
      (b = 0xED ∧ 0x80 ≤ b1 ∧ b1 ≤ 0x9F) ∨ (0xEE ≤ b ∧ b ≤ 0xEF ∧ IsCont b1)) ∧ IsCont b2
  | [b1, b2, b3] =>
    ((b = 0xF0 ∧ 0x90 ≤ b1 ∧ b1 ≤ 0xBF) ∨ (0xF1 ≤ b ∧ b ≤ 0xF3 ∧ IsCont b1) ∨
      (b = 0xF4 ∧ 0x80 ≤ b1 ∧ b1 ≤ 0x8F)) ∧ IsCont b2 ∧ IsCont b3
  | _ => False

/-- The characters of a string between its quotes, in UTF-8: an unescaped ASCII
character from 0x20 up other than the quote and the backslash, an unescaped
character outside ASCII as its well-formed UTF-8 bytes, or an escape of the grammar.
The parameter `raw` says which bytes from 0x80 up may besides stand on their own,
outside a well-formed sequence: none in RFC 8259. -/
inductive JChars (raw : Nat → Prop) : GoString → Prop
  | nil : JChars raw []
  | plain (c : Nat) (t : GoString) :
      0x20 ≤ c → c < 0x80 → c ≠ 0x22 → c ≠ 0x5C → JChars raw t → JChars raw (c :: t)
  | rune (b : Nat) (tail t : GoString) :
      IsUTF8Tail b tail → JChars raw t → JChars raw (b :: (tail ++ t))
  | rawByte (c : Nat) (t : GoString) : 0x80 ≤ c → raw c → JChars raw t → JChars raw (c :: t)
  | esc (e : Nat) (t : GoString) :
      e = 0x22 ∨ e = 0x5C ∨ e = 0x2F ∨ e = 0x62 ∨ e = 0x66 ∨ e = 0x6E ∨ e = 0x72 ∨ e = 0x74 →
      JChars raw t → JChars raw (0x5C :: e :: t)
  | uni (h1 h2 h3 h4 : Nat) (t : GoString) :
      IsHex h1 → IsHex h2 → IsHex h3 → IsHex h4 → JChars raw t →
      JChars raw (0x5C :: 0x75 :: h1 :: h2 :: h3 :: h4 :: t)

/-- A string: characters between two quotation marks. -/
def JString (raw : Nat → Prop) (s : GoString) : Prop :=
  ∃ body, s = 0x22 :: (body ++ [0x22]) ∧ JChars raw body

/-- One or more decimal digits. -/
def JDigits (s : GoString) : Prop :=
  s ≠ [] ∧ ∀ c ∈ s, 0x30 ≤ c ∧ c ≤ 0x39

/-- The integer part: `0`, or a digit from 1 to 9 followed by digits. -/
def JInt (s : GoString) : Prop :=
  s = [0x30] ∨ ∃ c ds, s = c :: ds ∧ 0x31 ≤ c ∧ c ≤ 0x39 ∧ ∀ d ∈ ds, 0x30 ≤ d ∧ d ≤ 0x39

/-- The fraction: a point and digits. -/
def JFrac (s : GoString) : Prop :=
  ∃ ds, s = 0x2E :: ds ∧ JDigits ds

/-- The exponent: `e` or `E`, an optional sign, digits. -/
def JExp (s : GoString) : Prop :=
  ∃ e sg ds, s = e :: (sg ++ ds) ∧ (e = 0x65 ∨ e = 0x45) ∧
    (sg = [] ∨ sg = [0x2B] ∨ sg = [0x2D]) ∧ JDigits ds

/-- A number: optional minus, integer part, optional fraction, optional exponent. -/
def JNumber (s : GoString) : Prop :=
  ∃ sg i f e, s = sg ++ i ++ f ++ e ∧ (sg = [] ∨ sg = [0x2D]) ∧ JInt i ∧
    (f = [] ∨ JFrac f) ∧ (e = [] ∨ JExp e)

/-- The syntactic categories of the grammar that contain values. -/
inductive JKind
  /-- A value. -/
  | value
  /-- The elements of an array, between its brackets. -/
  | elems
  /-- One member `name : value` of an object. -/
  | member
  /-- The members of an object, between its braces. -/
  | members
  deriving DecidableEq, Repr

/-- The grammar of RFC 8259 on bytes: `JSyntax raw k n s` says that `s` is a text of
category `k` whose arrays and objects are nested at most `n` deep. -/
inductive JSyntax (raw : Nat → Prop) : JKind → Nat → GoString → Prop
  | litNull (n : Nat) : JSyntax raw .value n [0x6E, 0x75, 0x6C, 0x6C]
  | litTrue (n : Nat) : JSyntax raw .value n [0x74, 0x72, 0x75, 0x65]
  | litFalse (n : Nat) : JSyntax raw .value n [0x66, 0x61, 0x6C, 0x73, 0x65]
  | number (n : Nat) (s : GoString) : JNumber s → JSyntax raw .value n s
  | string (n : Nat) (s : GoString) : JString raw s → JSyntax raw .value n s
  | emptyArray (n : Nat) (w : GoString) : IsWs w →
      JSyntax raw .value (n + 1) (0x5B :: (w ++ [0x5D]))
  | array (n : Nat) (body : GoString) : JSyntax raw .elems n body →
      JSyntax raw .value (n + 1) (0x5B :: (body ++ [0x5D]))
  | emptyObject (n : Nat) (w : GoString) : IsWs w →
      JSyntax raw .value (n + 1) (0x7B :: (w ++ [0x7D]))
  | object (n : Nat) (body : GoString) : JSyntax raw .members n body →
      JSyntax raw .value (n + 1) (0x7B :: (body ++ [0x7D]))
  | lastElem (n : Nat) (w1 v w2 : GoString) : IsWs w1 → JSyntax raw .value n v → IsWs w2 →
      JSyntax raw .elems n (w1 ++ v ++ w2)
  | moreElems (n : Nat) (w1 v w2 rest : GoString) : IsWs w1 → JSyntax raw .value n v →
      IsWs w2 → JSyntax raw .elems n rest → JSyntax raw .elems n (w1 ++ v ++ w2 ++ 0x2C :: rest)
  | member (n : Nat) (w1 k w2 w3 v w4 : GoString) : IsWs w1 → JString raw k → IsWs w2 →
      IsWs w3 → JSyntax raw .value n v → IsWs w4 →
      JSyntax raw .member n (w1 ++ k ++ w2 ++ 0x3A :: (w3 ++ v ++ w4))
  | lastMember (n : Nat) (m : GoString) : JSyntax raw .member n m → JSyntax raw .members n m
  | moreMembers (n : Nat) (m rest : GoString) : JSyntax raw .member n m →
      JSyntax raw .members n rest → JSyntax raw .members n (m ++ 0x2C :: rest)

/-- A JSON text nested at most `n` deep: one value between optional white space. -/
def JSONTextOf (raw : Nat → Prop) (n : Nat) (s : GoString) : Prop :=
  ∃ w1 v w2, s = w1 ++ v ++ w2 ∧ IsWs w1 ∧ JSyntax raw .value n v ∧ IsWs w2

/-- A JSON text of RFC 8259 in UTF-8. -/
def JSONText (s : GoString) : Prop := ∃ n, JSONTextOf (fun _ => False) n s

/-- A JSON text but for the encoding of its strings: between the quotes of a string
any byte from 0x80 up may stand on its own, so the text need not be valid UTF-8. -/
def LaxJSONText (s : GoString) : Prop := ∃ n, JSONTextOf (fun c => c < 0x100) n s

/-! ## What the reader reads a text as -/

/-- What may follow a value in a JSON text: nothing, white space, a comma, a closing
bracket or a closing brace. -/
def AfterValue (rest : GoString) : Prop :=
  ∀ c t, rest = c :: t → c = 0x20 ∨ c = 0x09 ∨ c = 0x0A ∨ c = 0x0D ∨ c = 0x2C ∨ c = 0x5D ∨ c = 0x7D

/-- The reader, given enough fuel, reads the text `c` as the value `v` when `d`
containers are open, whatever follows `c` that may follow a value. -/
def ReadsValue (d : Nat) (c : GoString) (v : JSON) : Prop :=
  ∀ rest, AfterValue rest → ∃ f0, ∀ f, f0 ≤ f → parseValue f d (c ++ rest) = some (v, rest)

/-- The reader, given enough fuel, reads the text `body` up to the closing bracket as
the elements `vs` of an array. -/
def ReadsElems (d : Nat) (body : GoString) (vs : List JSON) : Prop :=
  ∀ rest, ∃ f0, ∀ f, f0 ≤ f →
    parseElems f d (skipWs (body ++ 0x5D :: rest)) = some (vs, rest)

/-- The reader, given enough fuel, reads the text `body` up to the closing brace as
the members `ms` of an object. -/
def ReadsMembers (d : Nat) (body : GoString) (ms : List (GoString × JSON)) : Prop :=
  ∀ rest, ∃ f0, ∀ f, f0 ≤ f →
    parseMembers f d (skipWs (body ++ 0x7D :: rest)) = some (ms, rest)

/-- The reader reads the text `m` as the member `k : v`, be it the last member of an
object or one followed by a comma and more members. -/
def ReadsMember (d : Nat) (m k : GoString) (v : JSON) : Prop :=
  ReadsMembers d m [(k, v)] ∧
    ∀ tail ms, ReadsMembers d tail ms → ReadsMembers d (m ++ 0x2C :: tail) ((k, v) :: ms)

/-- The name of the member at the start of a text: its key, read as the reader reads
a string literal (escapes decoded, bytes that are not valid UTF-8 replaced). -/
def memberName (m : GoString) : Option GoString :=
  match skipWs m with
  | 0x22 :: t =>
    match parseStringBody 0 t with
    | some (name, _) => some name
    | none => none
  | _ => none

/-- What the reader accepts of each syntactic category, within the depth limit. -/
def Accepts (k : JKind) (n : Nat) (s : GoString) : Prop :=
  match k with
  | .value => ∀ d, d + n ≤ maxNestingDepth → ∃ v, ReadsValue d s v
  | .elems => ∀ d, d + n ≤ maxNestingDepth → ∃ vs, ReadsElems d s vs
  | .member => ∀ d, d + n ≤ maxNestingDepth →
      ∃ name v, memberName s = some name ∧ ReadsMember d s name v
  | .members => ∀ d, d + n ≤ maxNestingDepth → ∃ ms, ReadsMembers d s ms

/-! ## Adding members to an object -/

/-- The members `ms2` are the members `ms1` with further members put in, at any
places, whose names satisfy `extra`. -/
inductive AddedMembers (extra : GoString → Prop) :
    List (GoString × JSON) → List (GoString × JSON) → Prop
  | done : AddedMembers extra [] []
  | keep (m : GoString × JSON) (ms1 ms2 : List (GoString × JSON)) :
      AddedMembers extra ms1 ms2 → AddedMembers extra (m :: ms1) (m :: ms2)
  | add (n : GoString) (v : JSON) (ms1 ms2 : List (GoString × JSON)) :
      extra n → AddedMembers extra ms1 ms2 → AddedMembers extra ms1 ((n, v) :: ms2)

/-- The top-level members `ms2` are `ms1` with further members put in whose names
satisfy `extraTop`, and with further members whose names satisfy `extraCarrier` put
into the objects that are values of members of `ms1`. -/
inductive AddedToMessage (extraTop extraCarrier : GoString → Prop) :
    List (GoString × JSON) → List (GoString × JSON) → Prop
  | done : AddedToMessage extraTop extraCarrier [] []
  | keep (m : GoString × JSON) (ms1 ms2 : List (GoString × JSON)) :
      AddedToMessage extraTop extraCarrier ms1 ms2 →
      AddedToMessage extraTop extraCarrier (m :: ms1) (m :: ms2)
  | inner (n : GoString) (cs1 cs2 ms1 ms2 : List (GoString × JSON)) :
      AddedMembers extraCarrier cs1 cs2 → AddedToMessage extraTop extraCarrier ms1 ms2 →
      AddedToMessage extraTop extraCarrier ((n, JSON.obj cs1) :: ms1) ((n, JSON.obj cs2) :: ms2)
  | add (n : GoString) (v : JSON) (ms1 ms2 : List (GoString × JSON)) :
      extraTop n → AddedToMessage extraTop extraCarrier ms1 ms2 →
      AddedToMessage extraTop extraCarrier ms1 ((n, v) :: ms2)

/-- The value stored for `k` by the last pair of `pairs` whose key is `k`. -/
def lastValue (k : GoString) (pairs : List (GoString × GoString)) : Option GoString :=
  Entries.find k pairs.reverse

/-- The name `n` is none of `fields`, neither exactly nor up to case. -/
def unknownTo (fields : List GoString) (n : GoString) : Prop :=
  n ∉ fields ∧ ∀ f ∈ fields, foldName f ≠ foldName n

/-- A member text nested at most `n` deep whose name, as the reader decodes it,
satisfies `extra`. -/
def IsAddedMember (raw : Nat → Prop) (extra : GoString → Prop) (n : Nat) (a : GoString) : Prop :=
  JSyntax raw .member n a ∧ ∃ name, memberName a = some name ∧ extra name

/-- A member text nested at most `n` deep that is kept as it is. -/
def IsKeptMember (raw : Nat → Prop) (n : Nat) (m m2 : GoString) : Prop :=
  JSyntax raw .member n m ∧ m2 = m

/-- The text `body2` of the members of an object is the text `body` with further
members put in, before any member or after the last one: `added` says what the
further members are, `same m m2` that the member `m` of `body` stands as `m2` in
`body2`. -/
inductive MembersAdded (same : GoString → GoString → Prop) (added : GoString → Prop) :
    GoString → GoString → Prop
  | last (m m2 : GoString) : same m m2 → MembersAdded same added m m2
  | keep (m m2 r r2 : GoString) : same m m2 → MembersAdded same added r r2 →
      MembersAdded same added (m ++ 0x2C :: r) (m2 ++ 0x2C :: r2)
  | addBefore (a r r2 : GoString) : added a → MembersAdded same added r r2 →
      MembersAdded same added r (a ++ 0x2C :: r2)
  | addAfter (a r r2 : GoString) : added a → MembersAdded same added r r2 →
      MembersAdded same added r (r2 ++ 0x2C :: a)

/-- The text of one or more members, each a further member. -/
inductive AllAdded (added : GoString → Prop) : GoString → Prop
  | one (a : GoString) : added a → AllAdded added a
  | more (a r : GoString) : added a → AllAdded added r → AllAdded added (a ++ 0x2C :: r)

/-- The object text `o2` is the object text `o` with further members put in. -/
inductive ObjectAdded (same : GoString → GoString → Prop) (added : GoString → Prop) :
    GoString → GoString → Prop
  | toEmpty (w b2 : GoString) : IsWs w → AllAdded added b2 →
      ObjectAdded same added (0x7B :: (w ++ [0x7D])) (0x7B :: (b2 ++ [0x7D]))
  | toMembers (b b2 : GoString) : MembersAdded same added b b2 →
      ObjectAdded same added (0x7B :: (b ++ [0x7D])) (0x7B :: (b2 ++ [0x7D]))

/-- A member of the top-level object as it stands after members were added: the
member as it was, or the same name with an object value (as `traceContext`) into
which members were put whose names are unknown to `Carrier`. -/
def IsKeptOrExtended (raw : Nat → Prop) (n : Nat) (m m2 : GoString) : Prop :=
  IsKeptMember raw (n + 1) m m2 ∨
  ∃ w1 k w2 w3 o o2 w4, m = w1 ++ k ++ w2 ++ 0x3A :: (w3 ++ o ++ w4) ∧
    m2 = w1 ++ k ++ w2 ++ 0x3A :: (w3 ++ o2 ++ w4) ∧
    IsWs w1 ∧ JString raw k ∧ IsWs w2 ∧ IsWs w3 ∧ IsWs w4 ∧
    ObjectAdded (IsKeptMember raw n) (IsAddedMember raw (unknownTo carrierFields) n) o o2

/-- A message with two entries: one value needs escapes and holds a two-byte rune. -/
def sampleMessage : Message :=
  { TraceContext :=
      { Fields := some [(ascii "traceparent", ascii "00-aa-bb-01"),
          (ascii "a<b", [0x22, 0xC3, 0xA9, 0x0A])] },
    Body := ascii "a message meant for process B" }

/-- The message documented for the wire, as bytes: the pairs stand directly under
`traceContext`. -/
def documentedMessage : GoString :=
  ascii ("\x7b\"traceContext\": \x7b\"traceparent\": \"00-aaaa...-bbbb...-01\"\x7d, "
    ++ "\"body\": \"a message meant for process B\"\x7d")

/-- The same message in the format the structs declare: the pairs stand under
`traceContext.fields`. -/
def fieldsMessage : GoString :=
  ascii ("\x7b\"traceContext\": \x7b\"fields\": \x7b\"traceparent\": "
    ++ "\"00-aaaa...-bbbb...-01\"\x7d\x7d, \"body\": \"a message meant for process B\"\x7d")

/-- A message in the format of the structs. -/
def plainMessage : GoString :=
  ascii ("\x7b\"traceContext\":\x7b\"fields\":\x7b\"traceparent\":\"v\"\x7d\x7d,"
    ++ "\"body\":\"x\"\x7d")

/-- The message `plainMessage` with the member `note` added to the top-level object
and the member `version` added to the `traceContext` object. -/
def extendedMessage : GoString :=
  ascii ("\x7b\"note\":[1,true],\"traceContext\":\x7b\"fields\":\x7b\"traceparent\":\"v\"\x7d,"
    ++ "\"version\":2\x7d,\"body\":\"x\"\x7d")

/-- The bytes a JSON value can start with. -/
def valueStart (c : Nat) : Bool :=
  decide (c = 0x7B ∨ c = 0x5B ∨ c = 0x22 ∨ c = 0x74 ∨ c = 0x66 ∨ c = 0x6E ∨ c = 0x2D ∨
    (0x30 ≤ c ∧ c ≤ 0x39))

/-- The message `body = x` with a further member `deep` whose value is an array
nested `n` deep. -/
def deepMessage (n : Nat) : GoString :=
  ascii "\x7b\"body\":\"x\",\"deep\":" ++ List.replicate n 0x5B
    ++ List.replicate n 0x5D ++ [0x7D]

/-- The bytes of an object with the member `x` whose string value is the single byte
0xFF, which occurs in no UTF-8 text. -/
def rawByteMessage : GoString :=
  ascii "\x7b\"x\":\"" ++ [0xFF] ++ ascii "\"\x7d"

/-! ## The encoder on a `Message` -/

theorem encodeEach_strings (es : Entries) :
    encodeEach (es.map (fun e => (e.1, GoValue.string e.2)))
      = es.map (fun e => (e.1, Except.ok (appendString e.2))) := by
  induction es with
  | nil => simp [encodeEach]
  | cons e rest ih =>
    obtain ⟨k, v⟩ := e
    simp [encodeEach, encodeValue, ih]

theorem insertByKey_map {α β : Type} (g : α → β) (e : GoString × α) (l : List (GoString × α)) :
    insertByKey (e.1, g e.2) (l.map (fun x => (x.1, g x.2)))
      = (insertByKey e l).map (fun x => (x.1, g x.2)) := by
  induction l with
  | nil => simp [insertByKey]
  | cons a rest ih =>
    simp only [List.map_cons, insertByKey]
    split
    · simp
    · simp [ih]

theorem sortByKey_map {α β : Type} (g : α → β) (l : List (GoString × α)) :
    sortByKey (l.map (fun x => (x.1, g x.2))) = (sortByKey l).map (fun x => (x.1, g x.2)) := by
  induction l with
  | nil => simp [sortByKey]
  | cons a rest ih =>
    simp only [List.map_cons, sortByKey, ih]
    exact insertByKey_map g a (sortByKey rest)

theorem insertByKey_eq_insertEntry (e : GoString × GoString) (l : Entries) :
    insertByKey e l = insertEntry e l := by
  induction l with
  | nil => rfl
  | cons a rest ih => simp [insertByKey, insertEntry, ih]

theorem sortByKey_eq_sortEntries (l : Entries) : sortByKey l = sortEntries l := by
  induction l with
  | nil => rfl
  | cons a rest ih => simp [sortByKey, sortEntries, ih, insertByKey_eq_insertEntry]

theorem joinMembers_strings (es : Entries) :
    joinMembers (es.map (fun e => (e.1, Except.ok (appendString e.2))))
      = .ok (encodeEntries es) := by
  induction es with
  | nil => simp [joinMembers, encodeEntries]
  | cons e rest ih =>
    obtain ⟨k, v⟩ := e
    cases rest with
    | nil => simp [joinMembers, encodeEntries]
    | cons e2 rest2 =>
      have step : joinMembers (((k, v) :: e2 :: rest2).map
          (fun e => (e.1, Except.ok (appendString e.2))))
          = match joinMembers ((e2 :: rest2).map (fun e => (e.1, Except.ok (appendString e.2)))) with
            | .error e => .error e
            | .ok more => .ok (appendString k ++ [0x3A] ++ appendString v ++ [0x2C] ++ more) := rfl
      rw [step, ih]
      rfl

theorem json_Marshal_eq (m : Message) : json_Marshal m = .ok (encodeMessage m) := by
  obtain ⟨⟨fields⟩, body⟩ := m
  have h1 : ascii "\x7b\"traceContext\":"
      = 0x7B :: (appendString (ascii "traceContext") ++ [0x3A]) := by decide
  have h2 : ascii ",\"body\":" = 0x2C :: (appendString (ascii "body") ++ [0x3A]) := by decide
  have h3 : ascii "\x7d" = [0x7D] := by decide
  have h4 : ascii "\x7b\"fields\":" = 0x7B :: (appendString (ascii "fields") ++ [0x3A]) := by
    decide
  rcases fields with _ | es
  · simp [json_Marshal, Message.toValue, Carrier.toValue, encodeValue, encodeEach, joinMembers,
      wrapObject, encodeMessage, encodeCarrier, encodeMap, h1, h2, h3, h4]
  · have hs := sortByKey_map
      (fun v => (Except.ok (appendString v) : Except MarshalError GoString)) es
    rw [sortByKey_eq_sortEntries] at hs
    have hj := joinMembers_strings (sortEntries es)
    simp only [json_Marshal, Message.toValue, Carrier.toValue, encodeValue, encodeEach,
      Option.map, encodeEach_strings, hs, hj, joinMembers, wrapObject, encodeMessage,
      encodeCarrier, encodeMap, h1, h2, h3, h4]
    simp

/-! ## Lemmas on map entries -/

theorem Entries.find_store_same (k v : GoString) (es : Entries) :
    Entries.find k (Entries.store k v es) = some v := by
  induction es with
  | nil => simp [Entries.store, Entries.find]
  | cons e rest ih =>
    obtain ⟨k', v'⟩ := e
    by_cases h : k' = k
    · simp [Entries.store, Entries.find, h]
    · simp [Entries.store, Entries.find, h, ih]

theorem Entries.find_store_other (k v k' : GoString) (es : Entries) (h : k' ≠ k) :
    Entries.find k' (Entries.store k v es) = Entries.find k' es := by
  induction es with
  | nil => simp [Entries.store, Entries.find, Ne.symm h]
  | cons e rest ih =>
    obtain ⟨k0, v0⟩ := e
    by_cases h0 : k0 = k
    · subst h0
      simp [Entries.store, Entries.find, Ne.symm h]
    · simp [Entries.store, Entries.find, h0, ih]

theorem Entries.find_eq_none_iff (k : GoString) (es : Entries) :
    Entries.find k es = none ↔ k ∉ es.map Prod.fst := by
  induction es with
  | nil => simp [Entries.find]
  | cons e rest ih =>
    obtain ⟨k0, v0⟩ := e
    by_cases h0 : k0 = k
    · simp [Entries.find, h0]
    · simp only [Entries.find, h0, if_false, ih, List.map_cons, List.mem_cons, not_or]
      constructor
      · intro h; exact ⟨fun e => h0 e.symm, h⟩
      · intro h; exact h.2

theorem Entries.keys_store (k v : GoString) (es : Entries) :
    (Entries.store k v es).map Prod.fst =
      if k ∈ es.map Prod.fst then es.map Prod.fst else es.map Prod.fst ++ [k] := by
  induction es with
  | nil => simp [Entries.store]
  | cons e rest ih =>
    obtain ⟨k0, v0⟩ := e
    by_cases h0 : k0 = k
    · simp [Entries.store, h0]
    · have h1 : ¬ k = k0 := fun e => h0 e.symm
      simp only [Entries.store, h0, if_false, List.map_cons, ih, List.mem_cons, h1, false_or]
      split <;> simp

theorem foldl_append_singleton (l acc : List GoString) :
    l.foldl (fun keys key => keys ++ [key]) acc = acc ++ l := by
  induction l generalizing acc with
  | nil => simp
  | cons a rest ih => simp [ih]

theorem Carrier.Keys_eq (c : Carrier) : Carrier.Keys c = GoMap.rangeKeys c.Fields := by
  simp [Carrier.Keys, foldl_append_singleton]

theorem hexVal_hexDigit (n : Nat) (h : n < 16) : hexVal (hexDigit n) = some n := by
  interval_cases n <;> rfl

theorem decodeRune_multibyte (b : Nat) (t : GoString) (hb : ¬ b < 0x80)
    (hv : decodeRune (b :: t) ≠ (runeError, 1)) :
    ∃ cont t', t = cont ++ t' ∧ (decodeRune (b :: t)).2 = cont.length + 1 ∧
      (∀ X, decodeRune (b :: (cont ++ X)) = decodeRune (b :: t)) ∧
      encodeRune (decodeRune (b :: t)).1 = b :: cont ∧
      0x80 ≤ (decodeRune (b :: t)).1 ∧ ∀ x ∈ cont, 0x80 ≤ x := by
  unfold decodeRune at hv ⊢
  simp only [hb, if_false] at hv ⊢
  by_cases h1 : b < 0xC2 ∨ 0xF4 < b
  · simp [h1] at hv
  simp only [h1, if_false] at hv ⊢
  rcases t with _ | ⟨b1, t1⟩
  · simp at hv
  simp only at hv ⊢
  by_cases h2 : b1 < acceptLo b ∨ acceptHi b < b1
  · simp [h2] at hv
  simp only [h2, if_false] at hv ⊢
  have hlo : 0x80 ≤ acceptLo b := by unfold acceptLo; split_ifs <;> omega
  have hhi : acceptHi b ≤ 0xBF := by unfold acceptHi; split_ifs <;> omega
  by_cases h3 : b < 0xE0
  · simp only [h3, if_true]
    refine ⟨[b1], t1, rfl, rfl, ?_, ?_, ?_, ?_⟩
    · intro X; simp [h2]
    · unfold encodeRune
      have e1 : ¬ (b % 32 * 64 + b1 % 64 ≤ 0x7F) := by omega
      have e2 : b % 32 * 64 + b1 % 64 ≤ 0x7FF := by omega
      simp only [e1, e2, if_false, if_true]
      congr 1
      · omega
      · congr 1; omega
    · show 0x80 ≤ b % 32 * 64 + b1 % 64
      omega
    · intro x hx
      simp only [List.mem_singleton] at hx
      omega
  simp only [h3, if_false] at hv ⊢
  rcases t1 with _ | ⟨b2, t2⟩
  · simp at hv
  simp only at hv ⊢
  by_cases h4 : b2 < 0x80 ∨ 0xBF < b2
  · simp [h4] at hv
  simp only [h4, if_false] at hv ⊢
  by_cases h5 : b < 0xF0
  · simp only [h5, if_true]
    have hlo' : 0xE1 ≤ b ∨ 0xA0 ≤ b1 := by
      by_cases hb : b = 0xE0
      · right; unfold acceptLo at h2; simp [hb] at h2; omega
      · left; omega
    have hhi' : b < 0xED ∨ 0xED < b ∨ b1 ≤ 0x9F := by
      by_cases hb : b = 0xED
      · right; right; unfold acceptHi at h2; simp [hb] at h2; omega
      · omega
    refine ⟨[b1, b2], t2, rfl, rfl, ?_, ?_, ?_, ?_⟩
    · intro X; simp [h2, h4]
    · unfold encodeRune maxRune
      have e1 : ¬ (b % 16 * 4096 + b1 % 64 * 64 + b2 % 64 ≤ 0x7F) := by omega
      have e2 : ¬ (b % 16 * 4096 + b1 % 64 * 64 + b2 % 64 ≤ 0x7FF) := by omega
      have e3 : ¬ (0x10FFFF < b % 16 * 4096 + b1 % 64 * 64 + b2 % 64 ∨
          (0xD800 ≤ b % 16 * 4096 + b1 % 64 * 64 + b2 % 64 ∧
            b % 16 * 4096 + b1 % 64 * 64 + b2 % 64 ≤ 0xDFFF)) := by omega
      have e4 : b % 16 * 4096 + b1 % 64 * 64 + b2 % 64 ≤ 0xFFFF := by omega
      simp only [e1, e2, e3, e4, if_false, if_true]
      congr 1
      · omega
      · congr 1
        · omega
        · congr 1; omega
    · show 0x80 ≤ b % 16 * 4096 + b1 % 64 * 64 + b2 % 64
      omega
    · intro x hx
      simp only [List.mem_cons, List.mem_singleton, List.not_mem_nil, or_false] at hx
      omega
  simp only [h5, if_false] at hv ⊢
  rcases t2 with _ | ⟨b3, t3⟩
  · simp at hv
  simp only at hv ⊢
  by_cases h6 : b3 < 0x80 ∨ 0xBF < b3
  · simp [h6] at hv
  simp only [h6, if_false] at hv ⊢
  have hlo' : 0xF1 ≤ b ∨ 0x90 ≤ b1 := by
    by_cases hb : b = 0xF0
    · right; unfold acceptLo at h2; simp [hb] at h2; omega
    · left; omega
  have hhi' : b < 0xF4 ∨ b1 ≤ 0x8F := by
    by_cases hb : b = 0xF4
    · right; unfold acceptHi at h2; simp [hb] at h2; omega
    · left; omega
  refine ⟨[b1, b2, b3], t3, rfl, rfl, ?_, ?_, ?_, ?_⟩
  · intro X; simp [h2, h4, h6]
  · unfold encodeRune maxRune
    have e1 : ¬ (b % 8 * 262144 + b1 % 64 * 4096 + b2 % 64 * 64 + b3 % 64 ≤ 0x7F) := by omega
    have e2 : ¬ (b % 8 * 262144 + b1 % 64 * 4096 + b2 % 64 * 64 + b3 % 64 ≤ 0x7FF) := by omega
    have e3 : ¬ (0x10FFFF < b % 8 * 262144 + b1 % 64 * 4096 + b2 % 64 * 64 + b3 % 64 ∨
        (0xD800 ≤ b % 8 * 262144 + b1 % 64 * 4096 + b2 % 64 * 64 + b3 % 64 ∧
          b % 8 * 262144 + b1 % 64 * 4096 + b2 % 64 * 64 + b3 % 64 ≤ 0xDFFF)) := by omega
    have e4 : ¬ (b % 8 * 262144 + b1 % 64 * 4096 + b2 % 64 * 64 + b3 % 64 ≤ 0xFFFF) := by omega
    simp only [e1, e2, e3, e4, if_false]
    congr 1
    · omega
    · congr 1
      · omega
      · congr 1
        · omega
        · congr 1; omega
  · show 0x80 ≤ b % 8 * 262144 + b1 % 64 * 4096 + b2 % 64 * 64 + b3 % 64
    omega
  · intro x hx
    simp only [List.mem_cons, List.mem_singleton, List.not_mem_nil, or_false] at hx
    omega

theorem quoteBody_copy (cont t : GoString) :
    quoteBody cont.length 0 (cont ++ t) = cont ++ quoteBody 0 0 t := by
  induction cont with
  | nil => rfl
  | cons c cs ih => simp [quoteBody, ih]

theorem quoteBody_skip (cont t : GoString) :
    quoteBody 0 cont.length (cont ++ t) = quoteBody 0 0 t := by
  induction cont with
  | nil => rfl
  | cons c cs ih => simp [quoteBody, ih]

theorem parseStringBody_skip (cont t : GoString) :
    parseStringBody cont.length (cont ++ t) = parseStringBody 0 t := by
  induction cont with
  | nil => rfl
  | cons c cs ih => simp [parseStringBody, ih]

theorem validUTF8From_skip (cont t : GoString) :
    validUTF8From cont.length (cont ++ t) = validUTF8From 0 t := by
  induction cont with
  | nil => rfl
  | cons c cs ih => simp [validUTF8From, ih]

theorem getu4_ascii (b : Nat) (hb : b < 0x80) :
    getu4 0x30 0x30 (hexDigit (b / 16)) (hexDigit (b % 16)) = some b := by
  have h1 : hexVal (hexDigit (b / 16)) = some (b / 16) := hexVal_hexDigit _ (by omega)
  have h2 : hexVal (hexDigit (b % 16)) = some (b % 16) := hexVal_hexDigit _ (by omega)
  have h0 : hexVal 0x30 = some 0 := rfl
  simp only [getu4, h0, h1, h2]
  congr 1
  omega

theorem parseStringBody_escapeByte (b : Nat) (t : GoString) (hb : b < 0x80)
    (hs : htmlSafe b = false) :
    parseStringBody 0 (escapeByte b ++ t) = prepend [b] (parseStringBody 0 t) := by
  unfold escapeByte
  by_cases h1 : b = 0x5C ∨ b = 0x22
  · rcases h1 with h | h <;> subst h <;> simp only [true_or, or_true, if_true] <;>
      conv_lhs => unfold parseStringBody
    all_goals simp [unescape]
  simp only [h1, if_false]
  by_cases h2 : b = 0x08
  · subst h2; conv_lhs => unfold parseStringBody
    simp [unescape]
  by_cases h3 : b = 0x0C
  · subst h3; conv_lhs => unfold parseStringBody
    simp [unescape]
  by_cases h4 : b = 0x0A
  · subst h4; conv_lhs => unfold parseStringBody
    simp [unescape]
  by_cases h5 : b = 0x0D
  · subst h5; conv_lhs => unfold parseStringBody
    simp [unescape]
  by_cases h6 : b = 0x09
  · subst h6; conv_lhs => unfold parseStringBody
    simp [unescape]
  simp only [h2, h3, h4, h5, h6, if_false]
  have hg := getu4_ascii b hb
  have hns : ¬ (0xD800 ≤ b ∧ b ≤ 0xDFFF) := by omega
  have he : encodeRune b = [b] := by
    unfold encodeRune
    simp [show b ≤ 0x7F by omega]
  conv_lhs => unfold parseStringBody
  simp [hg, hns, he]

theorem parse_quoteBody (n : Nat) : ∀ (s rest : GoString), s.length = n →
    validUTF8From 0 s = true →
    parseStringBody 0 (quoteBody 0 0 s ++ 0x22 :: rest) = some (s, rest) := by
  induction n using Nat.strong_induction_on with
  | _ n ih =>
    intro s rest hlen hv
    rcases s with _ | ⟨b, t⟩
    · conv_lhs => unfold parseStringBody
      simp [quoteBody]
    · by_cases hb : b < 0x80
      · have iht := ih t.length (by simp at hlen; omega) t rest rfl
          (by unfold validUTF8From at hv; simpa [hb] using hv)
        by_cases hs : htmlSafe b = true
        · have hs' := hs
          simp only [htmlSafe, decide_eq_true_eq] at hs'
          unfold quoteBody
          simp only [hb, hs, if_true, List.cons_append]
          conv_lhs => unfold parseStringBody
          have h20 : ¬ b < 0x20 := by omega
          simp [hs'.2.2.1, hs'.2.2.2.2.2, h20, hb, iht, prepend]
        · have hs' : htmlSafe b = false := by simpa using hs
          unfold quoteBody
          simp only [hb, hs', if_true, Bool.false_eq_true, if_false, List.append_assoc]
          rw [parseStringBody_escapeByte b _ hb hs', iht]
          rfl
      · have hv' := hv
        unfold validUTF8From at hv'
        simp only [hb, if_false] at hv'
        by_cases hd : decodeRune (b :: t) = (runeError, 1)
        · simp [hd] at hv'
        simp only [hd, if_false] at hv'
        obtain ⟨cont, t', ht, hsz, hX, henc, hge, _⟩ := decodeRune_multibyte b t hb hd
        have hsz' : (decodeRune (b :: t)).2 - 1 = cont.length := by omega
        subst ht
        rw [hsz', validUTF8From_skip] at hv'
        have iht := ih t'.length (by simp at hlen; omega) t' rest rfl hv'
        unfold quoteBody
        simp only [hb, hd, if_false]
        by_cases hls : (decodeRune (b :: (cont ++ t'))).1 = 0x2028 ∨ (decodeRune (b :: (cont ++ t'))).1 = 0x2029
        · simp only [hls, if_true, hsz']
          conv_lhs => rw [quoteBody_skip]
          have hg : getu4 0x32 0x30 0x32 (hexDigit ((decodeRune (b :: (cont ++ t'))).1 % 16))
              = some (decodeRune (b :: (cont ++ t'))).1 := by
            rcases hls with h | h <;> rw [h] <;> rfl
          have hns : ¬ (0xD800 ≤ (decodeRune (b :: (cont ++ t'))).1 ∧ (decodeRune (b :: (cont ++ t'))).1 ≤ 0xDFFF) := by
            rcases hls with h | h <;> rw [h] <;> omega
          conv_lhs => unfold parseStringBody
          simp [hg, hns, henc, iht, prepend]
        · simp only [hls, if_false, hsz']
          conv_lhs => rw [quoteBody_copy]
          conv_lhs => unfold parseStringBody
          have h22 : ¬ b = 0x22 := by omega
          have h5c : ¬ b = 0x5C := by omega
          have h20 : ¬ b < 0x20 := by omega
          simp only [List.cons_append, h22, h5c, h20, hb, if_false, List.append_assoc, hX, henc,
            hsz', parseStringBody_skip, iht, prepend]

theorem parseStringBody_appendString (s rest : GoString) (h : validUTF8 s = true) :
    parseStringBody 0 (quoteBody 0 0 s ++ 0x22 :: rest) = some (s, rest) :=
  parse_quoteBody s.length s rest rfl h

theorem appendString_append (s rest : GoString) :
    appendString s ++ rest = 0x22 :: (quoteBody 0 0 s ++ 0x22 :: rest) := by
  simp [appendString]

theorem skipWs_cons (c : Nat) (t : GoString) (h : isSpace c = false) :
    skipWs (c :: t) = c :: t := by
  simp [skipWs, h]

theorem parseValue_string (f d : Nat) (s rest : GoString) (h : validUTF8 s = true) :
    parseValue (f + 1) d (appendString s ++ rest) = some (JSON.str s, rest) := by
  rw [appendString_append]
  conv_lhs => unfold parseValue
  simp [parseStringBody_appendString s rest h]

theorem encodeEntries_cons (k v : GoString) (es : Entries) (rest : GoString) :
    encodeEntries ((k, v) :: es) ++ 0x7D :: rest =
      appendString k ++ 0x3A :: (appendString v ++
        (match es with
         | [] => 0x7D :: rest
         | _ :: _ => 0x2C :: (encodeEntries es ++ 0x7D :: rest))) := by
  cases es <;> simp [encodeEntries]

theorem encodeEntries_head (e : GoString × GoString) (es : Entries) (rest : GoString) :
    ∃ t, encodeEntries (e :: es) ++ rest = 0x22 :: t := by
  obtain ⟨k, v⟩ := e
  cases es <;> simp [encodeEntries, appendString]

theorem parseMembers_encodeEntries (es : Entries) :
    ∀ (e : GoString × GoString) (f d : Nat) (rest : GoString),
      entriesValid (e :: es) → es.length + 2 ≤ f →
      parseMembers f d (encodeEntries (e :: es) ++ 0x7D :: rest)
        = some (entriesJSON (e :: es), rest) := by
  induction es with
  | nil =>
    intro e f d rest hv hf
    obtain ⟨k, v⟩ := e
    obtain ⟨f, rfl⟩ : ∃ f', f = f' + 2 := ⟨f - 2, by simp at hf; omega⟩
    have hk := (hv (k, v) (by simp)).1
    have hvv := (hv (k, v) (by simp)).2
    rw [encodeEntries_cons, appendString_append]
    conv_lhs => unfold parseMembers
    simp only [if_true, parseStringBody_appendString k _ hk]
    rw [skipWs_cons _ _ (by decide)]
    simp only [if_true]
    rw [appendString_append, skipWs_cons _ _ (by decide), ← appendString_append,
      parseValue_string f d v _ hvv]
    simp only
    rw [skipWs_cons _ _ (by decide)]
    simp [entriesJSON]
  | cons e2 es ih =>
    intro e f d rest hv hf
    obtain ⟨k, v⟩ := e
    obtain ⟨f, rfl⟩ : ∃ f', f = f' + 2 := ⟨f - 2, by simp at hf; omega⟩
    have hk := (hv (k, v) (by simp)).1
    have hvv := (hv (k, v) (by simp)).2
    have hv2 : entriesValid (e2 :: es) := fun x hx => hv x (List.mem_cons_of_mem _ hx)
    have ih' := ih e2 (f + 1) d rest hv2 (by simp at hf ⊢; omega)
    rw [encodeEntries_cons, appendString_append]
    conv_lhs => unfold parseMembers
    simp only [if_true, parseStringBody_appendString k _ hk]
    rw [skipWs_cons _ _ (by decide)]
    simp only [if_true]
    rw [appendString_append, skipWs_cons _ _ (by decide), ← appendString_append,
      parseValue_string f d v _ hvv]
    simp only
    rw [skipWs_cons _ _ (by decide)]
    obtain ⟨t, ht⟩ := encodeEntries_head e2 es (0x7D :: rest)
    have hs : skipWs (encodeEntries (e2 :: es) ++ 0x7D :: rest)
        = encodeEntries (e2 :: es) ++ 0x7D :: rest := by
      rw [ht]; exact skipWs_cons _ _ (by decide)
    simp only [if_true, hs, ih']
    simp [entriesJSON]

theorem insertEntry_perm (e : GoString × GoString) (es : Entries) :
    (insertEntry e es).Perm (e :: es) := by
  induction es with
  | nil => simp [insertEntry]
  | cons a rest ih =>
    unfold insertEntry
    split
    · exact List.Perm.refl _
    · exact (List.Perm.cons a ih).trans (List.Perm.swap e a rest)

theorem sortEntries_perm (es : Entries) : (sortEntries es).Perm es := by
  induction es with
  | nil => exact List.Perm.refl _
  | cons a rest ih =>
    exact (insertEntry_perm a (sortEntries rest)).trans (List.Perm.cons a ih)

theorem entriesValid_sort (es : Entries) (h : entriesValid es) :
    entriesValid (sortEntries es) :=
  fun e he => h e ((sortEntries_perm es).mem_iff.mp he)

theorem parseMembers_member (f d : Nat) (k V T : GoString) (v : JSON)
    (hk : validUTF8 k = true) (hs : skipWs V = V) (hV : parseValue f d V = some (v, T)) :
    parseMembers (f + 1) d (appendString k ++ 0x3A :: V) =
      match skipWs T with
      | [] => none
      | c4 :: rest4 =>
        if c4 = 0x2C then
          match parseMembers f d (skipWs rest4) with
          | some (ms, rest5) => some ((k, v) :: ms, rest5)
          | none => none
        else if c4 = 0x7D then some ([(k, v)], rest4)
        else none := by
  rw [appendString_append]
  conv_lhs => unfold parseMembers
  simp only [if_true, parseStringBody_appendString k _ hk]
  rw [skipWs_cons _ _ (by decide)]
  simp only [if_true, hs, hV]

theorem parseValue_encodeMap (m : GoMap) (f d : Nat) (rest : GoString)
    (hv : GoMap.validUTF8 m) (hf : GoMap.len m + 2 ≤ f) (hd : d + 1 ≤ maxNestingDepth) :
    parseValue f d (encodeMap m ++ rest) = some (mapJSON m, rest) := by
  obtain ⟨f, rfl⟩ : ∃ f', f = f' + 1 := ⟨f - 1, by omega⟩
  have hd' : ¬ maxNestingDepth < d + 1 := by omega
  rcases m with _ | es
  · conv_lhs => unfold parseValue
    simp [encodeMap, ascii, stripLiteral, mapJSON]
  · have hp := sortEntries_perm es
    have hv' : entriesValid (sortEntries es) := entriesValid_sort es hv
    rcases hse : sortEntries es with _ | ⟨e, es'⟩
    · conv_lhs => unfold parseValue
      simp [encodeMap, hse, encodeEntries, skipWs, isSpace, mapJSON, entriesJSON, hd']
    · have hlen : es'.length + 1 = es.length := by
        have := hp.length_eq
        rw [hse] at this
        simpa using this
      rw [hse] at hv'
      have hm := parseMembers_encodeEntries es' e f (d + 1) rest hv'
        (by simp [GoMap.len] at hf; omega)
      obtain ⟨t, ht⟩ := encodeEntries_head e es' (0x7D :: rest)
      have hw : skipWs (encodeEntries (e :: es') ++ 0x7D :: rest)
          = encodeEntries (e :: es') ++ 0x7D :: rest := by
        rw [ht]; exact skipWs_cons _ _ (by decide)
      conv_lhs => unfold parseValue
      simp only [encodeMap, hse, List.cons_append, List.nil_append, List.append_assoc,
        List.singleton_append, if_true, hd', if_false, mapJSON]
      rw [hw, ht]
      simp only
      rw [← ht, hm]
      simp

theorem skipWs_encodeMap (m : GoMap) (t : GoString) :
    skipWs (encodeMap m ++ t) = encodeMap m ++ t := by
  rcases m with _ | es
  · rfl
  · simp only [encodeMap, List.cons_append, List.nil_append, List.append_assoc,
      List.singleton_append]
    exact skipWs_cons _ _ (by decide)

theorem encodeCarrier_append (c : Carrier) (rest : GoString) :
    encodeCarrier c ++ rest =
      0x7B :: (appendString (ascii "fields") ++ 0x3A :: (encodeMap c.Fields ++ 0x7D :: rest)) := by
  have h1 : ascii "\x7b\"fields\":" = 0x7B :: (appendString (ascii "fields") ++ [0x3A]) := by
    decide
  have h2 : ascii "\x7d" = [0x7D] := by decide
  simp [encodeCarrier, h1, h2]

theorem parseValue_encodeCarrier (c : Carrier) (f d : Nat) (rest : GoString)
    (hv : GoMap.validUTF8 c.Fields) (hf : GoMap.len c.Fields + 4 ≤ f)
    (hd : d + 2 ≤ maxNestingDepth) :
    parseValue f d (encodeCarrier c ++ rest)
      = some (JSON.obj [(ascii "fields", mapJSON c.Fields)], rest) := by
  obtain ⟨f, rfl⟩ : ∃ f', f = f' + 2 := ⟨f - 2, by omega⟩
  have hd' : ¬ maxNestingDepth < d + 1 := by omega
  have hm := parseValue_encodeMap c.Fields f (d + 1) (0x7D :: rest) hv (by omega) (by omega)
  have hmem := parseMembers_member f (d + 1) (ascii "fields") _ _ _ (by decide)
    (skipWs_encodeMap c.Fields (0x7D :: rest)) hm
  rw [skipWs_cons _ _ (by decide)] at hmem
  simp only [if_true, show ¬ ((0x7D : Nat) = 0x2C) by decide, if_false] at hmem
  rw [encodeCarrier_append]
  conv_lhs => unfold parseValue
  simp only [if_true, hd', if_false]
  have hq : appendString (ascii "fields") ++ 0x3A :: (encodeMap c.Fields ++ 0x7D :: rest)
      = 0x22 :: (quoteBody 0 0 (ascii "fields") ++
          0x22 :: 0x3A :: (encodeMap c.Fields ++ 0x7D :: rest)) := appendString_append _ _
  rw [hq, skipWs_cons _ _ (by decide)]
  simp only [show ¬ ((0x22 : Nat) = 0x7D) by decide, if_false]
  rw [← hq, hmem]

theorem skipWs_encodeCarrier (c : Carrier) (t : GoString) :
    skipWs (encodeCarrier c ++ t) = encodeCarrier c ++ t := by
  rw [encodeCarrier_append]
  exact skipWs_cons _ _ (by decide)

theorem encodeMessage_eq (m : Message) :
    encodeMessage m =
      0x7B :: (appendString (ascii "traceContext") ++ 0x3A :: (encodeCarrier m.TraceContext ++
        0x2C :: (appendString (ascii "body") ++ 0x3A :: (appendString m.Body ++ [0x7D])))) := by
  have h1 : ascii "\x7b\"traceContext\":"
      = 0x7B :: (appendString (ascii "traceContext") ++ [0x3A]) := by decide
  have h2 : ascii ",\"body\":" = 0x2C :: (appendString (ascii "body") ++ [0x3A]) := by decide
  have h3 : ascii "\x7d" = [0x7D] := by decide
  simp [encodeMessage, h1, h2, h3]

theorem parseValue_encodeMessage (m : Message) (f : Nat)
    (hv : GoMap.validUTF8 m.TraceContext.Fields) (hb : validUTF8 m.Body = true)
    (hf : GoMap.len m.TraceContext.Fields + 6 ≤ f) :
    parseValue f 0 (encodeMessage m) = some (messageJSON m, []) := by
  obtain ⟨f, rfl⟩ : ∃ f', f = f' + 4 := ⟨f - 4, by omega⟩
  have hc := parseValue_encodeCarrier m.TraceContext (f + 2) 1
    (0x2C :: (appendString (ascii "body") ++ 0x3A :: (appendString m.Body ++ [0x7D])))
    hv (by omega) (by decide)
  have hbody := parseValue_string f 1 m.Body [0x7D] hb
  have hm2 := parseMembers_member (f + 1) 1 (ascii "body") _ _ _ (by decide)
    (by rw [appendString_append]; exact skipWs_cons _ _ (by decide)) hbody
  rw [skipWs_cons _ _ (by decide)] at hm2
  simp only [if_true, show ¬ ((0x7D : Nat) = 0x2C) by decide, if_false] at hm2
  have hm1 := parseMembers_member (f + 2) 1 (ascii "traceContext") _ _ _ (by decide)
    (skipWs_encodeCarrier m.TraceContext _) hc
  rw [skipWs_cons _ _ (by decide)] at hm1
  have hw : skipWs (appendString (ascii "body") ++ 0x3A :: (appendString m.Body ++ [0x7D]))
      = appendString (ascii "body") ++ 0x3A :: (appendString m.Body ++ [0x7D]) := by
    rw [appendString_append]; exact skipWs_cons _ _ (by decide)
  simp only [if_true, hw, hm2] at hm1
  rw [encodeMessage_eq]
  conv_lhs => unfold parseValue
  simp only [if_true, show ¬ (maxNestingDepth < 0 + 1) by decide, if_false]
  have hq := appendString_append (ascii "traceContext")
    (0x3A :: (encodeCarrier m.TraceContext ++
        0x2C :: (appendString (ascii "body") ++ 0x3A :: (appendString m.Body ++ [0x7D]))))
  rw [hq, skipWs_cons _ _ (by decide)]
  simp only [show ¬ ((0x22 : Nat) = 0x7D) by decide, if_false]
  rw [← hq, hm1]
  rfl

theorem encodeEntries_length_cons (e : GoString × GoString) (es : Entries) :
    (encodeEntries es).length + 1 ≤ (encodeEntries (e :: es)).length := by
  obtain ⟨k, v⟩ := e
  cases es with
  | nil => simp [encodeEntries, appendString]
  | cons e2 rest2 =>
    rw [encodeEntries]
    simp only [List.length_append, List.length_cons, List.length_nil]
    omega

theorem encodeEntries_length (es : Entries) : es.length ≤ (encodeEntries es).length := by
  induction es with
  | nil => simp
  | cons e rest ih =>
    have := encodeEntries_length_cons e rest
    simp only [List.length_cons]
    omega

theorem encodeMessage_length (m : Message) :
    GoMap.len m.TraceContext.Fields + 4 ≤ (encodeMessage m).length := by
  rw [encodeMessage_eq]
  simp only [List.length_cons, List.length_append, encodeCarrier, appendString]
  rcases hm : m.TraceContext.Fields with _ | es
  · simp only [GoMap.len]
    omega
  · have h1 := encodeEntries_length (sortEntries es)
    have h2 := (sortEntries_perm es).length_eq
    simp only [GoMap.len, encodeMap, List.length_append, List.length_cons, List.length_nil]
    omega

theorem parseJSON_encodeMessage (m : Message)
    (hv : GoMap.validUTF8 m.TraceContext.Fields) (hb : validUTF8 m.Body = true) :
    parseJSON (encodeMessage m) = some (messageJSON m) := by
  have hlen := encodeMessage_length m
  have hp := parseValue_encodeMessage m (2 * (encodeMessage m).length + 2) hv hb (by omega)
  have hw : skipWs (encodeMessage m) = encodeMessage m := by
    rw [encodeMessage_eq]; exact skipWs_cons _ _ (by decide)
  unfold parseJSON
  rw [hw, hp]
  rfl

theorem Entries.store_absent (k v : GoString) (es : Entries) (h : k ∉ es.map Prod.fst) :
    Entries.store k v es = es ++ [(k, v)] := by
  induction es with
  | nil => rfl
  | cons e rest ih =>
    obtain ⟨k0, v0⟩ := e
    simp only [List.map_cons, List.mem_cons, not_or] at h
    have h0 : ¬ k0 = k := fun e => h.1 e.symm
    simp [Entries.store, h0, ih h.2]

theorem decodeEntries_entriesJSON (es : Entries) :
    ∀ acc : Entries, ((acc ++ es).map Prod.fst).Nodup →
      decodeEntries acc (entriesJSON es) = .ok (acc ++ es) := by
  induction es with
  | nil => intro acc _; simp [entriesJSON, decodeEntries]
  | cons e rest ih =>
    intro acc hnd
    obtain ⟨k, v⟩ := e
    have hk : k ∉ acc.map Prod.fst := by
      intro hmem
      rw [List.map_append, List.nodup_append] at hnd
      exact hnd.2.2 hmem (by simp)
    have hnd' : (((acc ++ [(k, v)]) ++ rest).map Prod.fst).Nodup := by
      simpa using hnd
    have := ih (acc ++ [(k, v)]) hnd'
    simp only [entriesJSON] at this
    simp [entriesJSON, decodeEntries, decodeString, Entries.store_absent k v acc hk, this]

theorem decodeMap_mapJSON (m : GoMap) (h : GoMap.distinctKeys m) (cur : GoMap)
    (hcur : cur = none) :
    decodeMap cur (mapJSON m) = .ok (m.map sortEntries) := by
  subst hcur
  rcases m with _ | es
  · rfl
  · have hnd : (([] ++ sortEntries es).map Prod.fst).Nodup := by
      have hp := (sortEntries_perm es).map Prod.fst
      simpa using hp.nodup_iff.mpr h
    have := decodeEntries_entriesJSON (sortEntries es) [] hnd
    simp only [mapJSON, decodeMap, Option.getD, this]
    simp

theorem decodeMessage_messageJSON (m : Message) (h : GoMap.distinctKeys m.TraceContext.Fields) :
    decodeMessage zeroMessage (messageJSON m)
      = .ok { TraceContext := { Fields := m.TraceContext.Fields.map sortEntries },
              Body := m.Body } := by
  have h1 : matchField messageFields (ascii "traceContext") = some (ascii "traceContext") := by
    decide
  have h2 : matchField messageFields (ascii "body") = some (ascii "body") := by decide
  have h3 : matchField carrierFields (ascii "fields") = some (ascii "fields") := by decide
  have h4 : ¬ (ascii "body" = ascii "traceContext") := by decide
  have hm := decodeMap_mapJSON m.TraceContext.Fields h none rfl
  simp only [messageJSON, decodeMessage, decodeMessageMembers, h1, h2, if_true, decodeCarrier,
    decodeCarrierMembers, h3, zeroMessage, zeroCarrier, hm, h4, if_false, decodeString]

theorem Entries.find_perm {l1 l2 : Entries} (hp : l1.Perm l2) (k : GoString) :
    (l1.map Prod.fst).Nodup → Entries.find k l1 = Entries.find k l2 := by
  induction hp with
  | nil => intro _; rfl
  | cons x _ ih =>
    intro hnd
    obtain ⟨k0, v0⟩ := x
    simp only [List.map_cons, List.nodup_cons] at hnd
    simp [Entries.find, ih hnd.2]
  | swap x y l =>
    intro hnd
    obtain ⟨kx, vx⟩ := x
    obtain ⟨ky, vy⟩ := y
    simp only [List.map_cons, List.nodup_cons, List.mem_cons, not_or] at hnd
    by_cases hx : kx = k
    · by_cases hy : ky = k
      · exact absurd (hy.trans hx.symm) hnd.1.1
      · simp [Entries.find, hx, hy]
    · simp [Entries.find, hx]
  | trans h12 _ ih1 ih2 =>
    intro hnd
    have hnd2 := (h12.map Prod.fst).nodup_iff.mp hnd
    rw [ih1 hnd, ih2 hnd2]

theorem Carrier.setAll_newCarrier (kvs : List (GoString × GoString)) :
    ∀ es : Entries, (es.map Prod.fst).Nodup →
      ∃ es', Carrier.setAll { Fields := some es } kvs = .ok { Fields := some es' } ∧
        (es'.map Prod.fst).Nodup ∧
        ∀ k, k ∈ es'.map Prod.fst ↔ k ∈ es.map Prod.fst ∨ k ∈ kvs.map Prod.fst := by
  induction kvs with
  | nil =>
    intro es hnd
    exact ⟨es, rfl, hnd, by simp⟩
  | cons kv rest ih =>
    intro es hnd
    obtain ⟨k, v⟩ := kv
    have hks := Entries.keys_store k v es
    have hnd' : ((Entries.store k v es).map Prod.fst).Nodup := by
      rw [hks]
      split
      · exact hnd
      · rename_i hk
        exact List.Nodup.append hnd (List.nodup_singleton k) (by simpa using hk)
    obtain ⟨es', hset, hnd'', hmem⟩ := ih (Entries.store k v es) hnd'
    refine ⟨es', ?_, hnd'', ?_⟩
    · simpa [Carrier.setAll, Carrier.Set, GoMap.assign] using hset
    · intro k'
      rw [hmem k', hks]
      split
      · rename_i hk
        simp only [List.map_cons, List.mem_cons]
        constructor
        · rintro (h | h)
          · exact Or.inl h
          · exact Or.inr (Or.inr h)
        · rintro (h | h | h)
          · exact Or.inl h
          · subst h; exact Or.inl hk
          · exact Or.inr h
      · simp only [List.mem_append, List.mem_singleton, List.map_cons, List.mem_cons]
        tauto

/-- C5: on a carrier whose `Fields` map is initialised, `Set(k, v)` completes, and
afterwards `Get(k')` is `v` when `k' = k` and is what it was before for every other
key; a second `Set(k, v2)` makes `Get(k)` return `v2`. No key or value is refused. -/
theorem set_is_pointwise_update (es : Entries) (k v k' : GoString) :
    ∃ c', Carrier.Set { Fields := some es } k v = .ok c' ∧
      Carrier.Get c' k' = (if k' = k then v else Carrier.Get { Fields := some es } k') ∧
      ∀ v2, ∃ c'', Carrier.Set c' k v2 = .ok c'' ∧ Carrier.Get c'' k = v2 := by
  refine ⟨{ Fields := some (Entries.store k v es) }, rfl, ?_, ?_⟩
  · by_cases h : k' = k
    · subst h
      simp [Carrier.Get, GoMap.index, Entries.find_store_same]
    · simp [Carrier.Get, GoMap.index, Entries.find_store_other k v k' es h, h]
  · intro v2
    exact ⟨{ Fields := some (Entries.store k v2 (Entries.store k v es)) }, rfl,
      by simp [Carrier.Get, GoMap.index, Entries.find_store_same]⟩

/-- C6: `Get` is a total function, and for a key that is not among the keys of the
carrier it returns the empty string; so it does on the fresh carrier of `processA`,
on the zero-value carrier (nil map), and on the carrier of any deserialized
`Message` whose `Fields` map was left nil. -/
theorem get_absent_key_is_empty (c : Carrier) (k : GoString) (h : k ∉ Carrier.Keys c) :
    Carrier.Get c k = [] ∧ Carrier.Get newCarrier k = [] ∧ Carrier.Get zeroCarrier k = [] ∧
      ∀ data m, json_Unmarshal data = .ok m → m.TraceContext.Fields = none →
        Carrier.Get m.TraceContext k = [] := by
  refine ⟨?_, rfl, rfl, ?_⟩
  · rw [Carrier.Keys_eq] at h
    rcases c with ⟨_ | es⟩
    · rfl
    · have := (Entries.find_eq_none_iff k es).mpr h
      simp [Carrier.Get, GoMap.index, this]
  · intro data m _ hm
    simp [Carrier.Get, GoMap.index, hm]

/-- C6, at a `Message` deserialized from bytes without trace-context fields: the
carrier has a nil map, the key `traceparent` is absent and `Get` gives the empty string. -/
theorem get_absent_key_is_empty_witness :
    json_Unmarshal (ascii "\x7b\"body\":\"a message meant for process B\"\x7d")
        = .ok { TraceContext := zeroCarrier, Body := ascii "a message meant for process B" } ∧
      ascii "traceparent" ∉ Carrier.Keys zeroCarrier ∧
      Carrier.Get zeroCarrier (ascii "traceparent") = [] :=
  ⟨rfl, by decide,
    (get_absent_key_is_empty zeroCarrier (ascii "traceparent") (by decide)).1⟩

/-- C7: after any sequence of `Set` calls on the fresh carrier, every possible result
of `Keys()` holds exactly the keys that were set, each once: its length is the
number of distinct keys set. -/
theorem keys_are_exactly_the_keys_set (kvs : List (GoString × GoString)) :
    ∃ c, Carrier.setAll newCarrier kvs = .ok c ∧
      ∀ ks, Carrier.KeysMayReturn c ks →
        (∀ k, k ∈ ks ↔ k ∈ kvs.map Prod.fst) ∧ ks.Nodup ∧
          ks.length = (kvs.map Prod.fst).dedup.length := by
  obtain ⟨es', hset, hnd, hmem⟩ := Carrier.setAll_newCarrier kvs [] (by simp)
  refine ⟨{ Fields := some es' }, hset, ?_⟩
  intro ks hks
  unfold Carrier.KeysMayReturn at hks
  rw [Carrier.Keys_eq] at hks
  simp only [GoMap.rangeKeys] at hks
  have hmem' : ∀ k, k ∈ ks ↔ k ∈ kvs.map Prod.fst := by
    intro k
    rw [hks.mem_iff, hmem k]
    simp
  have hnd' : ks.Nodup := hks.nodup_iff.mpr hnd
  refine ⟨hmem', hnd', ?_⟩
  have hp : ks.Perm (kvs.map Prod.fst).dedup := by
    rw [List.perm_ext_iff_of_nodup hnd' (List.nodup_dedup _)]
    intro k
    rw [hmem' k, List.mem_dedup]
  exact hp.length_eq

/-- C7, on three `Set` calls of which two use the same key. -/
theorem keys_are_exactly_the_keys_set_witness :
    ∃ c, Carrier.setAll newCarrier
        [(ascii "traceparent", ascii "a"), (ascii "baggage", ascii "b"),
          (ascii "traceparent", ascii "c")] = .ok c ∧
      ∀ ks, Carrier.KeysMayReturn c ks →
        (∀ k, k ∈ ks ↔ k ∈ [ascii "traceparent", ascii "baggage", ascii "traceparent"]) ∧
          ks.Nodup ∧ ks.length = 2 :=
  keys_are_exactly_the_keys_set
    [(ascii "traceparent", ascii "a"), (ascii "baggage", ascii "b"),
      (ascii "traceparent", ascii "c")]

/-- C8 fails on the zero-value carrier: its `Fields` map is nil and `Set` panics
with `assignment to entry in nil map`; the same holds for the carrier of a `Message`
deserialized from bytes that carry no `fields` object. -/
theorem set_on_nil_map_panics :
    Carrier.Set zeroCarrier (ascii "traceparent") (ascii "00-aa-bb-01")
        = .error GoPanic.nilMapAssign ∧
      json_Unmarshal (ascii "\x7b\"body\":\"a message meant for process B\"\x7d")
        = .ok { TraceContext := zeroCarrier, Body := ascii "a message meant for process B" } := by
  exact ⟨rfl, rfl⟩

/-- C8 as amended: on every carrier whose `Fields` map is not nil, `Set(key, value)`
completes for every key and value and afterwards `Get(key)` returns `value`; on a
carrier whose `Fields` map is nil, `Set` panics. -/
theorem set_completes_iff_map_not_nil (c : Carrier) (key value : GoString) :
    (c.Fields ≠ none →
      ∃ c', Carrier.Set c key value = .ok c' ∧ Carrier.Get c' key = value) ∧
    (c.Fields = none → Carrier.Set c key value = .error GoPanic.nilMapAssign) := by
  rcases c with ⟨_ | es⟩
  · exact ⟨fun h => absurd rfl h, fun _ => rfl⟩
  · refine ⟨fun _ => ⟨{ Fields := some (Entries.store key value es) }, rfl, ?_⟩, fun h => ?_⟩
    · simp [Carrier.Get, GoMap.index, Entries.find_store_same]
    · simp at h

/-- C8 as amended, on the carrier built in `processA`, where `Set` completes, and on
the zero-value carrier, where it panics. -/
theorem set_completes_iff_map_not_nil_witness :
    (∃ c', Carrier.Set newCarrier (ascii "traceparent") (ascii "00-aa-bb-01") = .ok c' ∧
      Carrier.Get c' (ascii "traceparent") = ascii "00-aa-bb-01") ∧
    Carrier.Set zeroCarrier (ascii "traceparent") (ascii "00-aa-bb-01")
      = .error GoPanic.nilMapAssign :=
  ⟨(set_completes_iff_map_not_nil newCarrier (ascii "traceparent") (ascii "00-aa-bb-01")).1
      (by decide),
    (set_completes_iff_map_not_nil zeroCarrier (ascii "traceparent") (ascii "00-aa-bb-01")).2
      rfl⟩

/-- The encoder does fail on values of other kinds: on a struct with a channel field
and on a map holding a NaN. -/
theorem encodeValue_fails_on_other_kinds :
    encodeValue (.struct [(ascii "done", .chan)]) = .error MarshalError.unsupportedType ∧
      encodeValue (.map (some [(ascii "x", .float64 .nan)]))
        = .error MarshalError.unsupportedValue :=
  ⟨rfl, rfl⟩

/-- C10: the encoder fails on channels, functions, complex numbers, NaN and
infinities; the value of a `Message` holds only structs, a map with string keys
and strings, so `json.Marshal` reports no error on any `Message` (whatever its map,
nil or not, and its strings). Hence `processA` never stops with the panic
`Unable to marshal JSON message`, and it calls `processB` with the bytes `Marshal`
gave for the message it built. -/
theorem marshal_never_fails (m : Message) (injected : List (GoString × GoString)) :
    (∃ bytes, json_Marshal m = .ok bytes) ∧
      (processA injected).panicked ≠ some (GoPanic.explicit "Unable to marshal JSON message") ∧
      ∃ c bytes, Carrier.setAll newCarrier injected = .ok c ∧
        json_Marshal { TraceContext := c, Body := ascii "a message meant for process B" }
          = .ok bytes ∧
        Event.callProcessB bytes ∈ (processA injected).events := by
  refine ⟨⟨encodeMessage m, json_Marshal_eq m⟩, ?_, ?_⟩
  · obtain ⟨es', hset, _, _⟩ := Carrier.setAll_newCarrier injected [] (by simp)
    have hset' : Carrier.setAll newCarrier injected = .ok { Fields := some es' } := hset
    unfold processA
    simp only [hset', json_Marshal_eq]
    unfold processB
    rcases json_Unmarshal (encodeMessage
      { TraceContext := { Fields := some es' }, Body := ascii "a message meant for process B" })
      with e | m' <;> simp
  · obtain ⟨es', hset, _, _⟩ := Carrier.setAll_newCarrier injected [] (by simp)
    have hset' : Carrier.setAll newCarrier injected = .ok { Fields := some es' } := hset
    refine ⟨_, _, hset', json_Marshal_eq _, ?_⟩
    unfold processA
    simp only [hset', json_Marshal_eq]
    split <;> simp

theorem json_Unmarshal_encodeMessage (m : Message)
    (hk : GoMap.distinctKeys m.TraceContext.Fields)
    (hv : GoMap.validUTF8 m.TraceContext.Fields) (hb : validUTF8 m.Body = true) :
    json_Unmarshal (encodeMessage m)
      = .ok { TraceContext := { Fields := m.TraceContext.Fields.map sortEntries },
              Body := m.Body } := by
  unfold json_Unmarshal
  rw [parseJSON_encodeMessage m hv hb]
  exact decodeMessage_messageJSON m hk

/-- C1 fails for a body that is not valid UTF-8: the byte `0xFF` is written as the
escape for U+FFFD and read back as the three bytes of U+FFFD. -/
theorem round_trip_loses_invalid_utf8 :
    json_Marshal { TraceContext := newCarrier, Body := [0xFF] }
        = .ok (ascii "\x7b\"traceContext\":\x7b\"fields\":\x7b\x7d\x7d,\"body\":\"\\ufffd\"\x7d") ∧
      json_Unmarshal
          (ascii "\x7b\"traceContext\":\x7b\"fields\":\x7b\x7d\x7d,\"body\":\"\\ufffd\"\x7d")
        = .ok { TraceContext := newCarrier, Body := [0xEF, 0xBF, 0xBD] } :=
  ⟨rfl, rfl⟩

/-- C1 as amended: for every `Message` whose keys, values and body are valid UTF-8
(the keys of the map being distinct, as in every Go map), `Marshal` gives bytes,
`Unmarshal` of these bytes gives a `Message`, and that message has the same body, the
same result of `Get` on every key, the same possible results of `Keys()`, and a nil
map exactly when the map was nil. -/
theorem marshal_unmarshal_round_trip (m : Message)
    (hk : GoMap.distinctKeys m.TraceContext.Fields)
    (hv : GoMap.validUTF8 m.TraceContext.Fields) (hb : validUTF8 m.Body = true) :
    ∃ bytes m', json_Marshal m = .ok bytes ∧ json_Unmarshal bytes = .ok m' ∧
      (∀ k, Carrier.Get m'.TraceContext k = Carrier.Get m.TraceContext k) ∧
      (∀ ks, Carrier.KeysMayReturn m'.TraceContext ks ↔
        Carrier.KeysMayReturn m.TraceContext ks) ∧
      m'.Body = m.Body ∧
      (m'.TraceContext.Fields = none ↔ m.TraceContext.Fields = none) := by
  refine ⟨encodeMessage m, _, json_Marshal_eq m, json_Unmarshal_encodeMessage m hk hv hb,
    ?_, ?_, rfl, ?_⟩
  · intro k
    rcases hm : m.TraceContext.Fields with _ | es
    · simp [Carrier.Get, hm]
    · rw [hm] at hk
      have hp := sortEntries_perm es
      have hnd : ((sortEntries es).map Prod.fst).Nodup :=
        (hp.map Prod.fst).nodup_iff.mpr hk
      simp [Carrier.Get, GoMap.index, hm, Entries.find_perm hp k hnd]
  · intro ks
    unfold Carrier.KeysMayReturn
    rw [Carrier.Keys_eq, Carrier.Keys_eq]
    rcases hm : m.TraceContext.Fields with _ | es
    · simp [GoMap.rangeKeys]
    · have hp := (sortEntries_perm es).map Prod.fst
      simp only [GoMap.rangeKeys, Option.map]
      exact ⟨fun h => h.trans hp, fun h => h.trans hp.symm⟩
  · rcases hm : m.TraceContext.Fields with _ | es <;> simp

/-- C1 as amended, on a message with two entries, one needing escapes and one
holding a multi-byte rune. -/
theorem marshal_unmarshal_round_trip_witness :
    ∃ bytes m', json_Marshal sampleMessage = .ok bytes ∧ json_Unmarshal bytes = .ok m' ∧
      (∀ k, Carrier.Get m'.TraceContext k = Carrier.Get sampleMessage.TraceContext k) ∧
      (∀ ks, Carrier.KeysMayReturn m'.TraceContext ks ↔
        Carrier.KeysMayReturn sampleMessage.TraceContext ks) ∧
      m'.Body = sampleMessage.Body ∧
      (m'.TraceContext.Fields = none ↔ sampleMessage.TraceContext.Fields = none) :=
  marshal_unmarshal_round_trip sampleMessage (by decide) (by decide) (by decide)

/-- C3 fails on a carrier with one pair whose key is the byte `0xFF`: the value of
`traceContext` is an object with the single member `fields`, whose value is an
object and not a string, and the key is written as U+FFFD, not as the byte itself. -/
theorem marshal_wraps_pairs_in_fields :
    json_Marshal { TraceContext := { Fields := some [([0xFF], ascii "v")] }, Body := [] }
        = .ok (ascii
          "\x7b\"traceContext\":\x7b\"fields\":\x7b\"\\ufffd\":\"v\"\x7d\x7d,\"body\":\"\"\x7d") ∧
      parseJSON (ascii
          "\x7b\"traceContext\":\x7b\"fields\":\x7b\"\\ufffd\":\"v\"\x7d\x7d,\"body\":\"\"\x7d")
        = some (JSON.obj
            [(ascii "traceContext",
                JSON.obj [(ascii "fields",
                  JSON.obj [([0xEF, 0xBF, 0xBD], JSON.str (ascii "v"))])]),
              (ascii "body", JSON.str [])]) :=
  ⟨rfl, rfl⟩

/-- C3 as amended: for every `Message` whose keys, values and body are valid UTF-8,
the bytes `Marshal` gives are a JSON object with exactly the two members
`traceContext` and `body`, in this order; the value of `traceContext` is an object
with the single member `fields`, whose value is `null` when the map is nil and
otherwise an object whose members are exactly the pairs of the carrier, each value a
JSON string; the value of `body` is the body as a JSON string. -/
theorem marshal_shape (m : Message)
    (hv : GoMap.validUTF8 m.TraceContext.Fields) (hb : validUTF8 m.Body = true) :
    ∃ bytes fieldsValue, json_Marshal m = .ok bytes ∧
      parseJSON bytes = some (JSON.obj
        [(ascii "traceContext", JSON.obj [(ascii "fields", fieldsValue)]),
          (ascii "body", JSON.str m.Body)]) ∧
      (m.TraceContext.Fields = none → fieldsValue = JSON.null) ∧
      (∀ es, m.TraceContext.Fields = some es →
        ∃ members, fieldsValue = JSON.obj members ∧ members.Perm (entriesJSON es)) := by
  refine ⟨encodeMessage m, mapJSON m.TraceContext.Fields, json_Marshal_eq m,
    parseJSON_encodeMessage m hv hb, ?_, ?_⟩
  · intro h; rw [h]; rfl
  · intro es h
    rw [h]
    exact ⟨entriesJSON (sortEntries es), rfl, (sortEntries_perm es).map _⟩

/-- C3 as amended, on a message with two entries. -/
theorem marshal_shape_witness :
    ∃ bytes fieldsValue, json_Marshal sampleMessage = .ok bytes ∧
      parseJSON bytes = some (JSON.obj
        [(ascii "traceContext", JSON.obj [(ascii "fields", fieldsValue)]),
          (ascii "body", JSON.str sampleMessage.Body)]) ∧
      (sampleMessage.TraceContext.Fields = none → fieldsValue = JSON.null) ∧
      (∀ es, sampleMessage.TraceContext.Fields = some es →
        ∃ members, fieldsValue = JSON.obj members ∧ members.Perm (entriesJSON es)) :=
  marshal_shape sampleMessage (by decide) (by decide)

theorem Entries.find_append (k : GoString) (l1 l2 : Entries) :
    Entries.find k (l1 ++ l2) = (Entries.find k l1 <|> Entries.find k l2) := by
  induction l1 with
  | nil => simp [Entries.find]
  | cons e rest ih =>
    obtain ⟨k0, v0⟩ := e
    by_cases h : k0 = k
    · simp [Entries.find, h]
    · simp [Entries.find, h, ih]

theorem decodeEntries_strings (pairs : List (GoString × GoString)) :
    ∀ acc : Entries, ∃ es, decodeEntries acc (entriesJSON pairs) = .ok es ∧
      (∀ k, Entries.find k es = (lastValue k pairs <|> Entries.find k acc)) ∧
      (∀ k, k ∈ es.map Prod.fst ↔ k ∈ acc.map Prod.fst ∨ k ∈ pairs.map Prod.fst) ∧
      ((acc.map Prod.fst).Nodup → (es.map Prod.fst).Nodup) := by
  induction pairs with
  | nil =>
    intro acc
    exact ⟨acc, rfl, by simp [lastValue, Entries.find], by simp, id⟩
  | cons p rest ih =>
    intro acc
    obtain ⟨k0, v0⟩ := p
    obtain ⟨es, hes, hfind, hmem, hnd⟩ := ih (Entries.store k0 v0 acc)
    refine ⟨es, ?_, ?_, ?_, ?_⟩
    · simpa [entriesJSON, decodeEntries, decodeString] using hes
    · intro k
      rw [hfind k]
      simp only [lastValue, List.reverse_cons, Entries.find_append]
      by_cases h : k = k0
      · subst h
        simp [Entries.find, Entries.find_store_same]
        cases Entries.find k rest.reverse <;> simp
      · have h' : ¬ k0 = k := fun e => h e.symm
        simp [Entries.find, Entries.find_store_other k0 v0 k acc h, h']
    · intro k
      rw [hmem k, Entries.keys_store]
      split
      · rename_i hk
        simp only [List.map_cons, List.mem_cons]
        constructor
        · rintro (h | h)
          · exact Or.inl h
          · exact Or.inr (Or.inr h)
        · rintro (h | h | h)
          · exact Or.inl h
          · subst h; exact Or.inl hk
          · exact Or.inr h
      · simp only [List.mem_append, List.mem_singleton, List.map_cons, List.mem_cons]
        tauto
    · intro hacc
      apply hnd
      rw [Entries.keys_store]
      split
      · exact hacc
      · rename_i hk
        exact List.Nodup.append hacc (List.nodup_singleton k0) (by simpa using hk)

/-- C2 fails on the documented message: the member `traceparent` directly under
`traceContext` matches no field of `Carrier`, so the carrier read has a nil map,
`Get("traceparent")` is empty and `Keys()` lists nothing. -/
theorem documented_message_has_no_traceparent :
    json_Unmarshal documentedMessage
        = .ok { TraceContext := zeroCarrier, Body := ascii "a message meant for process B" } ∧
      Carrier.Get zeroCarrier (ascii "traceparent") = [] ∧
      Carrier.Keys zeroCarrier = [] :=
  ⟨rfl, rfl, rfl⟩

/-- C2 as amended: when the message is a JSON object whose member `traceContext` is
an object whose member `fields` is an object of string-to-string pairs (and whose
member `body` is a string), the deserialize step of `processB` succeeds, and on the
carrier read `Get(k)` returns, for every key `k`, the value paired with `k` (the
last one when `k` is repeated), and the possible results of `Keys()` list exactly
the keys of the pairs; `processB` hands this carrier to `Extract`. -/
theorem fields_object_is_read (data : GoString) (pairs : List (GoString × GoString))
    (body : GoString)
    (h : parseJSON data = some (JSON.obj
      [(ascii "traceContext", JSON.obj [(ascii "fields", JSON.obj (entriesJSON pairs))]),
        (ascii "body", JSON.str body)])) :
    ∃ m, json_Unmarshal data = .ok m ∧ m.Body = body ∧
      (∀ k, Carrier.Get m.TraceContext k = (lastValue k pairs).getD []) ∧
      (∀ k v, (pairs.map Prod.fst).Nodup → (k, v) ∈ pairs → Carrier.Get m.TraceContext k = v) ∧
      (∀ ks, Carrier.KeysMayReturn m.TraceContext ks → ∀ k, k ∈ ks ↔ k ∈ pairs.map Prod.fst) ∧
      Event.extract m.TraceContext ∈ (processB data).events := by
  obtain ⟨es, hes, hfind, hmem, _⟩ := decodeEntries_strings pairs []
  have h1 : matchField messageFields (ascii "traceContext") = some (ascii "traceContext") := by
    decide
  have h2 : matchField messageFields (ascii "body") = some (ascii "body") := by decide
  have h3 : matchField carrierFields (ascii "fields") = some (ascii "fields") := by decide
  have h4 : ¬ (ascii "body" = ascii "traceContext") := by decide
  have hU : json_Unmarshal data = .ok { TraceContext := { Fields := some es }, Body := body } := by
    unfold json_Unmarshal
    rw [h]
    simp only [decodeMessage, decodeMessageMembers, h1, h2, if_true, decodeCarrier,
      decodeCarrierMembers, h3, zeroMessage, zeroCarrier, decodeMap, Option.getD, hes, h4,
      if_false, decodeString]
  have hget : ∀ k, Carrier.Get { Fields := some es } k = (lastValue k pairs).getD [] := by
    intro k
    simp only [Carrier.Get, GoMap.index, hfind k, Entries.find]
    cases lastValue k pairs <;> simp
  refine ⟨_, hU, rfl, hget, ?_, ?_, ?_⟩
  · intro k v hnd hkv
    rw [hget k]
    have hp : (pairs.reverse).Perm pairs := List.reverse_perm pairs
    have hnd' : ((pairs.reverse).map Prod.fst).Nodup := (hp.map Prod.fst).nodup_iff.mpr hnd
    have : Entries.find k pairs = some v := by
      clear hp hnd' hget hU hes hfind hmem h
      induction pairs with
      | nil => simp at hkv
      | cons p rest ih =>
        obtain ⟨k0, v0⟩ := p
        simp only [List.map_cons, List.nodup_cons] at hnd
        rcases List.mem_cons.mp hkv with heq | hin
        · cases heq
          simp [Entries.find]
        · have hne : ¬ k0 = k := by
            intro e
            subst e
            exact hnd.1 (List.mem_map_of_mem Prod.fst hin)
          simp [Entries.find, hne, ih hnd.2 hin]
    simp [lastValue, Entries.find_perm hp k hnd', this]
  · intro ks hks k
    unfold Carrier.KeysMayReturn at hks
    rw [Carrier.Keys_eq] at hks
    simp only [GoMap.rangeKeys] at hks
    rw [hks.mem_iff, hmem k]
    simp
  · unfold processB
    rw [hU]
    simp

/-- C2 as amended, on the message with the pair under `traceContext.fields`: `Get`
returns the `traceparent` value and `Keys()` lists `traceparent`. -/
theorem fields_object_is_read_witness :
    ∃ m, json_Unmarshal fieldsMessage = .ok m ∧
      m.Body = ascii "a message meant for process B" ∧
      Carrier.Get m.TraceContext (ascii "traceparent") = ascii "00-aaaa...-bbbb...-01" ∧
      (∀ ks, Carrier.KeysMayReturn m.TraceContext ks → ∀ k, k ∈ ks ↔ k ∈ [ascii "traceparent"]) ∧
      Event.extract m.TraceContext ∈ (processB fieldsMessage).events := by
  obtain ⟨m, hm, hb, hget, _, hkeys, hex⟩ :=
    fields_object_is_read fieldsMessage [(ascii "traceparent", ascii "00-aaaa...-bbbb...-01")]
      (ascii "a message meant for process B") rfl
  exact ⟨m, hm, hb, by rw [hget]; rfl, hkeys, hex⟩

theorem matchField_eq_none_iff (fields : List GoString) (n : GoString) :
    matchField fields n = none ↔ unknownTo fields n := by
  unfold matchField unknownTo
  constructor
  · intro h
    rcases h1 : fields.find? (fun x => decide (x = n)) with _ | x
    · rw [h1] at h
      simp only at h
      rw [List.find?_eq_none] at h1 h
      refine ⟨fun hn => ?_, fun f hf => ?_⟩
      · have := h1 n hn
        simp at this
      · have := h f hf
        simpa using this
    · rw [h1] at h
      simp at h
  · rintro ⟨h1, h2⟩
    have e1 : fields.find? (fun x => decide (x = n)) = none := by
      rw [List.find?_eq_none]
      intro x hx
      simp only [decide_eq_true_eq]
      intro hxn
      exact h1 (hxn ▸ hx)
    rw [e1]
    simp only
    rw [List.find?_eq_none]
    intro x hx
    simpa using h2 x hx

theorem decodeCarrierMembers_added {cs1 cs2 : List (GoString × JSON)}
    (h : AddedMembers (unknownTo carrierFields) cs1 cs2) :
    ∀ cur, decodeCarrierMembers cur cs2 = decodeCarrierMembers cur cs1 := by
  induction h with
  | done => intro cur; rfl
  | keep m ms1 ms2 _ ih =>
    intro cur
    obtain ⟨n, v⟩ := m
    simp only [decodeCarrierMembers]
    cases matchField carrierFields n with
    | none => exact ih cur
    | some f =>
      simp only
      cases decodeMap cur.Fields v with
      | error e => rfl
      | ok mp => exact ih _
  | add n v ms1 ms2 hn _ ih =>
    intro cur
    have hn' : matchField carrierFields n = none := (matchField_eq_none_iff _ _).2 hn
    simp only [decodeCarrierMembers, hn']
    exact ih cur

theorem decodeMessageMembers_added {ms1 ms2 : List (GoString × JSON)}
    (h : AddedToMessage (unknownTo messageFields) (unknownTo carrierFields) ms1 ms2) :
    ∀ cur, decodeMessageMembers cur ms2 = decodeMessageMembers cur ms1 := by
  induction h with
  | done => intro cur; rfl
  | keep m ms1 ms2 _ ih =>
    intro cur
    obtain ⟨n, v⟩ := m
    simp only [decodeMessageMembers]
    cases matchField messageFields n with
    | none => exact ih cur
    | some f =>
      simp only
      split
      · cases decodeCarrier cur.TraceContext v with
        | error e => rfl
        | ok c => exact ih _
      · cases decodeString cur.Body v with
        | error e => rfl
        | ok b => exact ih _
  | inner n cs1 cs2 ms1 ms2 hcs _ ih =>
    intro cur
    simp only [decodeMessageMembers]
    cases matchField messageFields n with
    | none => exact ih cur
    | some f =>
      simp only
      split
      · simp only [decodeCarrier, decodeCarrierMembers_added hcs]
        cases decodeCarrierMembers cur.TraceContext cs1 with
        | error e => rfl
        | ok c => exact ih _
      · simp only [decodeString]
  | add n v ms1 ms2 hn _ ih =>
    intro cur
    have hn' : matchField messageFields n = none := (matchField_eq_none_iff _ _).2 hn
    simp only [decodeMessageMembers, hn']
    exact ih cur

theorem prepend_eq_some {b : GoString} {x : Option (GoString × GoString)}
    {s rest : GoString} (h : prepend b x = some (s, rest)) :
    ∃ s', x = some (s', rest) ∧ s = b ++ s' := by
  rcases x with _ | ⟨s', r'⟩
  · simp [prepend] at h
  · simp only [prepend, Option.some.injEq, Prod.mk.injEq] at h
    exact ⟨s', by rw [h.2], h.1.symm⟩

theorem parseStringBody_skip_split (n : Nat) :
    ∀ (t : GoString) (r : GoString × GoString), parseStringBody n t = some r →
      ∃ skipped t', t = skipped ++ t' ∧ skipped.length = n ∧ parseStringBody 0 t' = some r := by
  induction n with
  | zero => intro t r h; exact ⟨[], t, rfl, rfl, h⟩
  | succ n ih =>
    intro t r h
    rcases t with _ | ⟨c, t⟩
    · simp [parseStringBody] at h
    · have h' : parseStringBody n t = some r := by simpa [parseStringBody] using h
      obtain ⟨sk, t', ht, hl, hp⟩ := ih t r h'
      exact ⟨c :: sk, t', by rw [ht]; rfl, by simp [hl], hp⟩

theorem hexVal_isHex {c v : Nat} (h : hexVal c = some v) : IsHex c := by
  unfold hexVal at h
  unfold IsHex
  split_ifs at h <;> omega

theorem getu4_isHex {h1 h2 h3 h4 r : Nat} (h : getu4 h1 h2 h3 h4 = some r) :
    IsHex h1 ∧ IsHex h2 ∧ IsHex h3 ∧ IsHex h4 := by
  unfold getu4 at h
  rcases e1 : hexVal h1 with _ | a <;> rcases e2 : hexVal h2 with _ | b <;>
    rcases e3 : hexVal h3 with _ | c <;> rcases e4 : hexVal h4 with _ | d <;>
    simp [e1, e2, e3, e4] at h
  exact ⟨hexVal_isHex e1, hexVal_isHex e2, hexVal_isHex e3, hexVal_isHex e4⟩

theorem lowSurrogate_shape {t : GoString} {r : Nat} (h : lowSurrogate t = some r) :
    ∃ g1 g2 g3 g4 t', t = 0x5C :: 0x75 :: g1 :: g2 :: g3 :: g4 :: t' ∧
      IsHex g1 ∧ IsHex g2 ∧ IsHex g3 ∧ IsHex g4 := by
  unfold lowSurrogate at h
  split at h
  · rename_i g1 g2 g3 g4 t'
    rcases e : getu4 g1 g2 g3 g4 with _ | r'
    · simp [e] at h
    · exact ⟨g1, g2, g3, g4, t', rfl, getu4_isHex e⟩
  · simp at h

theorem unescape_some {e b : Nat} (h : unescape e = some b) :
    e = 0x22 ∨ e = 0x5C ∨ e = 0x2F ∨ e = 0x62 ∨ e = 0x66 ∨ e = 0x6E ∨ e = 0x72 ∨ e = 0x74 := by
  unfold unescape at h
  split_ifs at h <;> omega

theorem takeDigits_spec (s : GoString) :
    s = (takeDigits s).1 ++ (takeDigits s).2 ∧
      ∀ d ∈ (takeDigits s).1, 0x30 ≤ d ∧ d ≤ 0x39 := by
  induction s with
  | nil => simp [takeDigits]
  | cons c rest ih =>
    unfold takeDigits
    by_cases h : 0x30 ≤ c ∧ c ≤ 0x39
    · simp only [h, and_self, if_true, List.cons_append, List.cons.injEq, true_and,
        List.mem_cons]
      refine ⟨ih.1, ?_⟩
      rintro d (hd | hd)
      · subst hd; exact h
      · exact ih.2 d hd
    · simp [h]

theorem takeDigits1_spec {s ds rest : GoString} (h : takeDigits1 s = some (ds, rest)) :
    s = ds ++ rest ∧ JDigits ds := by
  unfold takeDigits1 at h
  have hs := takeDigits_spec s
  rcases htd : takeDigits s with ⟨_ | ⟨d, ds'⟩, r⟩
  · simp [htd] at h
  · simp only [htd, Option.some.injEq, Prod.mk.injEq] at h
    rw [htd] at hs
    obtain ⟨h1, h2⟩ := h
    subst h1 h2
    exact ⟨hs.1, by simp, hs.2⟩

theorem parseInt_spec {s i rest : GoString} (h : parseInt s = some (i, rest)) :
    s = i ++ rest ∧ JInt i := by
  rcases s with _ | ⟨c, t⟩
  · simp [parseInt] at h
  unfold parseInt at h
  by_cases h0 : c = 0x30
  · simp only [h0, if_true, Option.some.injEq, Prod.mk.injEq] at h
    obtain ⟨h1, h2⟩ := h
    subst h0 h1 h2
    exact ⟨rfl, Or.inl rfl⟩
  · simp only [h0, if_false] at h
    by_cases h1 : 0x31 ≤ c ∧ c ≤ 0x39
    · simp only [h1, and_self, if_true, Option.some.injEq, Prod.mk.injEq] at h
      obtain ⟨e1, e2⟩ := h
      have hs := takeDigits_spec t
      subst e1 e2
      refine ⟨by simp only [List.cons_append]; rw [← hs.1], Or.inr ⟨c, _, rfl, h1.1, h1.2, hs.2⟩⟩
    · simp [h1] at h

theorem parseFrac_spec {s f rest : GoString} (h : parseFrac s = some (f, rest)) :
    s = f ++ rest ∧ (f = [] ∨ JFrac f) := by
  rcases s with _ | ⟨c, t⟩
  · simp only [parseFrac, Option.some.injEq, Prod.mk.injEq] at h
    obtain ⟨h1, h2⟩ := h
    subst h1 h2
    exact ⟨rfl, Or.inl rfl⟩
  unfold parseFrac at h
  by_cases hc : c = 0x2E
  · simp only [hc, if_true] at h
    rcases htd : takeDigits1 t with _ | ⟨ds, r⟩
    · simp [htd] at h
    · simp only [htd, Option.some.injEq, Prod.mk.injEq] at h
      obtain ⟨h1, h2⟩ := h
      obtain ⟨hs, hd⟩ := takeDigits1_spec htd
      subst hc h1 h2
      exact ⟨by rw [hs]; rfl, Or.inr ⟨ds, rfl, hd⟩⟩
  · simp only [hc, if_false, Option.some.injEq, Prod.mk.injEq] at h
    obtain ⟨h1, h2⟩ := h
    subst h1 h2
    exact ⟨rfl, Or.inl rfl⟩

theorem parseExp_spec {s e rest : GoString} (h : parseExp s = some (e, rest)) :
    s = e ++ rest ∧ (e = [] ∨ JExp e) := by
  rcases s with _ | ⟨c, t⟩
  · simp only [parseExp, Option.some.injEq, Prod.mk.injEq] at h
    obtain ⟨h1, h2⟩ := h
    subst h1 h2
    exact ⟨rfl, Or.inl rfl⟩
  unfold parseExp at h
  by_cases hc : c = 0x65 ∨ c = 0x45
  · simp only [hc, if_true] at h
    rcases t with _ | ⟨sg, t1⟩
    · simp at h
    simp only at h
    by_cases hsg : sg = 0x2B ∨ sg = 0x2D
    · simp only [hsg, if_true] at h
      rcases htd : takeDigits1 t1 with _ | ⟨ds, r⟩
      · simp [htd] at h
      · simp only [htd, Option.some.injEq, Prod.mk.injEq] at h
        obtain ⟨h1, h2⟩ := h
        obtain ⟨hs, hd⟩ := takeDigits1_spec htd
        subst h1 h2
        refine ⟨by rw [hs]; rfl, Or.inr ⟨c, [sg], ds, rfl, hc, ?_, hd⟩⟩
        rcases hsg with h | h <;> subst h <;> simp
    · simp only [hsg, if_false] at h
      rcases htd : takeDigits1 (sg :: t1) with _ | ⟨ds, r⟩
      · simp [htd] at h
      · simp only [htd, Option.some.injEq, Prod.mk.injEq] at h
        obtain ⟨h1, h2⟩ := h
        obtain ⟨hs, hd⟩ := takeDigits1_spec htd
        subst h1 h2
        exact ⟨by rw [hs]; rfl, Or.inr ⟨c, [], ds, rfl, hc, Or.inl rfl, hd⟩⟩
  · simp only [hc, if_false, Option.some.injEq, Prod.mk.injEq] at h
    obtain ⟨h1, h2⟩ := h
    subst h1 h2
    exact ⟨rfl, Or.inl rfl⟩

theorem parseUnsigned_spec {s n rest : GoString} (h : parseUnsigned s = some (n, rest)) :
    s = n ++ rest ∧ ∃ i f e, n = i ++ f ++ e ∧ JInt i ∧ (f = [] ∨ JFrac f) ∧ (e = [] ∨ JExp e) := by
  unfold parseUnsigned at h
  rcases hi : parseInt s with _ | ⟨i, r0⟩
  · simp [hi] at h
  simp only [hi] at h
  rcases hf : parseFrac r0 with _ | ⟨f, r1⟩
  · simp [hf] at h
  simp only [hf] at h
  rcases he : parseExp r1 with _ | ⟨e, r2⟩
  · simp [he] at h
  simp only [he, Option.some.injEq, Prod.mk.injEq] at h
  obtain ⟨h1, h2⟩ := h
  obtain ⟨hi1, hi2⟩ := parseInt_spec hi
  obtain ⟨hf1, hf2⟩ := parseFrac_spec hf
  obtain ⟨he1, he2⟩ := parseExp_spec he
  subst h1 h2
  exact ⟨by rw [hi1, hf1, he1]; simp, ⟨i, f, e, rfl, hi2, hf2, he2⟩⟩

theorem parseNumber_spec {s n rest : GoString} (h : parseNumber s = some (n, rest)) :
    s = n ++ rest ∧ JNumber n := by
  rcases s with _ | ⟨c, t⟩
  · simp [parseNumber] at h
  unfold parseNumber at h
  by_cases hc : c = 0x2D
  · simp only [hc, if_true] at h
    rcases hu : parseUnsigned t with _ | ⟨n', r⟩
    · simp [hu] at h
    simp only [hu, Option.some.injEq, Prod.mk.injEq] at h
    obtain ⟨h1, h2⟩ := h
    obtain ⟨hs, i, f, e, hn, hi, hf, he⟩ := parseUnsigned_spec hu
    subst hc h1 h2
    exact ⟨by rw [hs]; rfl, ⟨[0x2D], i, f, e, by rw [hn]; simp, Or.inr rfl, hi, hf, he⟩⟩
  · simp only [hc, if_false] at h
    obtain ⟨hs, i, f, e, hn, hi, hf, he⟩ := parseUnsigned_spec h
    exact ⟨hs, ⟨[], i, f, e, by rw [hn]; simp, Or.inl rfl, hi, hf, he⟩⟩

theorem skipWs_spec (s : GoString) : ∃ w, s = w ++ skipWs s ∧ IsWs w := by
  induction s with
  | nil => exact ⟨[], rfl, by intro c hc; simp at hc⟩
  | cons c rest ih =>
    unfold skipWs
    by_cases h : isSpace c = true
    · obtain ⟨w, hw, hws⟩ := ih
      simp only [h, if_true]
      refine ⟨c :: w, by rw [List.cons_append, ← hw], ?_⟩
      intro x hx
      rcases List.mem_cons.mp hx with hx | hx
      · subst hx
        simp only [isSpace, decide_eq_true_eq] at h
        omega
      · exact hws x hx
    · simp only [h, if_false]
      exact ⟨[], rfl, by intro c hc; simp at hc⟩

theorem stripLiteral_spec (lit : GoString) :
    ∀ (s rest : GoString), stripLiteral lit s = some rest → s = lit ++ rest := by
  induction lit with
  | nil => intro s rest h; simpa [stripLiteral] using h
  | cons l lit ih =>
    intro s rest h
    rcases s with _ | ⟨c, s⟩
    · simp [stripLiteral] at h
    · unfold stripLiteral at h
      by_cases hl : l = c
      · simp only [hl, if_true] at h
        rw [hl, ih s rest h]; rfl
      · simp [hl] at h

theorem IsWs.nil : IsWs [] := by intro c hc; simp at hc

theorem IsWs.append {w1 w2 : GoString} (h1 : IsWs w1) (h2 : IsWs w2) : IsWs (w1 ++ w2) := by
  intro c hc
  rcases List.mem_append.mp hc with h | h
  · exact h1 c h
  · exact h2 c h

theorem skipWs_ws_append (w : GoString) (hw : IsWs w) (c : Nat) (t : GoString)
    (hc : valueStart c = true) : skipWs (w ++ c :: t) = c :: t := by
  induction w with
  | nil =>
    have : isSpace c = false := by
      simp only [valueStart, decide_eq_true_eq] at hc
      simp only [isSpace, decide_eq_false_iff_not]
      omega
    simp [skipWs, this]
  | cons x w ih =>
    have hx : isSpace x = true := by
      have := hw x (by simp)
      simp only [isSpace, decide_eq_true_eq]
      omega
    simp only [List.cons_append, skipWs, hx, if_true]
    exact ih (fun y hy => hw y (List.mem_cons_of_mem _ hy))

/-! ## Soundness of the reader -/

theorem jchars_append_raw {raw : Nat → Prop} (cont : GoString)
    (h : ∀ x ∈ cont, 0x80 ≤ x ∧ raw x) {t : GoString}
    (ht : JChars raw t) : JChars raw (cont ++ t) := by
  induction cont with
  | nil => exact ht
  | cons c cs ih =>
    have hc := h c (by simp)
    exact JChars.rawByte c _ hc.1 hc.2 (ih (fun x hx => h x (List.mem_cons_of_mem _ hx)))

theorem parseStringBody_sound (n : Nat) :
    ∀ (t s rest : GoString), t.length = n → parseStringBody 0 t = some (s, rest) →
      ∃ body, t = body ++ 0x22 :: rest ∧ JChars (fun _ => True) body := by
  induction n using Nat.strong_induction_on with
  | _ n ih =>
    intro t s rest hlen h
    rcases t with _ | ⟨c, rest0⟩
    · simp [parseStringBody] at h
    unfold parseStringBody at h
    by_cases hq : c = 0x22
    · subst hq
      simp only [if_true, Option.some.injEq, Prod.mk.injEq] at h
      exact ⟨[], by simp [h.2], JChars.nil⟩
    simp only [hq, if_false] at h
    by_cases hbs : c = 0x5C
    · subst hbs
      simp only [if_true] at h
      rcases rest0 with _ | ⟨e, rest1⟩
      · simp at h
      simp only at h
      by_cases hu : e = 0x75
      · subst hu
        simp only [if_true] at h
        rcases rest1 with _ | ⟨h1, _ | ⟨h2, _ | ⟨h3, _ | ⟨h4, rest2⟩⟩⟩⟩ <;> try simp at h
        rcases hg : getu4 h1 h2 h3 h4 with _ | r
        · simp [hg] at h
        simp only [hg] at h
        have hhex := getu4_isHex hg
        by_cases hsur : 0xD800 ≤ r ∧ r ≤ 0xDFFF
        · simp only [hsur, and_self, if_true] at h
          rcases hls : (if r ≤ 0xDBFF then lowSurrogate rest2 else none) with _ | r2
          · simp only [hls] at h
            obtain ⟨s', hs', _⟩ := prepend_eq_some h
            obtain ⟨body, hb, hj⟩ := ih rest2.length (by simp at hlen; omega) rest2 s' rest rfl hs'
            exact ⟨0x5C :: 0x75 :: h1 :: h2 :: h3 :: h4 :: body, by simp [hb],
              JChars.uni _ _ _ _ _ hhex.1 hhex.2.1 hhex.2.2.1 hhex.2.2.2 hj⟩
          · simp only [hls] at h
            obtain ⟨s', hs', _⟩ := prepend_eq_some h
            obtain ⟨sk, t', ht, hl, hp⟩ := parseStringBody_skip_split 6 rest2 _ hs'
            have hlow : lowSurrogate rest2 = some r2 := by
              split_ifs at hls
              · exact hls
            obtain ⟨g1, g2, g3, g4, t'', ht'', hg1, hg2, hg3, hg4⟩ := lowSurrogate_shape hlow
            have hsk : sk = [0x5C, 0x75, g1, g2, g3, g4] ∧ t' = t'' := by
              rw [ht''] at ht
              rcases sk with _ | ⟨a1, _ | ⟨a2, _ | ⟨a3, _ | ⟨a4, _ | ⟨a5, _ | ⟨a6, _ | ⟨a7, sk⟩⟩⟩⟩⟩⟩⟩ <;>
                simp at hl
              simp only [List.cons_append, List.nil_append, List.cons.injEq] at ht
              obtain ⟨e1, e2, e3, e4, e5, e6, e7⟩ := ht
              subst e1 e2 e3 e4 e5 e6 e7
              exact ⟨rfl, rfl⟩
            obtain ⟨body, hb, hj⟩ := ih t'.length
              (by rw [ht] at hlen; simp at hlen; omega) t' s' rest rfl hp
            refine ⟨0x5C :: 0x75 :: h1 :: h2 :: h3 :: h4 ::
              0x5C :: 0x75 :: g1 :: g2 :: g3 :: g4 :: body, ?_, ?_⟩
            · rw [ht, hsk.1, hb]; simp
            · exact JChars.uni _ _ _ _ _ hhex.1 hhex.2.1 hhex.2.2.1 hhex.2.2.2
                (JChars.uni _ _ _ _ _ hg1 hg2 hg3 hg4 hj)
        · simp only [hsur, if_false] at h
          obtain ⟨s', hs', _⟩ := prepend_eq_some h
          obtain ⟨body, hb, hj⟩ := ih rest2.length (by simp at hlen; omega) rest2 s' rest rfl hs'
          exact ⟨0x5C :: 0x75 :: h1 :: h2 :: h3 :: h4 :: body, by simp [hb],
            JChars.uni _ _ _ _ _ hhex.1 hhex.2.1 hhex.2.2.1 hhex.2.2.2 hj⟩
      · simp only [hu, if_false] at h
        rcases hue : unescape e with _ | b
        · simp [hue] at h
        simp only [hue] at h
        obtain ⟨s', hs', _⟩ := prepend_eq_some h
        obtain ⟨body, hb, hj⟩ := ih rest1.length (by simp at hlen; omega) rest1 s' rest rfl hs'
        exact ⟨0x5C :: e :: body, by simp [hb], JChars.esc e _ (unescape_some hue) hj⟩
    simp only [hbs, if_false] at h
    by_cases hctl : c < 0x20
    · simp [hctl] at h
    simp only [hctl, if_false] at h
    by_cases hasc : c < 0x80
    · simp only [hasc, if_true] at h
      obtain ⟨s', hs', _⟩ := prepend_eq_some h
      obtain ⟨body, hb, hj⟩ := ih rest0.length (by simp at hlen; omega) rest0 s' rest rfl hs'
      exact ⟨c :: body, by simp [hb], JChars.plain c _ (by omega) hasc hq hbs hj⟩
    simp only [hasc, if_false] at h
    obtain ⟨s', hs', _⟩ := prepend_eq_some h
    obtain ⟨sk, t', ht, hl, hp⟩ := parseStringBody_skip_split _ rest0 _ hs'
    obtain ⟨body, hb, hj⟩ := ih t'.length
      (by rw [ht] at hlen; simp at hlen; omega) t' s' rest rfl hp
    have hskp : ∀ x ∈ sk, 0x80 ≤ x ∧ (fun _ => True) x := by
      by_cases hd : decodeRune (c :: rest0) = (runeError, 1)
      · rw [hd] at hl
        have : sk = [] := List.eq_nil_of_length_eq_zero (by simpa using hl)
        rw [this]; simp
      · obtain ⟨cont, t'', ht'', hsz, _, _, _, hcont⟩ := decodeRune_multibyte c rest0 hasc hd
        have hlen' : sk.length = cont.length := by omega
        have : sk = cont := by
          have h1 := congrArg (List.take sk.length) ht
          rw [ht'', List.take_left, hlen', List.take_left] at h1
          exact h1.symm
        rw [this]; exact fun x hx => ⟨hcont x hx, trivial⟩
    refine ⟨c :: (sk ++ body), ?_, ?_⟩
    · rw [ht, hb]; simp
    · exact JChars.rawByte c _ (by omega) trivial (jchars_append_raw sk hskp hj)

theorem jmember_prepend_ws {raw : Nat → Prop} {n : Nat} {w m : GoString} (hw : IsWs w)
    (h : JSyntax raw .member n m) : JSyntax raw .member n (w ++ m) := by
  cases h with
  | member _ w1 k w2 w3 v w4 h1 hk h2 h3 hv h4 =>
    have := JSyntax.member n (w ++ w1) k w2 w3 v w4 (hw.append h1) hk h2 h3 hv h4
    simpa [List.append_assoc] using this

theorem jelems_prepend_ws {raw : Nat → Prop} {n : Nat} {w body : GoString} (hw : IsWs w)
    (h : JSyntax raw .elems n body) : JSyntax raw .elems n (w ++ body) := by
  cases h with
  | lastElem _ w1 v w2 h1 hv h2 =>
    have := JSyntax.lastElem n (w ++ w1) v w2 (hw.append h1) hv h2
    simpa [List.append_assoc] using this
  | moreElems _ w1 v w2 rest h1 hv h2 hr =>
    have := JSyntax.moreElems n (w ++ w1) v w2 rest (hw.append h1) hv h2 hr
    simpa [List.append_assoc] using this

theorem jmembers_prepend_ws {raw : Nat → Prop} {n : Nat} {w body : GoString} (hw : IsWs w)
    (h : JSyntax raw .members n body) : JSyntax raw .members n (w ++ body) := by
  cases h with
  | lastMember _ m hm => exact JSyntax.lastMember n _ (jmember_prepend_ws hw hm)
  | moreMembers _ m rest hm hr =>
    have := JSyntax.moreMembers n (w ++ m) rest (jmember_prepend_ws hw hm) hr
    simpa [List.append_assoc] using this

theorem parseValue_sound_step (f : Nat)
    (ihE : ∀ d s vs rest, parseElems f d s = some (vs, rest) →
      ∃ c, s = c ++ 0x5D :: rest ∧ JSyntax (fun _ => True) .elems (maxNestingDepth - d) c)
    (ihM : ∀ d s ms rest, parseMembers f d s = some (ms, rest) →
      ∃ c, s = c ++ 0x7D :: rest ∧ JSyntax (fun _ => True) .members (maxNestingDepth - d) c) :
    ∀ d s v rest, parseValue (f + 1) d s = some (v, rest) →
      ∃ c, s = c ++ rest ∧ JSyntax (fun _ => True) .value (maxNestingDepth - d) c := by
  intro d s v rest h
  rcases s with _ | ⟨c, t⟩
  · simp [parseValue] at h
  unfold parseValue at h
  by_cases hobj : c = 0x7B
  · subst hobj
    simp only [if_true] at h
    by_cases hd : maxNestingDepth < d + 1
    · simp [hd] at h
    simp only [hd, if_false] at h
    have hdep : maxNestingDepth - d = (maxNestingDepth - (d + 1)) + 1 := by omega
    obtain ⟨w, hw, hws⟩ := skipWs_spec t
    rcases hsk : skipWs t with _ | ⟨c1, t1⟩
    · simp [hsk] at h
    simp only [hsk] at h
    rw [hsk] at hw
    by_cases hc1 : c1 = 0x7D
    · simp only [hc1, if_true, Option.some.injEq, Prod.mk.injEq] at h
      subst hc1
      refine ⟨0x7B :: (w ++ [0x7D]), ?_, ?_⟩
      · rw [hw, ← h.2]; simp
      · rw [hdep]; exact JSyntax.emptyObject _ w hws
    · simp only [hc1, if_false] at h
      rcases hm : parseMembers f (d + 1) (c1 :: t1) with _ | ⟨ms, r2⟩
      · simp [hm] at h
      simp only [hm, Option.some.injEq, Prod.mk.injEq] at h
      obtain ⟨body, hb, hj⟩ := ihM _ _ _ _ hm
      refine ⟨0x7B :: ((w ++ body) ++ [0x7D]), ?_, ?_⟩
      · rw [hw, hb, ← h.2]; simp
      · rw [hdep]; exact JSyntax.object _ _ (jmembers_prepend_ws hws hj)
  simp only [hobj, if_false] at h
  by_cases harr : c = 0x5B
  · subst harr
    simp only [if_true] at h
    by_cases hd : maxNestingDepth < d + 1
    · simp [hd] at h
    simp only [hd, if_false] at h
    have hdep : maxNestingDepth - d = (maxNestingDepth - (d + 1)) + 1 := by omega
    obtain ⟨w, hw, hws⟩ := skipWs_spec t
    rcases hsk : skipWs t with _ | ⟨c1, t1⟩
    · simp [hsk] at h
    simp only [hsk] at h
    rw [hsk] at hw
    by_cases hc1 : c1 = 0x5D
    · simp only [hc1, if_true, Option.some.injEq, Prod.mk.injEq] at h
      subst hc1
      refine ⟨0x5B :: (w ++ [0x5D]), ?_, ?_⟩
      · rw [hw, ← h.2]; simp
      · rw [hdep]; exact JSyntax.emptyArray _ w hws
    · simp only [hc1, if_false] at h
      rcases hm : parseElems f (d + 1) (c1 :: t1) with _ | ⟨vs, r2⟩
      · simp [hm] at h
      simp only [hm, Option.some.injEq, Prod.mk.injEq] at h
      obtain ⟨body, hb, hj⟩ := ihE _ _ _ _ hm
      refine ⟨0x5B :: ((w ++ body) ++ [0x5D]), ?_, ?_⟩
      · rw [hw, hb, ← h.2]; simp
      · rw [hdep]; exact JSyntax.array _ _ (jelems_prepend_ws hws hj)
  simp only [harr, if_false] at h
  by_cases hstr : c = 0x22
  · subst hstr
    simp only [if_true] at h
    rcases hp : parseStringBody 0 t with _ | ⟨s', r1⟩
    · simp [hp] at h
    simp only [hp, Option.some.injEq, Prod.mk.injEq] at h
    obtain ⟨body, hb, hj⟩ := parseStringBody_sound t.length t s' r1 rfl hp
    refine ⟨0x22 :: (body ++ [0x22]), ?_, JSyntax.string _ _ ⟨body, rfl, hj⟩⟩
    rw [hb, ← h.2]; simp
  simp only [hstr, if_false] at h
  by_cases ht : c = 0x74
  · subst ht
    simp only [if_true] at h
    rcases hp : stripLiteral (ascii "rue") t with _ | r1
    · simp [hp] at h
    simp only [hp, Option.some.injEq, Prod.mk.injEq] at h
    have := stripLiteral_spec _ _ _ hp
    refine ⟨[0x74, 0x72, 0x75, 0x65], ?_, JSyntax.litTrue _⟩
    rw [this, ← h.2]; rfl
  simp only [ht, if_false] at h
  by_cases hf : c = 0x66
  · subst hf
    simp only [if_true] at h
    rcases hp : stripLiteral (ascii "alse") t with _ | r1
    · simp [hp] at h
    simp only [hp, Option.some.injEq, Prod.mk.injEq] at h
    have := stripLiteral_spec _ _ _ hp
    refine ⟨[0x66, 0x61, 0x6C, 0x73, 0x65], ?_, JSyntax.litFalse _⟩
    rw [this, ← h.2]; rfl
  simp only [hf, if_false] at h
  by_cases hn : c = 0x6E
  · subst hn
    simp only [if_true] at h
    rcases hp : stripLiteral (ascii "ull") t with _ | r1
    · simp [hp] at h
    simp only [hp, Option.some.injEq, Prod.mk.injEq] at h
    have := stripLiteral_spec _ _ _ hp
    refine ⟨[0x6E, 0x75, 0x6C, 0x6C], ?_, JSyntax.litNull _⟩
    rw [this, ← h.2]; rfl
  simp only [hn, if_false] at h
  rcases hp : parseNumber (c :: t) with _ | ⟨n, r1⟩
  · simp [hp] at h
  simp only [hp, Option.some.injEq, Prod.mk.injEq] at h
  obtain ⟨hs, hj⟩ := parseNumber_spec hp
  exact ⟨n, by rw [hs, ← h.2], JSyntax.number _ n hj⟩

theorem parseElems_sound_step (f : Nat)
    (ihV : ∀ d s v rest, parseValue f d s = some (v, rest) →
      ∃ c, s = c ++ rest ∧ JSyntax (fun _ => True) .value (maxNestingDepth - d) c)
    (ihE : ∀ d s vs rest, parseElems f d s = some (vs, rest) →
      ∃ c, s = c ++ 0x5D :: rest ∧ JSyntax (fun _ => True) .elems (maxNestingDepth - d) c) :
    ∀ d s vs rest, parseElems (f + 1) d s = some (vs, rest) →
      ∃ c, s = c ++ 0x5D :: rest ∧ JSyntax (fun _ => True) .elems (maxNestingDepth - d) c := by
  intro d s vs rest h
  unfold parseElems at h
  rcases hv : parseValue f d s with _ | ⟨v, r⟩
  · simp [hv] at h
  simp only [hv] at h
  obtain ⟨cv, hcv, hjv⟩ := ihV _ _ _ _ hv
  obtain ⟨w, hw, hws⟩ := skipWs_spec r
  rcases hsk : skipWs r with _ | ⟨c, r1⟩
  · simp [hsk] at h
  simp only [hsk] at h
  rw [hsk] at hw
  by_cases hc : c = 0x2C
  · subst hc
    simp only [if_true] at h
    rcases he : parseElems f d (skipWs r1) with _ | ⟨vs', r2⟩
    · simp [he] at h
    simp only [he, Option.some.injEq, Prod.mk.injEq] at h
    obtain ⟨w', hw', hws'⟩ := skipWs_spec r1
    obtain ⟨body, hb, hj⟩ := ihE _ _ _ _ he
    have hm := JSyntax.moreElems _ [] cv w (w' ++ body) IsWs.nil hjv hws
      (jelems_prepend_ws hws' hj)
    refine ⟨_, ?_, hm⟩
    rw [hcv, hw, hw', hb, ← h.2]; simp
  · simp only [hc, if_false] at h
    by_cases hc' : c = 0x5D
    · subst hc'
      simp only [if_true, Option.some.injEq, Prod.mk.injEq] at h
      have hm := JSyntax.lastElem _ [] cv w IsWs.nil hjv hws
      refine ⟨_, ?_, hm⟩
      rw [hcv, hw, ← h.2]; simp
    · simp [hc'] at h

theorem parseMembers_sound_step (f : Nat)
    (ihV : ∀ d s v rest, parseValue f d s = some (v, rest) →
      ∃ c, s = c ++ rest ∧ JSyntax (fun _ => True) .value (maxNestingDepth - d) c)
    (ihM : ∀ d s ms rest, parseMembers f d s = some (ms, rest) →
      ∃ c, s = c ++ 0x7D :: rest ∧ JSyntax (fun _ => True) .members (maxNestingDepth - d) c) :
    ∀ d s ms rest, parseMembers (f + 1) d s = some (ms, rest) →
      ∃ c, s = c ++ 0x7D :: rest ∧ JSyntax (fun _ => True) .members (maxNestingDepth - d) c := by
  intro d s ms rest h
  rcases s with _ | ⟨c, t⟩
  · simp [parseMembers] at h
  unfold parseMembers at h
  by_cases hq : c = 0x22
  swap
  · simp [hq] at h
  subst hq
  simp only [if_true] at h
  rcases hp : parseStringBody 0 t with _ | ⟨key, r1⟩
  · simp [hp] at h
  simp only [hp] at h
  obtain ⟨kb, hkb, hjk⟩ := parseStringBody_sound t.length t key r1 rfl hp
  have hk : JString (fun _ => True) (0x22 :: (kb ++ [0x22])) := ⟨kb, rfl, hjk⟩
  obtain ⟨w2, hw2, hws2⟩ := skipWs_spec r1
  rcases hsk : skipWs r1 with _ | ⟨c2, r2⟩
  · simp [hsk] at h
  simp only [hsk] at h
  rw [hsk] at hw2
  by_cases hc2 : c2 = 0x3A
  swap
  · simp [hc2] at h
  subst hc2
  simp only [if_true] at h
  obtain ⟨w3, hw3, hws3⟩ := skipWs_spec r2
  rcases hv : parseValue f d (skipWs r2) with _ | ⟨v, r3⟩
  · simp [hv] at h
  simp only [hv] at h
  obtain ⟨cv, hcv, hjv⟩ := ihV _ _ _ _ hv
  obtain ⟨w4, hw4, hws4⟩ := skipWs_spec r3
  rcases hsk4 : skipWs r3 with _ | ⟨c4, r4⟩
  · simp [hsk4] at h
  simp only [hsk4] at h
  rw [hsk4] at hw4
  have hmem := JSyntax.member _ [] _ w2 w3 cv w4 IsWs.nil hk hws2 hws3 hjv hws4
  by_cases hc4 : c4 = 0x2C
  · subst hc4
    simp only [if_true] at h
    rcases hm : parseMembers f d (skipWs r4) with _ | ⟨ms', r5⟩
    · simp [hm] at h
    simp only [hm, Option.some.injEq, Prod.mk.injEq] at h
    obtain ⟨w5, hw5, hws5⟩ := skipWs_spec r4
    obtain ⟨body, hb, hj⟩ := ihM _ _ _ _ hm
    have hmm := JSyntax.moreMembers _ _ (w5 ++ body) hmem (jmembers_prepend_ws hws5 hj)
    refine ⟨_, ?_, hmm⟩
    rw [hkb, hw2, hw3, hcv, hw4, hw5, hb, ← h.2]; simp
  · simp only [hc4, if_false] at h
    by_cases hc4' : c4 = 0x7D
    · subst hc4'
      simp only [if_true, Option.some.injEq, Prod.mk.injEq] at h
      have hmm := JSyntax.lastMember _ _ hmem
      refine ⟨_, ?_, hmm⟩
      rw [hkb, hw2, hw3, hcv, hw4, ← h.2]; simp
    · simp [hc4'] at h

/-- Soundness of the three mutually recursive readers for a given fuel: what is read
is a text of the grammar, nested no deeper than the depth limit leaves room for. -/
theorem parse_sound (f : Nat) :
    (∀ d s v rest, parseValue f d s = some (v, rest) →
      ∃ c, s = c ++ rest ∧ JSyntax (fun _ => True) .value (maxNestingDepth - d) c) ∧
    (∀ d s vs rest, parseElems f d s = some (vs, rest) →
      ∃ c, s = c ++ 0x5D :: rest ∧ JSyntax (fun _ => True) .elems (maxNestingDepth - d) c) ∧
    (∀ d s ms rest, parseMembers f d s = some (ms, rest) →
      ∃ c, s = c ++ 0x7D :: rest ∧ JSyntax (fun _ => True) .members (maxNestingDepth - d) c) := by
  induction f with
  | zero =>
    refine ⟨?_, ?_, ?_⟩ <;> intro d s x rest h
    · simp [parseValue] at h
    · simp [parseElems] at h
    · simp [parseMembers] at h
  | succ f ih =>
    obtain ⟨ihV, ihE, ihM⟩ := ih
    exact ⟨parseValue_sound_step f ihE ihM, parseElems_sound_step f ihV ihE,
      parseMembers_sound_step f ihV ihM⟩

theorem jchars_mono {raw raw2 : Nat → Prop} {s : GoString} (h : JChars raw s) :
    (∀ c ∈ s, raw c → raw2 c) → JChars raw2 s := by
  induction h with
  | nil => intro _; exact JChars.nil
  | plain c t h1 h2 h3 h4 _ ih =>
    intro hm
    exact JChars.plain c t h1 h2 h3 h4 (ih (fun x hx => hm x (List.mem_cons_of_mem _ hx)))
  | rune b tail t h1 _ ih =>
    intro hm
    exact JChars.rune b tail t h1
      (ih (fun x hx => hm x (List.mem_cons_of_mem _ (List.mem_append_right _ hx))))
  | rawByte c t h1 h2 _ ih =>
    intro hm
    exact JChars.rawByte c t h1 (hm c (List.mem_cons_self _ _) h2)
      (ih (fun x hx => hm x (List.mem_cons_of_mem _ hx)))
  | esc e t h1 _ ih =>
    intro hm
    exact JChars.esc e t h1
      (ih (fun x hx => hm x (List.mem_cons_of_mem _ (List.mem_cons_of_mem _ hx))))
  | uni h1 h2 h3 h4 t g1 g2 g3 g4 _ ih =>
    intro hm
    exact JChars.uni h1 h2 h3 h4 t g1 g2 g3 g4 (ih (fun x hx => hm x (by simp [hx])))

theorem jstring_mono {raw raw2 : Nat → Prop} {s : GoString} (h : JString raw s)
    (hm : ∀ c ∈ s, raw c → raw2 c) : JString raw2 s := by
  obtain ⟨body, hs, hb⟩ := h
  exact ⟨body, hs, jchars_mono hb (fun x hx => hm x (by rw [hs]; simp [hx]))⟩

/-- A text of the grammar stays one when more bytes may stand on their own in strings;
only the bytes that occur in the text matter. -/
theorem jsyntax_mono {raw raw2 : Nat → Prop} {k : JKind} {n : Nat} {s : GoString}
    (h : JSyntax raw k n s) : (∀ c ∈ s, raw c → raw2 c) → JSyntax raw2 k n s := by
  induction h with
  | litNull n => intro _; exact JSyntax.litNull n
  | litTrue n => intro _; exact JSyntax.litTrue n
  | litFalse n => intro _; exact JSyntax.litFalse n
  | number n s hn => intro _; exact JSyntax.number n s hn
  | string n s hs => intro hm; exact JSyntax.string n s (jstring_mono hs hm)
  | emptyArray n w hw => intro _; exact JSyntax.emptyArray n w hw
  | array n body _ ih =>
    intro hm
    exact JSyntax.array n body (ih (fun x hx => hm x (by simp [hx])))
  | emptyObject n w hw => intro _; exact JSyntax.emptyObject n w hw
  | object n body _ ih =>
    intro hm
    exact JSyntax.object n body (ih (fun x hx => hm x (by simp [hx])))
  | lastElem n w1 v w2 h1 _ h2 ih =>
    intro hm
    exact JSyntax.lastElem n w1 v w2 h1 (ih (fun x hx => hm x (by simp [hx]))) h2
  | moreElems n w1 v w2 rest h1 _ h2 _ ihv ihr =>
    intro hm
    exact JSyntax.moreElems n w1 v w2 rest h1 (ihv (fun x hx => hm x (by simp [hx]))) h2
      (ihr (fun x hx => hm x (by simp [hx])))
  | member n w1 k w2 w3 v w4 h1 hk h2 h3 _ h4 ih =>
    intro hm
    exact JSyntax.member n w1 k w2 w3 v w4 h1 (jstring_mono hk (fun x hx => hm x (by simp [hx])))
      h2 h3 (ih (fun x hx => hm x (by simp [hx]))) h4
  | lastMember n m _ ih => intro hm; exact JSyntax.lastMember n m (ih hm)
  | moreMembers n m rest _ _ ihm ihr =>
    intro hm
    exact JSyntax.moreMembers n m rest (ihm (fun x hx => hm x (by simp [hx])))
      (ihr (fun x hx => hm x (by simp [hx])))

/-- What `parseJSON` accepts is a JSON text but for the encoding of its strings,
nested no deeper than the depth limit. -/
theorem parseJSON_sound {data : GoString} {v : JSON} (hbytes : ∀ b ∈ data, b < 0x100)
    (h : parseJSON data = some v) :
    JSONTextOf (fun c => c < 0x100) maxNestingDepth data := by
  unfold parseJSON at h
  rcases hp : parseValue (2 * data.length + 2) 0 (skipWs data) with _ | ⟨v', r⟩
  · simp [hp] at h
  simp only [hp] at h
  obtain ⟨w1, hw1, hws1⟩ := skipWs_spec data
  obtain ⟨c, hc, hj⟩ := (parse_sound _).1 _ _ _ _ hp
  obtain ⟨w2, hw2, hws2⟩ := skipWs_spec r
  rcases hsk : skipWs r with _ | ⟨x, r'⟩
  · rw [hsk] at hw2
    have hdata : data = w1 ++ c ++ w2 := by
      rw [List.append_assoc, ← (by simpa using hw2 : r = w2), ← hc, ← hw1]
    refine ⟨w1, c, w2, hdata, hws1, ?_, hws2⟩
    exact jsyntax_mono hj (fun x hx _ => hbytes x (by rw [hdata]; simp [hx]))
  · simp [hsk] at h

theorem jvalue_starts {raw : Nat → Prop} {n : Nat} {v : GoString}
    (h : JSyntax raw .value n v) : ∃ c t, v = c :: t ∧ valueStart c = true := by
  cases h with
  | litNull => exact ⟨_, _, rfl, by decide⟩
  | litTrue => exact ⟨_, _, rfl, by decide⟩
  | litFalse => exact ⟨_, _, rfl, by decide⟩
  | number _ s hn =>
    obtain ⟨sg, i, f, e, hs, hsg, hi, _, _⟩ := hn
    rcases hsg with hsg | hsg
    · subst hsg
      rcases hi with hi | ⟨c, ds, hi, h1, h2, _⟩
      · subst hi; exact ⟨0x30, f ++ e, by simp [hs], by decide⟩
      · subst hi
        exact ⟨c, ds ++ f ++ e, by simp [hs], by simp only [valueStart, decide_eq_true_eq]; omega⟩
    · subst hsg
      exact ⟨0x2D, i ++ f ++ e, by simp [hs], by decide⟩
  | string _ s hs =>
    obtain ⟨body, hb, _⟩ := hs
    exact ⟨_, _, hb, by decide⟩
  | emptyArray _ w _ => exact ⟨_, _, rfl, by decide⟩
  | array _ body _ => exact ⟨_, _, rfl, by decide⟩
  | emptyObject _ w _ => exact ⟨_, _, rfl, by decide⟩
  | object _ body _ => exact ⟨_, _, rfl, by decide⟩

theorem jsonTextOf_starts {raw : Nat → Prop} {n : Nat} {s : GoString}
    (h : JSONTextOf raw n s) : ∃ c t, skipWs s = c :: t ∧ valueStart c = true := by
  obtain ⟨w1, v, w2, hs, hw1, hv, _⟩ := h
  obtain ⟨c, t, hv', hc⟩ := jvalue_starts hv
  refine ⟨c, t ++ w2, ?_, hc⟩
  rw [hs, hv', List.append_assoc, List.cons_append]
  exact skipWs_ws_append w1 hw1 c _ hc

theorem jsonText_lax {s : GoString} (h : JSONText s) : LaxJSONText s := by
  obtain ⟨n, w1, v, w2, hs, hw1, hv, hw2⟩ := h
  exact ⟨n, w1, v, w2, hs, hw1, jsyntax_mono hv (fun _ _ hf => hf.elim), hw2⟩

theorem skipWs_length (s : GoString) : (skipWs s).length ≤ s.length := by
  obtain ⟨w, hw, _⟩ := skipWs_spec s
  have := congrArg List.length hw
  simp only [List.length_append] at this
  omega

theorem parseValue_rest_length {f d : Nat} {s rest : GoString} {v : JSON}
    (h : parseValue f d s = some (v, rest)) : rest.length < s.length := by
  obtain ⟨c, hc, hj⟩ := (parse_sound f).1 _ _ _ _ h
  obtain ⟨x, t, hx, _⟩ := jvalue_starts hj
  rw [hc, hx]
  simp only [List.length_append, List.length_cons]
  omega

theorem parseStringBody_rest_length {t s rest : GoString}
    (h : parseStringBody 0 t = some (s, rest)) : rest.length < t.length := by
  obtain ⟨body, hb, _⟩ := parseStringBody_sound t.length t s rest rfl h
  rw [hb]
  simp only [List.length_append, List.length_cons]
  omega

theorem parseValue_fuel_step (f : Nat)
    (ihE : ∀ d s, 2 * s.length + 1 ≤ f → parseElems (f + 1) d s = parseElems f d s)
    (ihM : ∀ d s, 2 * s.length + 1 ≤ f → parseMembers (f + 1) d s = parseMembers f d s) :
    ∀ d s, 2 * s.length ≤ f + 1 → parseValue (f + 2) d s = parseValue (f + 1) d s := by
  intro d s hs
  rcases s with _ | ⟨c, t⟩
  · simp [parseValue]
  conv_lhs => unfold parseValue
  conv_rhs => unfold parseValue
  have hsk := skipWs_length t
  rcases hsw : skipWs t with _ | ⟨c1, t1⟩
  · rfl
  · rw [hsw] at hsk
    simp only [List.length_cons] at hs hsk
    simp only
    rw [ihE (d + 1) (c1 :: t1) (by simp only [List.length_cons]; omega),
      ihM (d + 1) (c1 :: t1) (by simp only [List.length_cons]; omega)]

theorem parseElems_fuel_step (f : Nat)
    (ihV : ∀ d s, 2 * s.length ≤ f → parseValue (f + 1) d s = parseValue f d s)
    (ihE : ∀ d s, 2 * s.length + 1 ≤ f → parseElems (f + 1) d s = parseElems f d s) :
    ∀ d s, 2 * s.length + 1 ≤ f + 1 → parseElems (f + 2) d s = parseElems (f + 1) d s := by
  intro d s hs
  conv_lhs => unfold parseElems
  conv_rhs => unfold parseElems
  rw [ihV d s (by omega)]
  rcases hv : parseValue f d s with _ | ⟨v, r⟩
  · rfl
  · have hr := parseValue_rest_length hv
    have hsk := skipWs_length r
    simp only
    rcases hsw : skipWs r with _ | ⟨c, r1⟩
    · rfl
    · rw [hsw] at hsk
      have hsk1 := skipWs_length r1
      simp only [List.length_cons] at hsk
      simp only
      rw [ihE d (skipWs r1) (by omega)]

theorem parseMembers_fuel_step (f : Nat)
    (ihV : ∀ d s, 2 * s.length ≤ f → parseValue (f + 1) d s = parseValue f d s)
    (ihM : ∀ d s, 2 * s.length + 1 ≤ f → parseMembers (f + 1) d s = parseMembers f d s) :
    ∀ d s, 2 * s.length + 1 ≤ f + 1 → parseMembers (f + 2) d s = parseMembers (f + 1) d s := by
  intro d s hs
  rcases s with _ | ⟨c, t⟩
  · simp [parseMembers]
  conv_lhs => unfold parseMembers
  conv_rhs => unfold parseMembers
  simp only [List.length_cons] at hs
  rcases hp : parseStringBody 0 t with _ | ⟨key, r1⟩
  · rfl
  · have h1 := parseStringBody_rest_length hp
    have hsk1 := skipWs_length r1
    simp only
    rcases hsw : skipWs r1 with _ | ⟨c2, r2⟩
    · rfl
    · rw [hsw] at hsk1
      simp only [List.length_cons] at hsk1
      have hsk2 := skipWs_length r2
      simp only
      rw [ihV d (skipWs r2) (by omega)]
      rcases hv : parseValue f d (skipWs r2) with _ | ⟨v, r3⟩
      · rfl
      · have h3 := parseValue_rest_length hv
        have hsk3 := skipWs_length r3
        simp only
        rcases hsw3 : skipWs r3 with _ | ⟨c4, r4⟩
        · rfl
        · rw [hsw3] at hsk3
          simp only [List.length_cons] at hsk3
          have hsk4 := skipWs_length r4
          simp only
          rw [ihM d (skipWs r4) (by omega)]

/-- With fuel at least twice the length of the input (plus one for the two list
readers), one more unit of fuel does not change the result. -/
theorem parse_fuel_succ (f : Nat) :
    (∀ d s, 2 * s.length ≤ f → parseValue (f + 1) d s = parseValue f d s) ∧
    (∀ d s, 2 * s.length + 1 ≤ f → parseElems (f + 1) d s = parseElems f d s) ∧
    (∀ d s, 2 * s.length + 1 ≤ f → parseMembers (f + 1) d s = parseMembers f d s) := by
  induction f with
  | zero =>
    refine ⟨?_, ?_, ?_⟩
    · intro d s hs
      have : s = [] := List.eq_nil_of_length_eq_zero (by omega)
      subst this
      simp [parseValue]
    · intro d s hs; omega
    · intro d s hs; omega
  | succ f ih =>
    obtain ⟨ihV, ihE, ihM⟩ := ih
    exact ⟨parseValue_fuel_step f ihE ihM, parseElems_fuel_step f ihV ihE,
      parseMembers_fuel_step f ihV ihM⟩

/-- The fuel `parseJSON` gives is enough: any larger fuel reads the same value. -/
theorem parseValue_fuel_enough (data : GoString) (extra : Nat) :
    parseValue (2 * data.length + 2 + extra) 0 (skipWs data)
      = parseValue (2 * data.length + 2) 0 (skipWs data) := by
  induction extra with
  | zero => rfl
  | succ n ih =>
    have hsk := skipWs_length data
    rw [← ih]
    have hf : 2 * (skipWs data).length ≤ 2 * data.length + 2 + n := by omega
    exact (parse_fuel_succ (2 * data.length + 2 + n)).1 0 (skipWs data) hf

theorem parseValue_too_deep (n : Nat) :
    ∀ (f d : Nat) (t : GoString), maxNestingDepth < d + (n + 1) →
      parseValue f d (List.replicate (n + 1) 0x5B ++ t) = none := by
  induction n with
  | zero =>
    intro f d t hd
    rcases f with _ | f
    · simp [parseValue]
    · conv_lhs => unfold parseValue
      simp [hd]
  | succ n ih =>
    intro f d t hd
    rcases f with _ | f
    · simp [parseValue]
    · have hrep : List.replicate (n + 1 + 1) 0x5B ++ t
          = 0x5B :: (0x5B :: (List.replicate n 0x5B ++ t)) := by
        simp [List.replicate_succ]
      rw [hrep]
      conv_lhs => unfold parseValue
      by_cases hd1 : maxNestingDepth < d + 1
      · simp [hd1]
      · have hin : parseValue (f - 1) (d + 1) (0x5B :: (List.replicate n 0x5B ++ t)) = none := by
          have := ih (f - 1) (d + 1) t (by omega)
          simpa [List.replicate_succ] using this
        have hel : parseElems f (d + 1) (0x5B :: (List.replicate n 0x5B ++ t)) = none := by
          rcases f with _ | f
          · simp [parseElems]
          · conv_lhs => unfold parseElems
            simp only [Nat.add_sub_cancel] at hin
            rw [hin]
        simp only [show ¬ ((0x5B : Nat) = 0x7B) by decide, if_false, if_true, hd1]
        rw [skipWs_cons _ _ (by decide)]
        simp only [show ¬ ((0x5B : Nat) = 0x5D) by decide, if_false, hel]

theorem parseJSON_deepMessage (n : Nat) (hn : maxNestingDepth ≤ n + 1) :
    parseJSON (deepMessage (n + 1)) = none := by
  have hshape : deepMessage (n + 1) = 0x7B :: (appendString (ascii "body") ++ 0x3A ::
      (appendString (ascii "x") ++ 0x2C :: (appendString (ascii "deep") ++ 0x3A ::
        (List.replicate (n + 1) 0x5B ++ (List.replicate (n + 1) 0x5D ++ [0x7D]))))) := by
    have h1 : ascii "\x7b\"body\":\"x\",\"deep\":" = 0x7B :: (appendString (ascii "body") ++
        0x3A :: (appendString (ascii "x") ++ 0x2C :: (appendString (ascii "deep") ++ [0x3A]))) := by
      decide
    unfold deepMessage
    rw [h1]
    simp only [List.cons_append, List.append_assoc, List.singleton_append, List.nil_append]
  generalize hT : List.replicate (n + 1) 0x5D ++ [0x7D] = T at hshape
  have hdeep : ∀ f, parseValue f 1 (List.replicate (n + 1) 0x5B ++ T) = none :=
    fun f => parseValue_too_deep n f 1 _ (by omega)
  have hsk : skipWs (List.replicate (n + 1) 0x5B ++ T) = List.replicate (n + 1) 0x5B ++ T := by
    rw [List.replicate_succ, List.cons_append]
    exact skipWs_cons _ _ (by decide)
  generalize List.replicate (n + 1) 0x5B ++ T = D at hshape hdeep hsk
  have hm2 : ∀ f, parseMembers f 1 (appendString (ascii "deep") ++ 0x3A :: D) = none := by
    intro f
    rcases f with _ | f
    · simp [parseMembers]
    · rw [appendString_append]
      conv_lhs => unfold parseMembers
      simp only [if_true, parseStringBody_appendString (ascii "deep") _ (by decide)]
      rw [skipWs_cons _ _ (by decide)]
      simp only [if_true, hsk, hdeep]
  have hm1 : ∀ f, parseMembers f 1 (appendString (ascii "body") ++ 0x3A ::
      (appendString (ascii "x") ++ 0x2C :: (appendString (ascii "deep") ++ 0x3A :: D))) = none := by
    intro f
    rcases f with _ | f
    · simp [parseMembers]
    rcases f with _ | f
    · rw [appendString_append]
      conv_lhs => unfold parseMembers
      simp only [if_true, parseStringBody_appendString (ascii "body") _ (by decide)]
      rw [skipWs_cons _ _ (by decide)]
      simp [parseValue]
    · have hv := parseValue_string f 1 (ascii "x")
        (0x2C :: (appendString (ascii "deep") ++ 0x3A :: D)) (by decide)
      have hstep := parseMembers_member (f + 1) 1 (ascii "body") _ _ _ (by decide)
        (by rw [appendString_append]; exact skipWs_cons _ _ (by decide)) hv
      rw [hstep, skipWs_cons _ _ (by decide)]
      have hw : skipWs (appendString (ascii "deep") ++ 0x3A :: D)
          = appendString (ascii "deep") ++ 0x3A :: D := by
        rw [appendString_append]; exact skipWs_cons _ _ (by decide)
      simp only [if_true, hw, hm2]
  unfold parseJSON
  generalize 2 * (deepMessage (n + 1)).length + 2 = F
  rw [hshape, skipWs_cons _ _ (by decide)]
  have : parseValue F 0 (0x7B :: (appendString (ascii "body") ++ 0x3A ::
      (appendString (ascii "x") ++ 0x2C :: (appendString (ascii "deep") ++ 0x3A :: D)))) = none := by
    rcases F with _ | F
    · simp [parseValue]
    · conv_lhs => unfold parseValue
      simp only [if_true, show ¬ (maxNestingDepth < 0 + 1) by decide, if_false]
      have hq := appendString_append (ascii "body") (0x3A ::
        (appendString (ascii "x") ++ 0x2C :: (appendString (ascii "deep") ++ 0x3A :: D)))
      rw [hq, skipWs_cons _ _ (by decide)]
      simp only [show ¬ ((0x22 : Nat) = 0x7D) by decide, if_false]
      rw [← hq, hm1]
  rw [this]

theorem jstring_plain {raw : Nat → Prop} (s : GoString)
    (h : ∀ c ∈ s, 0x20 ≤ c ∧ c < 0x80 ∧ c ≠ 0x22 ∧ c ≠ 0x5C) :
    JString raw (0x22 :: (s ++ [0x22])) := by
  refine ⟨s, rfl, ?_⟩
  induction s with
  | nil => exact JChars.nil
  | cons c t ih =>
    have hc := h c (by simp)
    exact JChars.plain c t hc.1 hc.2.1 hc.2.2.1 hc.2.2.2
      (ih (fun x hx => h x (List.mem_cons_of_mem _ hx)))

theorem jnumber_digit (c : Nat) (h : 0x30 ≤ c ∧ c ≤ 0x39) : JNumber [c] := by
  refine ⟨[], [c], [], [], rfl, Or.inl rfl, ?_, Or.inl rfl, Or.inl rfl⟩
  by_cases h0 : c = 0x30
  · left; rw [h0]
  · right; exact ⟨c, [], rfl, by omega, h.2, by simp⟩

/-- A member written without white space. -/
theorem jsyntax_plainMember {raw : Nat → Prop} {n : Nat} {k v : GoString}
    (hk : JString raw k) (hv : JSyntax raw .value n v) :
    JSyntax raw .member n (k ++ 0x3A :: v) := by
  have := JSyntax.member n [] k [] [] v [] IsWs.nil hk IsWs.nil IsWs.nil hv IsWs.nil
  simpa using this

/-- The last element of an array, written without white space. -/
theorem jsyntax_plainElem {raw : Nat → Prop} {n : Nat} {v : GoString}
    (hv : JSyntax raw .value n v) : JSyntax raw .elems n v := by
  have := JSyntax.lastElem n [] v [] IsWs.nil hv IsWs.nil
  simpa using this

/-- An element of an array followed by more, written without white space. -/
theorem jsyntax_plainElems {raw : Nat → Prop} {n : Nat} {v rest : GoString}
    (hv : JSyntax raw .value n v) (hr : JSyntax raw .elems n rest) :
    JSyntax raw .elems n (v ++ 0x2C :: rest) := by
  have := JSyntax.moreElems n [] v [] rest IsWs.nil hv IsWs.nil hr
  simpa using this

theorem jvalue_nested_arrays {raw : Nat → Prop} (n : Nat) :
    JSyntax raw .value (n + 1) (List.replicate (n + 1) 0x5B ++ List.replicate (n + 1) 0x5D) := by
  induction n with
  | zero => exact JSyntax.emptyArray 0 [] IsWs.nil
  | succ n ih =>
    have h := JSyntax.array (n + 1) _ (jsyntax_plainElem ih)
    have e : 0x5B :: ((List.replicate (n + 1) 0x5B ++ List.replicate (n + 1) 0x5D)
        ++ [0x5D]) = List.replicate (n + 1 + 1) 0x5B ++ List.replicate (n + 1 + 1) 0x5D := by
      have h2 : List.replicate (n + 1 + 1) 0x5D = List.replicate (n + 1) 0x5D ++ [0x5D] := by
        rw [← List.replicate_one, ← List.replicate_add]
      rw [h2, List.replicate_succ (n := n + 1)]
      simp only [List.nil_append, List.append_nil, List.cons_append, List.append_assoc]
    rw [e] at h
    exact h

theorem jsonText_deepMessage (n : Nat) : JSONText (deepMessage (n + 1)) := by
  have hk1 : JString (fun _ => False) (0x22 :: (ascii "body" ++ [0x22])) :=
    jstring_plain _ (by decide)
  have hv1 : JSyntax (fun _ => False) .value (n + 1) (0x22 :: (ascii "x" ++ [0x22])) :=
    JSyntax.string _ _ (jstring_plain _ (by decide))
  have hk2 : JString (fun _ => False) (0x22 :: (ascii "deep" ++ [0x22])) :=
    jstring_plain _ (by decide)
  have hv2 : JSyntax (fun _ => False) .value (n + 1) _ := jvalue_nested_arrays n
  have hm := JSyntax.moreMembers _ _ _ (jsyntax_plainMember hk1 hv1)
    (JSyntax.lastMember _ _ (jsyntax_plainMember hk2 hv2))
  have ho := JSyntax.object _ _ hm
  refine ⟨n + 1 + 1, [], _, [], ?_, IsWs.nil, ho, IsWs.nil⟩
  have h1 : ascii "\x7b\"body\":\"x\",\"deep\":" = 0x7B :: (0x22 :: (ascii "body" ++ [0x22]) ++
      0x3A :: (0x22 :: (ascii "x" ++ [0x22]) ++ 0x2C :: (0x22 :: (ascii "deep" ++ [0x22]) ++ [0x3A]))) := by
    decide
  unfold deepMessage
  rw [h1]
  simp only [List.nil_append, List.append_nil, List.cons_append, List.append_assoc,
    List.singleton_append]

theorem jsonText_deepMessage_of_pos (n : Nat) (hn : 0 < n) : JSONText (deepMessage n) := by
  rcases n with _ | n
  · exact absurd hn (by decide)
  · exact jsonText_deepMessage n

theorem parseJSON_deepMessage_of_le (n : Nat) (hn : maxNestingDepth ≤ n) :
    parseJSON (deepMessage n) = none := by
  rcases n with _ | n
  · exact absurd hn (by decide)
  · exact parseJSON_deepMessage n hn

theorem json_Unmarshal_of_parseJSON_none (data : GoString) (h : parseJSON data = none) :
    json_Unmarshal data = .error UnmarshalError.malformed := by
  unfold json_Unmarshal
  rw [h]

/-- C9 fails in two ways. A member named `BODY` is not a name of the schema, but
object keys select struct fields also up to case, so the added member overwrites
the body. And a member `deep` whose value is an array nested 10000 deep makes a JSON
text that the reader refuses for its nesting depth, so the message with the added
member does not deserialize. -/
theorem added_member_can_change_the_result :
    ascii "BODY" ∉ messageFields ++ carrierFields ∧
      json_Unmarshal (ascii "\x7b\"body\":\"x\"\x7d")
        = .ok { TraceContext := zeroCarrier, Body := ascii "x" } ∧
      json_Unmarshal (ascii "\x7b\"body\":\"x\",\"BODY\":\"y\"\x7d")
        = .ok { TraceContext := zeroCarrier, Body := ascii "y" } ∧
      ascii "deep" ∉ messageFields ++ carrierFields ∧
      JSONText (deepMessage 10000) ∧
      json_Unmarshal (deepMessage 10000) = .error UnmarshalError.malformed :=
  ⟨by decide, rfl, rfl, by decide, jsonText_deepMessage_of_pos 10000 (by decide),
    json_Unmarshal_of_parseJSON_none _ (parseJSON_deepMessage_of_le 10000 (by decide))⟩

/-- Bytes that are not valid UTF-8 inside a string literal are string content for the
reader, not an error: the byte `0xFF` in the body is read as U+FFFD. -/
theorem invalid_utf8_in_string_is_read_as_replacement :
    json_Unmarshal (ascii "\x7b\"body\":\"" ++ [0xFF] ++ ascii "\"\x7d")
      = .ok { TraceContext := zeroCarrier, Body := [0xEF, 0xBF, 0xBD] } :=
  rfl

/-! ## Completeness of the reader -/

theorem utf8Tail_high {b : Nat} {tail : GoString} (h : IsUTF8Tail b tail) :
    0x80 ≤ b ∧ ∀ x ∈ tail, 0x80 ≤ x := by
  rcases tail with _ | ⟨b1, _ | ⟨b2, _ | ⟨b3, _ | ⟨b4, tl⟩⟩⟩⟩ <;>
    simp only [IsUTF8Tail, IsCont] at h
  · refine ⟨by omega, ?_⟩
    intro x hx
    simp only [List.mem_singleton] at hx
    omega
  · refine ⟨by omega, ?_⟩
    intro x hx
    simp only [List.mem_cons, List.mem_singleton, List.not_mem_nil, or_false] at hx
    omega
  · refine ⟨by omega, ?_⟩
    intro x hx
    simp only [List.mem_cons, List.mem_singleton, List.not_mem_nil, or_false] at hx
    omega

/-- After a byte from 0x80 up, string content goes on as string content when every
byte may stand on its own. -/
theorem jchars_high_tail {x : Nat} {u : GoString} (h : JChars (fun _ => True) (x :: u))
    (hx : 0x80 ≤ x) : JChars (fun _ => True) u := by
  generalize hs : x :: u = s at h
  cases h with
  | nil => cases hs
  | plain c t h1 h2 h3 h4 ht =>
    simp only [List.cons.injEq] at hs
    omega
  | rune b tail t h1 ht =>
    simp only [List.cons.injEq] at hs
    rw [hs.2]
    exact jchars_append_raw tail (fun y hy => ⟨(utf8Tail_high h1).2 y hy, trivial⟩) ht
  | rawByte c t h1 h2 ht =>
    simp only [List.cons.injEq] at hs
    rw [hs.2]; exact ht
  | esc e t h1 ht =>
    simp only [List.cons.injEq] at hs
    omega
  | uni h1 h2 h3 h4 t g1 g2 g3 g4 ht =>
    simp only [List.cons.injEq] at hs
    omega

theorem jchars_drop_high (cont : GoString) (hc : ∀ x ∈ cont, 0x80 ≤ x) {u : GoString}
    (h : JChars (fun _ => True) (cont ++ u)) : JChars (fun _ => True) u := by
  induction cont with
  | nil => exact h
  | cons c cs ih =>
    exact ih (fun x hx => hc x (List.mem_cons_of_mem _ hx))
      (jchars_high_tail h (hc c (List.mem_cons_self _ _)))

/-- String content that starts with an ASCII byte other than the backslash. -/
theorem jchars_ascii_head {raw : Nat → Prop} {c : Nat} {t : GoString}
    (h : JChars raw (c :: t)) (hc : c < 0x80) (hb : c ≠ 0x5C) :
    0x20 ≤ c ∧ c ≠ 0x22 ∧ JChars raw t := by
  generalize hs : c :: t = s at h
  cases h with
  | nil => cases hs
  | plain c' t' h1 h2 h3 h4 ht =>
    simp only [List.cons.injEq] at hs
    obtain ⟨e1, e2⟩ := hs
    subst e1 e2
    exact ⟨h1, h3, ht⟩
  | rune b tail t' h1 ht =>
    simp only [List.cons.injEq] at hs
    have := (utf8Tail_high h1).1
    omega
  | rawByte c' t' h1 h2 ht =>
    simp only [List.cons.injEq] at hs
    omega
  | esc e t' h1 ht =>
    simp only [List.cons.injEq] at hs
    omega
  | uni h1 h2 h3 h4 t' g1 g2 g3 g4 ht =>
    simp only [List.cons.injEq] at hs
    omega

/-- String content that starts with a backslash: an escape of the grammar. -/
theorem jchars_backslash_head {raw : Nat → Prop} {t : GoString}
    (h : JChars raw (0x5C :: t)) :
    (∃ e t', t = e :: t' ∧ e ≠ 0x75 ∧ (∃ b, unescape e = some b) ∧ JChars raw t') ∨
    (∃ h1 h2 h3 h4 t', t = 0x75 :: h1 :: h2 :: h3 :: h4 :: t' ∧
      IsHex h1 ∧ IsHex h2 ∧ IsHex h3 ∧ IsHex h4 ∧ JChars raw t') := by
  generalize hs : 0x5C :: t = s at h
  cases h with
  | nil => cases hs
  | plain c' t' h1 h2 h3 h4 ht =>
    simp only [List.cons.injEq] at hs
    omega
  | rune b tail t' h1 ht =>
    simp only [List.cons.injEq] at hs
    have := (utf8Tail_high h1).1
    omega
  | rawByte c' t' h1 h2 ht =>
    simp only [List.cons.injEq] at hs
    omega
  | esc e t' h1 ht =>
    simp only [List.cons.injEq, true_and] at hs
    left
    refine ⟨e, t', hs, by omega, ?_, ht⟩
    unfold unescape
    rcases h1 with h | h | h | h | h | h | h | h <;> subst h <;> simp
  | uni h1 h2 h3 h4 t' g1 g2 g3 g4 ht =>
    simp only [List.cons.injEq, true_and] at hs
    right
    exact ⟨h1, h2, h3, h4, t', hs, g1, g2, g3, g4, ht⟩

theorem hexVal_of_isHex {c : Nat} (h : IsHex c) : ∃ v, hexVal c = some v := by
  unfold IsHex at h
  unfold hexVal
  split_ifs
  · exact ⟨_, rfl⟩
  · exact ⟨_, rfl⟩
  · exact ⟨_, rfl⟩
  · omega

theorem getu4_of_isHex {h1 h2 h3 h4 : Nat} (g1 : IsHex h1) (g2 : IsHex h2) (g3 : IsHex h3)
    (g4 : IsHex h4) : ∃ r, getu4 h1 h2 h3 h4 = some r := by
  obtain ⟨a, ha⟩ := hexVal_of_isHex g1
  obtain ⟨b, hb⟩ := hexVal_of_isHex g2
  obtain ⟨c, hc⟩ := hexVal_of_isHex g3
  obtain ⟨d, hd⟩ := hexVal_of_isHex g4
  exact ⟨a * 4096 + b * 256 + c * 16 + d, by simp [getu4, ha, hb, hc, hd]⟩

theorem not_isHex_quote : ¬ IsHex 0x22 := by
  unfold IsHex; omega

/-- Bytes from 0x80 up at the start of a text that reaches a quotation mark lie
before the quotation mark. -/
theorem high_bytes_before_quote (cont : GoString) (hc : ∀ x ∈ cont, 0x80 ≤ x) :
    ∀ (t rest t2 : GoString), t ++ 0x22 :: rest = cont ++ t2 →
      ∃ t3, t = cont ++ t3 := by
  induction cont with
  | nil => intro t rest t2 _; exact ⟨t, rfl⟩
  | cons c cs ih =>
    intro t rest t2 h
    rcases t with _ | ⟨x, t⟩
    · simp only [List.nil_append, List.cons_append, List.cons.injEq] at h
      have := hc c (List.mem_cons_self _ _)
      omega
    · simp only [List.cons_append, List.cons.injEq] at h
      obtain ⟨t3, ht3⟩ := ih (fun y hy => hc y (List.mem_cons_of_mem _ hy)) t rest t2 h.2
      exact ⟨t3, by rw [h.1, ht3]; rfl⟩

/-- The rune at a byte from 0x80 up does not depend on what follows the next
quotation mark. -/
theorem decodeRune_before_quote (c : Nat) (t rest : GoString) (hc : ¬ c < 0x80) :
    decodeRune (c :: (t ++ 0x22 :: rest)) = decodeRune (c :: t) := by
  by_cases hv : decodeRune (c :: t) = (runeError, 1)
  · by_contra hne
    obtain ⟨cont, t2, ht2, _, hX, _, _, hcont⟩ :=
      decodeRune_multibyte c (t ++ 0x22 :: rest) hc (by rw [hv] at hne; exact hne)
    obtain ⟨t3, ht3⟩ := high_bytes_before_quote cont hcont t rest t2 ht2
    have := hX t3
    rw [← ht3] at this
    exact hne this.symm
  · obtain ⟨cont, t2, ht2, _, hX, _, _, _⟩ := decodeRune_multibyte c t hc hv
    have := hX (t2 ++ 0x22 :: rest)
    rw [← List.append_assoc, ← ht2] at this
    exact this

theorem lowSurrogate_eq_none_of_quote (s : GoString)
    (h : ∀ g1 g2 g3 g4 t2, s = 0x5C :: 0x75 :: g1 :: g2 :: g3 :: g4 :: t2 →
      ¬ (IsHex g1 ∧ IsHex g2 ∧ IsHex g3 ∧ IsHex g4)) : lowSurrogate s = none := by
  rcases hl : lowSurrogate s with _ | r
  · rfl
  · obtain ⟨g1, g2, g3, g4, t2, ht2, k1, k2, k3, k4⟩ := lowSurrogate_shape hl
    exact absurd ⟨k1, k2, k3, k4⟩ (h _ _ _ _ _ ht2)

/-- The low surrogate looked for after a high one does not depend on what follows
the next quotation mark. -/
theorem lowSurrogate_before_quote (t rest : GoString) :
    lowSurrogate (t ++ 0x22 :: rest) = lowSurrogate t := by
  have hq := not_isHex_quote
  rcases t with _ | ⟨a1, _ | ⟨a2, _ | ⟨a3, _ | ⟨a4, _ | ⟨a5, _ | ⟨a6, t⟩⟩⟩⟩⟩⟩
  · rw [lowSurrogate_eq_none_of_quote]
    · rfl
    · intro g1 g2 g3 g4 t2 h
      simp at h
  · rw [lowSurrogate_eq_none_of_quote]
    · simp [lowSurrogate]
    · intro g1 g2 g3 g4 t2 h
      simp at h
  · rw [lowSurrogate_eq_none_of_quote]
    · simp [lowSurrogate]
    · intro g1 g2 g3 g4 t2 h
      simp only [List.cons_append, List.nil_append, List.cons.injEq] at h
      rintro ⟨k1, -, -, -⟩
      rw [← h.2.2.1] at k1; exact hq k1
  · rw [lowSurrogate_eq_none_of_quote]
    · simp [lowSurrogate]
    · intro g1 g2 g3 g4 t2 h
      simp only [List.cons_append, List.nil_append, List.cons.injEq] at h
      rintro ⟨-, k2, -, -⟩
      rw [← h.2.2.2.1] at k2; exact hq k2
  · rw [lowSurrogate_eq_none_of_quote]
    · simp [lowSurrogate]
    · intro g1 g2 g3 g4 t2 h
      simp only [List.cons_append, List.nil_append, List.cons.injEq] at h
      rintro ⟨-, -, k3, -⟩
      rw [← h.2.2.2.2.1] at k3; exact hq k3
  · rw [lowSurrogate_eq_none_of_quote]
    · simp [lowSurrogate]
    · intro g1 g2 g3 g4 t2 h
      simp only [List.cons_append, List.nil_append, List.cons.injEq] at h
      rintro ⟨-, -, -, k4⟩
      rw [← h.2.2.2.2.2.1] at k4; exact hq k4
  · simp only [List.cons_append]
    unfold lowSurrogate
    split
    · rename_i heq
      simp only [List.cons.injEq] at heq
      obtain ⟨e1, e2, e3, e4, e5, e6, e7⟩ := heq
      subst e1 e2 e3 e4 e5 e6
      rfl
    · rename_i hno
      split
      · rename_i heq
        simp only [List.cons.injEq] at heq
        obtain ⟨e1, e2, e3, e4, e5, e6, e7⟩ := heq
        subst e1 e2 e3 e4 e5 e6
        exact absurd rfl (hno _ _ _ _ _)
      · rfl

/-- The reader accepts string content of the grammar up to the closing quotation
mark; what it decodes does not depend on what follows the mark. -/
theorem parseStringBody_complete (n : Nat) :
    ∀ body : GoString, body.length = n → JChars (fun _ => True) body →
      ∃ s, ∀ rest, parseStringBody 0 (body ++ 0x22 :: rest) = some (s, rest) := by
  induction n using Nat.strong_induction_on with
  | _ n ih =>
    intro body hlen hj
    rcases body with _ | ⟨c, t⟩
    · exact ⟨[], fun rest => by simp only [List.nil_append]; unfold parseStringBody; simp⟩
    by_cases hbs : c = 0x5C
    · subst hbs
      rcases jchars_backslash_head hj with ⟨e, t', ht, hne, ⟨b, hb⟩, hj'⟩ |
        ⟨h1, h2, h3, h4, t', ht, g1, g2, g3, g4, hj'⟩
      · subst ht
        obtain ⟨s', hs'⟩ := ih t'.length (by simp at hlen; omega) t' rfl hj'
        refine ⟨b :: s', fun rest => ?_⟩
        simp only [List.cons_append]
        conv_lhs => unfold parseStringBody
        simp [hne, hb, hs' rest, prepend]
      · subst ht
        obtain ⟨r, hr⟩ := getu4_of_isHex g1 g2 g3 g4
        obtain ⟨s', hs'⟩ := ih t'.length (by simp at hlen; omega) t' rfl hj'
        by_cases hsur : 0xD800 ≤ r ∧ r ≤ 0xDFFF
        · rcases hls : (if r ≤ 0xDBFF then lowSurrogate t' else none) with _ | r2
          · refine ⟨encodeRune runeError ++ s', fun rest => ?_⟩
            simp only [List.cons_append]
            conv_lhs => unfold parseStringBody
            simp only [hr, lowSurrogate_before_quote, hls, hs' rest, prepend, hsur]
            simp
          · have hlow : lowSurrogate t' = some r2 := by
              split_ifs at hls
              · exact hls
            obtain ⟨k1, k2, k3, k4, t3, ht3, _⟩ := lowSurrogate_shape hlow
            subst ht3
            have hj3 : JChars (fun _ => True) t3 := by
              rcases jchars_backslash_head hj' with ⟨e, t4, ht4, hne, _, hj4⟩ |
                ⟨_, _, _, _, t4, ht4, _, _, _, _, hj4⟩
              · simp only [List.cons.injEq] at ht4
                exact absurd ht4.1.symm hne
              · simp only [List.cons.injEq, true_and] at ht4
                rw [ht4.2.2.2.2]; exact hj4
            obtain ⟨s3, hs3⟩ := ih t3.length (by simp at hlen; omega) t3 rfl hj3
            refine ⟨encodeRune ((r - 0xD800) * 1024 + (r2 - 0xDC00) + 0x10000) ++ s3,
              fun rest => ?_⟩
            simp only [List.cons_append]
            conv_lhs => unfold parseStringBody
            have h6 : parseStringBody 6
                (0x5C :: 0x75 :: k1 :: k2 :: k3 :: k4 :: (t3 ++ 0x22 :: rest))
                  = some (s3, rest) := by
              simp only [parseStringBody]
              exact hs3 rest
            have hls' : (if r ≤ 0xDBFF then
                lowSurrogate (0x5C :: 0x75 :: k1 :: k2 :: k3 :: k4 :: (t3 ++ 0x22 :: rest))
                else none) = some r2 := by
              have := lowSurrogate_before_quote (0x5C :: 0x75 :: k1 :: k2 :: k3 :: k4 :: t3) rest
              simp only [List.cons_append] at this
              rw [this]; exact hls
            simp only [hr, hls', h6, prepend, hsur]
            simp
        · refine ⟨encodeRune r ++ s', fun rest => ?_⟩
          simp only [List.cons_append]
          conv_lhs => unfold parseStringBody
          simp only [hr, hs' rest, prepend, hsur]
          simp
    by_cases hasc : c < 0x80
    · obtain ⟨h20, hq, hj'⟩ := jchars_ascii_head hj hasc hbs
      obtain ⟨s', hs'⟩ := ih t.length (by simp at hlen; omega) t rfl hj'
      refine ⟨c :: s', fun rest => ?_⟩
      simp only [List.cons_append]
      conv_lhs => unfold parseStringBody
      have : ¬ c < 0x20 := by omega
      simp [hq, hbs, this, hasc, hs' rest, prepend]
    · have hj' := jchars_high_tail hj (by omega)
      have hq : c ≠ 0x22 := by omega
      have hctl : ¬ c < 0x20 := by omega
      by_cases hv : decodeRune (c :: t) = (runeError, 1)
      · obtain ⟨s', hs'⟩ := ih t.length (by simp at hlen; omega) t rfl hj'
        refine ⟨encodeRune runeError ++ s', fun rest => ?_⟩
        simp only [List.cons_append]
        conv_lhs => unfold parseStringBody
        simp only [hq, hbs, hctl, hasc, if_false, decodeRune_before_quote c t rest hasc, hv]
        simp [hs' rest, prepend]
      · obtain ⟨cont, t3, ht3, hsz, _, _, _, hcont⟩ := decodeRune_multibyte c t hasc hv
        have hj3 : JChars (fun _ => True) t3 := jchars_drop_high cont hcont (ht3 ▸ hj')
        obtain ⟨s3, hs3⟩ := ih t3.length
          (by rw [ht3] at hlen; simp at hlen; omega) t3 rfl hj3
        refine ⟨encodeRune (decodeRune (c :: t)).1 ++ s3, fun rest => ?_⟩
        simp only [List.cons_append]
        conv_lhs => unfold parseStringBody
        simp only [hq, hbs, hctl, hasc, if_false, decodeRune_before_quote c t rest hasc, hsz,
          Nat.add_sub_cancel]
        have : parseStringBody cont.length (t ++ 0x22 :: rest) = some (s3, rest) := by
          rw [ht3, List.append_assoc, parseStringBody_skip]
          exact hs3 rest
        rw [this]
        rfl

/-- The reader accepts a string of the grammar. -/
theorem parseStringBody_of_jstring {raw : Nat → Prop} {k : GoString} (h : JString raw k) :
    ∃ body s, k = 0x22 :: (body ++ [0x22]) ∧
      ∀ rest, parseStringBody 0 (body ++ 0x22 :: rest) = some (s, rest) := by
  obtain ⟨body, hk, hb⟩ := h
  obtain ⟨s, hs⟩ := parseStringBody_complete body.length body rfl
    (jchars_mono hb (fun _ _ _ => trivial))
  exact ⟨body, s, hk, hs⟩

theorem takeDigits_append (ds rest : GoString) (hds : ∀ d ∈ ds, 0x30 ≤ d ∧ d ≤ 0x39)
    (hr : ∀ c t, rest = c :: t → ¬ (0x30 ≤ c ∧ c ≤ 0x39)) :
    takeDigits (ds ++ rest) = (ds, rest) := by
  induction ds with
  | nil =>
    rcases rest with _ | ⟨c, t⟩
    · rfl
    · simp only [List.nil_append]
      unfold takeDigits
      simp [hr c t rfl]
  | cons d ds ih =>
    have hd := hds d (List.mem_cons_self _ _)
    simp only [List.cons_append]
    unfold takeDigits
    rw [ih (fun x hx => hds x (List.mem_cons_of_mem _ hx))]
    simp [hd]

theorem takeDigits1_append (ds rest : GoString) (hds : JDigits ds)
    (hr : ∀ c t, rest = c :: t → ¬ (0x30 ≤ c ∧ c ≤ 0x39)) :
    takeDigits1 (ds ++ rest) = some (ds, rest) := by
  unfold takeDigits1
  rw [takeDigits_append ds rest hds.2 hr]
  rcases ds with _ | ⟨d, ds⟩
  · exact absurd rfl hds.1
  · rfl

theorem parseInt_append (i rest : GoString) (hi : JInt i)
    (hr : ∀ c t, rest = c :: t → ¬ (0x30 ≤ c ∧ c ≤ 0x39)) :
    parseInt (i ++ rest) = some (i, rest) := by
  rcases hi with hi | ⟨c, ds, hi, h1, h2, hds⟩
  · subst hi
    simp [parseInt]
  · subst hi
    simp only [List.cons_append]
    unfold parseInt
    have h0 : c ≠ 0x30 := by omega
    simp only [h0, if_false, h1, h2, and_self, if_true]
    rw [takeDigits_append ds rest hds hr]

theorem parseFrac_append (f rest : GoString) (hf : f = [] ∨ JFrac f)
    (hr : ∀ c t, rest = c :: t → ¬ (0x30 ≤ c ∧ c ≤ 0x39))
    (hr2 : f = [] → ∀ c t, rest = c :: t → c ≠ 0x2E) :
    parseFrac (f ++ rest) = some (f, rest) := by
  rcases hf with hf | ⟨ds, hf, hds⟩
  · subst hf
    rcases rest with _ | ⟨c, t⟩
    · rfl
    · simp only [List.nil_append]
      unfold parseFrac
      simp [hr2 rfl c t rfl]
  · subst hf
    simp only [List.cons_append]
    unfold parseFrac
    simp [takeDigits1_append ds rest hds hr]

theorem parseExp_append (e rest : GoString) (he : e = [] ∨ JExp e)
    (hr : ∀ c t, rest = c :: t → ¬ (0x30 ≤ c ∧ c ≤ 0x39))
    (hr2 : e = [] → ∀ c t, rest = c :: t → c ≠ 0x65 ∧ c ≠ 0x45) :
    parseExp (e ++ rest) = some (e, rest) := by
  rcases he with he | ⟨x, sg, ds, he, hx, hsg, hds⟩
  · subst he
    rcases rest with _ | ⟨c, t⟩
    · rfl
    · simp only [List.nil_append]
      unfold parseExp
      have := hr2 rfl c t rfl
      simp [this.1, this.2]
  · subst he
    rcases hsg with hsg | hsg | hsg
    · subst hsg
      obtain ⟨hne, hdig⟩ := hds
      rcases ds with _ | ⟨d, ds⟩
      · exact absurd rfl hne
      have hd := hdig d (List.mem_cons_self _ _)
      have h1 := takeDigits1_append (d :: ds) rest ⟨hne, hdig⟩ hr
      simp only [List.cons_append, List.nil_append] at h1 ⊢
      unfold parseExp
      have hsgn : ¬ (d = 0x2B ∨ d = 0x2D) := by omega
      simp [hx, hsgn, h1]
    · subst hsg
      have h1 := takeDigits1_append ds rest hds hr
      simp only [List.cons_append, List.nil_append] at h1 ⊢
      unfold parseExp
      simp [hx, h1]
    · subst hsg
      have h1 := takeDigits1_append ds rest hds hr
      simp only [List.cons_append, List.nil_append] at h1 ⊢
      unfold parseExp
      simp [hx, h1]

theorem jfrac_head {f : GoString} (hf : JFrac f) : ∃ t, f = 0x2E :: t := by
  obtain ⟨ds, hf, _⟩ := hf
  exact ⟨ds, hf⟩

theorem jexp_head {e : GoString} (he : JExp e) : ∃ x t, e = x :: t ∧ (x = 0x65 ∨ x = 0x45) := by
  obtain ⟨x, sg, ds, he, hx, _, _⟩ := he
  exact ⟨x, sg ++ ds, he, hx⟩

theorem parseUnsigned_append (i f e rest : GoString) (hi : JInt i) (hf : f = [] ∨ JFrac f)
    (he : e = [] ∨ JExp e) (hr : AfterValue rest) :
    parseUnsigned (i ++ f ++ e ++ rest) = some (i ++ f ++ e, rest) := by
  have hrd : ∀ c t, rest = c :: t → ¬ (0x30 ≤ c ∧ c ≤ 0x39) := by
    intro c t h; have := hr c t h; omega
  have hre : ∀ c t, rest = c :: t → c ≠ 0x65 ∧ c ≠ 0x45 ∧ c ≠ 0x2E := by
    intro c t h; have := hr c t h; omega
  have hed : ∀ c t, e ++ rest = c :: t → ¬ (0x30 ≤ c ∧ c ≤ 0x39) ∧ c ≠ 0x2E := by
    intro c t h
    rcases he with he | he
    · subst he
      have := hre c t h; have := hrd c t h
      omega
    · obtain ⟨x, t', he', hx⟩ := jexp_head he
      rw [he'] at h
      simp only [List.cons_append, List.cons.injEq] at h
      omega
  have hfd : ∀ c t, f ++ (e ++ rest) = c :: t → ¬ (0x30 ≤ c ∧ c ≤ 0x39) := by
    intro c t h
    rcases hf with hf | hf
    · subst hf
      exact (hed c t h).1
    · obtain ⟨t', hf'⟩ := jfrac_head hf
      rw [hf'] at h
      simp only [List.cons_append, List.cons.injEq] at h
      omega
  unfold parseUnsigned
  rw [List.append_assoc, List.append_assoc, parseInt_append i _ hi hfd]
  simp only
  rw [parseFrac_append f _ hf (fun c t h => (hed c t h).1) (fun _ c t h => (hed c t h).2)]
  simp only
  rw [parseExp_append e rest he hrd (fun _ c t h => ⟨(hre c t h).1, (hre c t h).2.1⟩)]

/-- The reader accepts a number of the grammar that is followed by what may follow a
value, and takes exactly its bytes. -/
theorem parseNumber_append (s rest : GoString) (hs : JNumber s) (hr : AfterValue rest) :
    parseNumber (s ++ rest) = some (s, rest) := by
  obtain ⟨sg, i, f, e, hs, hsg, hi, hf, he⟩ := hs
  have hu := parseUnsigned_append i f e rest hi hf he hr
  rcases hsg with hsg | hsg
  · subst hsg
    simp only [List.nil_append] at hs
    subst hs
    have hi' : ∃ c t, i = c :: t ∧ c ≠ 0x2D := by
      rcases hi with hi | ⟨c, ds, hi, h1, h2, _⟩
      · exact ⟨0x30, [], hi, by omega⟩
      · exact ⟨c, ds, hi, by omega⟩
    obtain ⟨c, t, hi', hc⟩ := hi'
    subst hi'
    simp only [List.cons_append] at hu ⊢
    unfold parseNumber
    simp only [hc, if_false]
    exact hu
  · subst hsg
    subst hs
    simp only [List.cons_append, List.nil_append, List.append_assoc] at hu ⊢
    unfold parseNumber
    simp [hu]

theorem number_head {s : GoString} (hs : JNumber s) :
    ∃ c t, s = c :: t ∧ (c = 0x2D ∨ (0x30 ≤ c ∧ c ≤ 0x39)) := by
  obtain ⟨sg, i, f, e, hs, hsg, hi, _, _⟩ := hs
  rcases hsg with hsg | hsg
  · subst hsg
    rcases hi with hi | ⟨c, ds, hi, h1, h2, _⟩
    · subst hi; exact ⟨0x30, f ++ e, by simp [hs], by omega⟩
    · subst hi; exact ⟨c, ds ++ f ++ e, by simp [hs], by omega⟩
  · subst hsg
    exact ⟨0x2D, i ++ f ++ e, by simp [hs], by omega⟩

theorem stripLiteral_append (lit rest : GoString) : stripLiteral lit (lit ++ rest) = some rest := by
  induction lit with
  | nil => rfl
  | cons l lit ih => simp [stripLiteral, ih]

theorem skipWs_ws_of_not_space (w : GoString) (hw : IsWs w) (c : Nat) (t : GoString)
    (hc : isSpace c = false) : skipWs (w ++ c :: t) = c :: t := by
  induction w with
  | nil => simp [skipWs, hc]
  | cons x w ih =>
    have hx : isSpace x = true := by
      have := hw x (by simp)
      simp only [isSpace, decide_eq_true_eq]
      omega
    simp only [List.cons_append, skipWs, hx, if_true]
    exact ih (fun y hy => hw y (List.mem_cons_of_mem _ hy))

theorem skipWs_ws (w : GoString) (hw : IsWs w) : skipWs w = [] := by
  induction w with
  | nil => rfl
  | cons x w ih =>
    have hx : isSpace x = true := by
      have := hw x (by simp)
      simp only [isSpace, decide_eq_true_eq]
      omega
    simp only [skipWs, hx, if_true]
    exact ih (fun y hy => hw y (List.mem_cons_of_mem _ hy))

theorem afterValue_ws_append {w : GoString} (hw : IsWs w) {rest : GoString}
    (hr : AfterValue rest) : AfterValue (w ++ rest) := by
  intro c t h
  rcases w with _ | ⟨x, w⟩
  · exact hr c t h
  · simp only [List.cons_append, List.cons.injEq] at h
    have := hw x (by simp)
    omega

theorem afterValue_nil : AfterValue [] := by
  intro c t h; cases h

theorem afterValue_of_ws {w : GoString} (hw : IsWs w) : AfterValue w := by
  have := afterValue_ws_append hw afterValue_nil
  simpa using this

theorem afterValue_cons {c : Nat} (hc : c = 0x2C ∨ c = 0x5D ∨ c = 0x7D) (t : GoString) :
    AfterValue (c :: t) := by
  intro x t' h
  simp only [List.cons.injEq] at h
  omega

theorem fuel_succ {f0 f : Nat} (h : f0 + 1 ≤ f) : ∃ f', f = f' + 1 ∧ f0 ≤ f' :=
  ⟨f - 1, by omega, by omega⟩

theorem readsValue_null (d : Nat) : ReadsValue d [0x6E, 0x75, 0x6C, 0x6C] JSON.null := by
  intro rest _
  refine ⟨1, fun f hf => ?_⟩
  obtain ⟨f', rfl, _⟩ := fuel_succ hf
  simp only [List.cons_append, List.nil_append]
  conv_lhs => unfold parseValue
  have : stripLiteral (ascii "ull") (0x75 :: 0x6C :: 0x6C :: rest) = some rest :=
    stripLiteral_append (ascii "ull") rest
  simp [this]

theorem readsValue_true (d : Nat) : ReadsValue d [0x74, 0x72, 0x75, 0x65] (JSON.bool true) := by
  intro rest _
  refine ⟨1, fun f hf => ?_⟩
  obtain ⟨f', rfl, _⟩ := fuel_succ hf
  simp only [List.cons_append, List.nil_append]
  conv_lhs => unfold parseValue
  have : stripLiteral (ascii "rue") (0x72 :: 0x75 :: 0x65 :: rest) = some rest :=
    stripLiteral_append (ascii "rue") rest
  simp [this]

theorem readsValue_false (d : Nat) :
    ReadsValue d [0x66, 0x61, 0x6C, 0x73, 0x65] (JSON.bool false) := by
  intro rest _
  refine ⟨1, fun f hf => ?_⟩
  obtain ⟨f', rfl, _⟩ := fuel_succ hf
  simp only [List.cons_append, List.nil_append]
  conv_lhs => unfold parseValue
  have : stripLiteral (ascii "alse") (0x61 :: 0x6C :: 0x73 :: 0x65 :: rest) = some rest :=
    stripLiteral_append (ascii "alse") rest
  simp [this]

theorem readsValue_number (d : Nat) (s : GoString) (hs : JNumber s) :
    ReadsValue d s (JSON.num s) := by
  intro rest hr
  refine ⟨1, fun f hf => ?_⟩
  obtain ⟨f', rfl, _⟩ := fuel_succ hf
  have hp := parseNumber_append s rest hs hr
  obtain ⟨c, t, hc, hd⟩ := number_head hs
  subst hc
  simp only [List.cons_append] at hp ⊢
  conv_lhs => unfold parseValue
  have h1 : c ≠ 0x7B := by omega
  have h2 : c ≠ 0x5B := by omega
  have h3 : c ≠ 0x22 := by omega
  have h4 : c ≠ 0x74 := by omega
  have h5 : c ≠ 0x66 := by omega
  have h6 : c ≠ 0x6E := by omega
  simp only [h1, h2, h3, h4, h5, h6, if_false, hp]

theorem readsValue_string {raw : Nat → Prop} (d : Nat) (k : GoString) (hk : JString raw k) :
    ∃ s, ReadsValue d k (JSON.str s) := by
  obtain ⟨body, s, hk, hs⟩ := parseStringBody_of_jstring hk
  refine ⟨s, fun rest _ => ⟨1, fun f hf => ?_⟩⟩
  obtain ⟨f', rfl, _⟩ := fuel_succ hf
  subst hk
  simp only [List.cons_append, List.append_assoc, List.nil_append]
  conv_lhs => unfold parseValue
  simp [hs rest]

theorem readsValue_emptyArray (d : Nat) (w : GoString) (hw : IsWs w)
    (hd : d + 1 ≤ maxNestingDepth) : ReadsValue d (0x5B :: (w ++ [0x5D])) (JSON.arr []) := by
  intro rest _
  refine ⟨1, fun f hf => ?_⟩
  obtain ⟨f', rfl, _⟩ := fuel_succ hf
  simp only [List.cons_append, List.append_assoc, List.nil_append]
  conv_lhs => unfold parseValue
  have hdd : ¬ maxNestingDepth < d + 1 := by omega
  rw [skipWs_ws_of_not_space w hw 0x5D rest (by decide)]
  simp [hdd]

theorem readsValue_emptyObject (d : Nat) (w : GoString) (hw : IsWs w)
    (hd : d + 1 ≤ maxNestingDepth) : ReadsValue d (0x7B :: (w ++ [0x7D])) (JSON.obj []) := by
  intro rest _
  refine ⟨1, fun f hf => ?_⟩
  obtain ⟨f', rfl, _⟩ := fuel_succ hf
  simp only [List.cons_append, List.append_assoc, List.nil_append]
  conv_lhs => unfold parseValue
  have hdd : ¬ maxNestingDepth < d + 1 := by omega
  rw [skipWs_ws_of_not_space w hw 0x7D rest (by decide)]
  simp [hdd]

theorem parseMembers_some_head {f d : Nat} {s : GoString} {r : List (GoString × JSON) × GoString}
    (h : parseMembers f d s = some r) : ∃ t, s = 0x22 :: t := by
  rcases f with _ | f
  · simp [parseMembers] at h
  rcases s with _ | ⟨c, t⟩
  · simp [parseMembers] at h
  unfold parseMembers at h
  by_cases hc : c = 0x22
  · exact ⟨t, by rw [hc]⟩
  · simp [hc] at h

theorem parseElems_some_head {f d : Nat} {s : GoString} {r : List JSON × GoString}
    (h : parseElems f d s = some r) : ∃ c t, s = c :: t ∧ valueStart c = true := by
  rcases f with _ | f
  · simp [parseElems] at h
  unfold parseElems at h
  rcases hv : parseValue f d s with _ | ⟨v, r'⟩
  · simp [hv] at h
  obtain ⟨c, hc, hj⟩ := (parse_sound f).1 _ _ _ _ hv
  obtain ⟨x, t, hx, hxs⟩ := jvalue_starts hj
  exact ⟨x, t ++ r', by rw [hc, hx]; rfl, hxs⟩

theorem readsValue_object (d : Nat) (body : GoString) (ms : List (GoString × JSON))
    (hd : d + 1 ≤ maxNestingDepth) (hb : ReadsMembers (d + 1) body ms) :
    ReadsValue d (0x7B :: (body ++ [0x7D])) (JSON.obj ms) := by
  intro rest _
  obtain ⟨f0, h0⟩ := hb rest
  refine ⟨f0 + 1, fun f hf => ?_⟩
  obtain ⟨f', rfl, hf'⟩ := fuel_succ hf
  have hm := h0 f' hf'
  obtain ⟨t, ht⟩ := parseMembers_some_head hm
  simp only [List.cons_append, List.append_assoc, List.nil_append]
  conv_lhs => unfold parseValue
  have hdd : ¬ maxNestingDepth < d + 1 := by omega
  rw [ht] at hm
  simp only [if_true, hdd, if_false, ht]
  simp [hm]

theorem readsValue_array (d : Nat) (body : GoString) (vs : List JSON)
    (hd : d + 1 ≤ maxNestingDepth) (hb : ReadsElems (d + 1) body vs) :
    ReadsValue d (0x5B :: (body ++ [0x5D])) (JSON.arr vs) := by
  intro rest _
  obtain ⟨f0, h0⟩ := hb rest
  refine ⟨f0 + 1, fun f hf => ?_⟩
  obtain ⟨f', rfl, hf'⟩ := fuel_succ hf
  have hm := h0 f' hf'
  obtain ⟨c, t, ht, hc⟩ := parseElems_some_head hm
  simp only [List.cons_append, List.append_assoc, List.nil_append]
  conv_lhs => unfold parseValue
  have hdd : ¬ maxNestingDepth < d + 1 := by omega
  rw [ht] at hm
  have hc1 : c ≠ 0x5D := by
    intro h; rw [h] at hc; exact absurd hc (by decide)
  simp only [if_true, hdd, if_false, ht]
  simp [hm, hc1]

theorem valueStart_not_space {c : Nat} (h : valueStart c = true) : isSpace c = false := by
  simp only [valueStart, decide_eq_true_eq] at h
  simp only [isSpace, decide_eq_false_iff_not]
  omega

theorem readsElems_last (d : Nat) (w1 v w2 : GoString) (x : JSON) (h1 : IsWs w1)
    (hv : ReadsValue d v x) (hs : ∃ c t, v = c :: t ∧ valueStart c = true) (h2 : IsWs w2) :
    ReadsElems d (w1 ++ v ++ w2) [x] := by
  intro rest
  obtain ⟨f0, h0⟩ := hv (w2 ++ 0x5D :: rest) (afterValue_ws_append h2 (afterValue_cons (by omega) _))
  refine ⟨f0 + 1, fun f hf => ?_⟩
  obtain ⟨f', rfl, hf'⟩ := fuel_succ hf
  obtain ⟨c, t, hv', hc⟩ := hs
  have hsk : skipWs (w1 ++ v ++ w2 ++ 0x5D :: rest) = v ++ (w2 ++ 0x5D :: rest) := by
    rw [hv']
    simp only [List.append_assoc, List.cons_append]
    exact skipWs_ws_of_not_space w1 h1 c _ (valueStart_not_space hc)
  rw [hsk]
  conv_lhs => unfold parseElems
  rw [h0 f' hf']
  simp only
  rw [skipWs_ws_of_not_space w2 h2 0x5D rest (by decide)]
  simp

theorem readsElems_more (d : Nat) (w1 v w2 body : GoString) (x : JSON) (xs : List JSON)
    (h1 : IsWs w1) (hv : ReadsValue d v x) (hs : ∃ c t, v = c :: t ∧ valueStart c = true)
    (h2 : IsWs w2) (hb : ReadsElems d body xs) :
    ReadsElems d (w1 ++ v ++ w2 ++ 0x2C :: body) (x :: xs) := by
  intro rest
  obtain ⟨f0, h0⟩ := hv (w2 ++ 0x2C :: (body ++ 0x5D :: rest))
    (afterValue_ws_append h2 (afterValue_cons (by omega) _))
  obtain ⟨f1, hb1⟩ := hb rest
  refine ⟨max f0 f1 + 1, fun f hf => ?_⟩
  obtain ⟨f', rfl, hf'⟩ := fuel_succ hf
  obtain ⟨c, t, hv', hc⟩ := hs
  have hsk : skipWs ((w1 ++ v ++ w2 ++ 0x2C :: body) ++ 0x5D :: rest)
      = v ++ (w2 ++ 0x2C :: (body ++ 0x5D :: rest)) := by
    rw [hv']
    simp only [List.append_assoc, List.cons_append]
    exact skipWs_ws_of_not_space w1 h1 c _ (valueStart_not_space hc)
  rw [hsk]
  conv_lhs => unfold parseElems
  rw [h0 f' (by omega)]
  simp only
  rw [skipWs_ws_of_not_space w2 h2 0x2C _ (by decide)]
  simp only [if_true]
  rw [hb1 f' (by omega)]

/-- A member text is read as a member, given how its name and its value are read. -/
theorem readsMember_of_parts (d : Nat) (w1 kb w2 w3 v w4 name : GoString) (x : JSON)
    (h1 : IsWs w1) (hk : ∀ rest, parseStringBody 0 (kb ++ 0x22 :: rest) = some (name, rest))
    (h2 : IsWs w2) (h3 : IsWs w3) (hv : ReadsValue d v x)
    (hs : ∃ c t, v = c :: t ∧ valueStart c = true) (h4 : IsWs w4) :
    memberName (w1 ++ 0x22 :: (kb ++ [0x22]) ++ w2 ++ 0x3A :: (w3 ++ v ++ w4)) = some name ∧
    ReadsMember d (w1 ++ 0x22 :: (kb ++ [0x22]) ++ w2 ++ 0x3A :: (w3 ++ v ++ w4)) name x := by
  obtain ⟨c, t, hv', hc⟩ := hs
  have hsk : ∀ tail, skipWs ((w1 ++ 0x22 :: (kb ++ [0x22]) ++ w2 ++ 0x3A :: (w3 ++ v ++ w4)) ++ tail)
      = 0x22 :: (kb ++ 0x22 :: (w2 ++ 0x3A :: (w3 ++ (v ++ (w4 ++ tail))))) := by
    intro tail
    simp only [List.append_assoc, List.cons_append, List.nil_append]
    exact skipWs_ws_of_not_space w1 h1 0x22 _ (by decide)
  have hsk3 : ∀ tail, skipWs (w3 ++ (v ++ tail)) = v ++ tail := by
    intro tail
    rw [hv']
    simp only [List.cons_append]
    exact skipWs_ws_of_not_space w3 h3 c _ (valueStart_not_space hc)
  have step : ∀ (x4 : Nat) (tail : GoString) (f : Nat), (x4 = 0x2C ∨ x4 = 0x7D) →
      parseValue f d (v ++ (w4 ++ x4 :: tail)) = some (x, w4 ++ x4 :: tail) →
      parseMembers (f + 1) d (skipWs ((w1 ++ 0x22 :: (kb ++ [0x22]) ++ w2 ++ 0x3A ::
        (w3 ++ v ++ w4)) ++ x4 :: tail))
        = if x4 = 0x2C then
            (match parseMembers f d (skipWs tail) with
              | some (ms, rest5) => some ((name, x) :: ms, rest5)
              | none => none)
          else some ([(name, x)], tail) := by
    intro x4 tail f hx4 hpv
    rw [hsk]
    conv_lhs => unfold parseMembers
    simp only [if_true, hk]
    rw [skipWs_ws_of_not_space w2 h2 0x3A _ (by decide)]
    simp only [if_true]
    rw [hsk3, hpv]
    simp only
    have hx4s : isSpace x4 = false := by
      rcases hx4 with h | h <;> subst h <;> decide
    rw [skipWs_ws_of_not_space w4 h4 x4 tail hx4s]
    simp only
    rcases hx4 with h | h
    · subst h
      simp only [if_true]
    · subst h; simp
  refine ⟨?_, ?_, ?_⟩
  · unfold memberName
    have := hsk []
    rw [List.append_nil] at this
    rw [this]
    simp only [hk]
  · intro rest
    obtain ⟨f0, h0⟩ := hv (w4 ++ 0x7D :: rest)
      (afterValue_ws_append h4 (afterValue_cons (by omega) _))
    refine ⟨f0 + 1, fun f hf => ?_⟩
    obtain ⟨f', rfl, hf'⟩ := fuel_succ hf
    rw [step 0x7D rest f' (by omega) (h0 f' hf')]
    simp
  · intro tail ms htail rest
    obtain ⟨f0, h0⟩ := hv (w4 ++ 0x2C :: (tail ++ 0x7D :: rest))
      (afterValue_ws_append h4 (afterValue_cons (by omega) _))
    obtain ⟨f1, ht1⟩ := htail rest
    refine ⟨max f0 f1 + 1, fun f hf => ?_⟩
    obtain ⟨f', rfl, hf'⟩ := fuel_succ hf
    have := step 0x2C (tail ++ 0x7D :: rest) f' (by omega) (h0 f' (by omega))
    simp only [List.append_assoc, List.cons_append] at this ⊢
    rw [this, ht1 f' (by omega)]
    simp

/-- Completeness of the reader: it accepts every text of the grammar that is nested
no deeper than the depth limit leaves room for. -/
theorem reader_accepts {raw : Nat → Prop} {k : JKind} {n : Nat} {s : GoString}
    (h : JSyntax raw k n s) : Accepts k n s := by
  induction h with
  | litNull n => intro d _; exact ⟨_, readsValue_null d⟩
  | litTrue n => intro d _; exact ⟨_, readsValue_true d⟩
  | litFalse n => intro d _; exact ⟨_, readsValue_false d⟩
  | number n s hn => intro d _; exact ⟨_, readsValue_number d s hn⟩
  | string n s hs =>
    intro d _
    obtain ⟨x, hx⟩ := readsValue_string d s hs
    exact ⟨_, hx⟩
  | emptyArray n w hw => intro d hd; exact ⟨_, readsValue_emptyArray d w hw (by omega)⟩
  | array n body _ ih =>
    intro d hd
    obtain ⟨vs, hvs⟩ := ih (d + 1) (by omega)
    exact ⟨_, readsValue_array d body vs (by omega) hvs⟩
  | emptyObject n w hw => intro d hd; exact ⟨_, readsValue_emptyObject d w hw (by omega)⟩
  | object n body _ ih =>
    intro d hd
    obtain ⟨ms, hms⟩ := ih (d + 1) (by omega)
    exact ⟨_, readsValue_object d body ms (by omega) hms⟩
  | lastElem n w1 v w2 h1 hv h2 ih =>
    intro d hd
    obtain ⟨x, hx⟩ := ih d hd
    exact ⟨_, readsElems_last d w1 v w2 x h1 hx (jvalue_starts hv) h2⟩
  | moreElems n w1 v w2 rest h1 hv h2 _ ihv ihr =>
    intro d hd
    obtain ⟨x, hx⟩ := ihv d hd
    obtain ⟨xs, hxs⟩ := ihr d hd
    exact ⟨_, readsElems_more d w1 v w2 rest x xs h1 hx (jvalue_starts hv) h2 hxs⟩
  | member n w1 k w2 w3 v w4 h1 hk h2 h3 hv h4 ih =>
    intro d hd
    obtain ⟨x, hx⟩ := ih d hd
    obtain ⟨kb, name, hkb, hname⟩ := parseStringBody_of_jstring hk
    subst hkb
    exact ⟨name, x, readsMember_of_parts d w1 kb w2 w3 v w4 name x h1 hname h2 h3 hx
      (jvalue_starts hv) h4⟩
  | lastMember n m _ ih =>
    intro d hd
    obtain ⟨name, v, _, hr⟩ := ih d hd
    exact ⟨_, hr.1⟩
  | moreMembers n m rest _ _ ihm ihr =>
    intro d hd
    obtain ⟨name, v, _, hr⟩ := ihm d hd
    obtain ⟨ms, hms⟩ := ihr d hd
    exact ⟨_, hr.2 rest ms hms⟩

/-- A text read as a value, between white space, is what `parseJSON` gives. -/
theorem parseJSON_of_readsValue (w1 c w2 : GoString) (v : JSON) (h1 : IsWs w1)
    (hs : ∃ x t, c = x :: t ∧ valueStart x = true) (hv : ReadsValue 0 c v) (h2 : IsWs w2) :
    parseJSON (w1 ++ c ++ w2) = some v := by
  obtain ⟨f0, h0⟩ := hv w2 (afterValue_of_ws h2)
  obtain ⟨x, t, hc, hx⟩ := hs
  have hsk : skipWs (w1 ++ c ++ w2) = c ++ w2 := by
    rw [hc]
    simp only [List.append_assoc, List.cons_append]
    exact skipWs_ws_of_not_space w1 h1 x _ (valueStart_not_space hx)
  unfold parseJSON
  rw [← parseValue_fuel_enough (w1 ++ c ++ w2) f0, hsk, h0 _ (by omega)]
  simp only
  rw [skipWs_ws w2 h2]

/-- Completeness of `parseJSON`: every JSON text nested no deeper than the depth
limit is accepted, also with bytes in its strings that are not valid UTF-8. -/
theorem parseJSON_complete {raw : Nat → Prop} {n : Nat} {data : GoString}
    (h : JSONTextOf raw n data) (hn : n ≤ maxNestingDepth) :
    ∃ v, parseJSON data = some v := by
  obtain ⟨w1, c, w2, hd, h1, hc, h2⟩ := h
  obtain ⟨v, hv⟩ := reader_accepts hc 0 (by omega)
  exact ⟨v, by rw [hd]; exact parseJSON_of_readsValue w1 c w2 v h1 (jvalue_starts hc) hv h2⟩

/-! ## A JSON text is valid UTF-8; malformed input -/

theorem validUTF8From_append (n : Nat) :
    ∀ a : GoString, a.length = n → validUTF8From 0 a = true →
      ∀ b, validUTF8From 0 (a ++ b) = validUTF8From 0 b := by
  induction n using Nat.strong_induction_on with
  | _ n ih =>
    intro a hlen ha b
    rcases a with _ | ⟨c, a'⟩
    · rfl
    unfold validUTF8From at ha
    simp only [List.cons_append]
    conv_lhs => unfold validUTF8From
    by_cases hc : c < 0x80
    · simp only [hc, if_true] at ha ⊢
      exact ih a'.length (by simp at hlen; omega) a' rfl ha b
    · simp only [hc, if_false] at ha ⊢
      by_cases hv : decodeRune (c :: a') = (runeError, 1)
      · simp [hv] at ha
      · simp only [hv, if_false] at ha
        obtain ⟨cont, a2, ha2, hsz, hX, _, _, _⟩ := decodeRune_multibyte c a' hc hv
        have hdec : decodeRune (c :: (a' ++ b)) = decodeRune (c :: a') := by
          have := hX (a2 ++ b)
          rw [← List.append_assoc, ← ha2] at this
          exact this
        rw [hdec]
        simp only [hv, if_false, hsz, Nat.add_sub_cancel] at ha ⊢
        rw [ha2, validUTF8From_skip] at ha
        rw [ha2, List.append_assoc, validUTF8From_skip]
        exact ih a2.length (by rw [ha2] at hlen; simp at hlen; omega) a2 rfl ha b

theorem validUTF8_append {a b : GoString} (ha : validUTF8 a = true) (hb : validUTF8 b = true) :
    validUTF8 (a ++ b) = true := by
  unfold validUTF8 at *
  rw [validUTF8From_append a.length a rfl ha b]
  exact hb

theorem validUTF8_of_ascii (s : GoString) (h : ∀ c ∈ s, c < 0x80) : validUTF8 s = true := by
  unfold validUTF8
  induction s with
  | nil => rfl
  | cons c t ih =>
    unfold validUTF8From
    simp only [h c (List.mem_cons_self _ _), if_true]
    exact ih (fun x hx => h x (List.mem_cons_of_mem _ hx))

theorem validUTF8_cons_ascii {c : Nat} {s : GoString} (hc : c < 0x80)
    (hs : validUTF8 s = true) : validUTF8 (c :: s) = true := by
  have := validUTF8_append (validUTF8_of_ascii [c] (by simpa using hc)) hs
  simpa using this

/-- The rune at the start of a well-formed sequence of UTF-8 decodes without error
and has the width of the sequence. -/
theorem decodeRune_of_tail {b : Nat} {tail : GoString} (h : IsUTF8Tail b tail) (X : GoString) :
    decodeRune (b :: (tail ++ X)) ≠ (runeError, 1) ∧
      (decodeRune (b :: (tail ++ X))).2 = tail.length + 1 := by
  rcases tail with _ | ⟨b1, _ | ⟨b2, _ | ⟨b3, _ | ⟨b4, tl⟩⟩⟩⟩ <;>
    simp only [IsUTF8Tail, IsCont] at h
  · obtain ⟨h1, h2, h3, h4⟩ := h
    have e1 : ¬ b < 0x80 := by omega
    have e2 : ¬ (b < 0xC2 ∨ 0xF4 < b) := by omega
    have e3 : ¬ (b1 < acceptLo b ∨ acceptHi b < b1) := by
      unfold acceptLo acceptHi; split_ifs <;> omega
    have e4 : b < 0xE0 := by omega
    simp only [List.cons_append, List.nil_append]
    unfold decodeRune
    simp [e1, e2, e3, e4]
  · obtain ⟨h1, h2, h3⟩ := h
    have e1 : ¬ b < 0x80 := by omega
    have e2 : ¬ (b < 0xC2 ∨ 0xF4 < b) := by omega
    have e3 : ¬ (b1 < acceptLo b ∨ acceptHi b < b1) := by
      unfold acceptLo acceptHi; split_ifs <;> omega
    have e4 : ¬ b < 0xE0 := by omega
    have e5 : ¬ (b2 < 0x80 ∨ 0xBF < b2) := by omega
    have e6 : b < 0xF0 := by omega
    simp only [List.cons_append, List.nil_append]
    unfold decodeRune
    simp [e1, e2, e3, e4, e5, e6]
  · obtain ⟨h1, h2, h3⟩ := h
    have e1 : ¬ b < 0x80 := by omega
    have e2 : ¬ (b < 0xC2 ∨ 0xF4 < b) := by omega
    have e3 : ¬ (b1 < acceptLo b ∨ acceptHi b < b1) := by
      unfold acceptLo acceptHi; split_ifs <;> omega
    have e4 : ¬ b < 0xE0 := by omega
    have e5 : ¬ (b2 < 0x80 ∨ 0xBF < b2) := by omega
    have e6 : ¬ b < 0xF0 := by omega
    have e7 : ¬ (b3 < 0x80 ∨ 0xBF < b3) := by omega
    simp only [List.cons_append, List.nil_append]
    unfold decodeRune
    simp [e1, e2, e3, e4, e5, e6, e7]

theorem isHex_ascii {c : Nat} (h : IsHex c) : c < 0x80 := by
  unfold IsHex at h; omega

/-- The content of a string of RFC 8259 in UTF-8 is valid UTF-8. -/
theorem jchars_validUTF8 {s : GoString} (h : JChars (fun _ => False) s) :
    validUTF8 s = true := by
  induction h with
  | nil => rfl
  | plain c t h1 h2 h3 h4 _ ih => exact validUTF8_cons_ascii h2 ih
  | rune b tail t h1 _ ih =>
    obtain ⟨hv, hsz⟩ := decodeRune_of_tail h1 t
    have hb := (utf8Tail_high h1).1
    unfold validUTF8 at ih ⊢
    unfold validUTF8From
    have e1 : ¬ b < 0x80 := by omega
    simp only [e1, if_false, hv, hsz, Nat.add_sub_cancel]
    rw [validUTF8From_skip]
    exact ih
  | rawByte c t h1 h2 _ ih => exact h2.elim
  | esc e t h1 _ ih =>
    exact validUTF8_cons_ascii (by omega) (validUTF8_cons_ascii (by omega) ih)
  | uni h1 h2 h3 h4 t g1 g2 g3 g4 _ ih =>
    exact validUTF8_cons_ascii (by omega) (validUTF8_cons_ascii (by omega)
      (validUTF8_cons_ascii (isHex_ascii g1) (validUTF8_cons_ascii (isHex_ascii g2)
        (validUTF8_cons_ascii (isHex_ascii g3) (validUTF8_cons_ascii (isHex_ascii g4) ih)))))

theorem isWs_validUTF8 {w : GoString} (h : IsWs w) : validUTF8 w = true :=
  validUTF8_of_ascii w (fun c hc => by have := h c hc; omega)

theorem jnumber_validUTF8 {s : GoString} (h : JNumber s) : validUTF8 s = true := by
  obtain ⟨sg, i, f, e, hs, hsg, hi, hf, he⟩ := h
  have h1 : validUTF8 sg = true := by
    rcases hsg with h | h <;> subst h <;> decide
  have h2 : validUTF8 i = true := by
    apply validUTF8_of_ascii
    rcases hi with hi | ⟨c, ds, hi, c1, c2, hds⟩
    · subst hi; simp
    · subst hi
      intro x hx
      rcases List.mem_cons.mp hx with hx | hx
      · omega
      · have := hds x hx; omega
  have h3 : validUTF8 f = true := by
    rcases hf with hf | ⟨ds, hf, hds⟩
    · subst hf; rfl
    · subst hf
      apply validUTF8_of_ascii
      intro x hx
      rcases List.mem_cons.mp hx with hx | hx
      · omega
      · have := hds.2 x hx; omega
  have h4 : validUTF8 e = true := by
    rcases he with he | ⟨x, sg', ds, he, hx, hsg', hds⟩
    · subst he; rfl
    · subst he
      apply validUTF8_of_ascii
      intro y hy
      rcases List.mem_cons.mp hy with hy | hy
      · omega
      · rcases List.mem_append.mp hy with hy | hy
        · rcases hsg' with h | h | h <;> subst h <;> simp at hy <;> omega
        · have := hds.2 y hy; omega
  rw [hs]
  exact validUTF8_append (validUTF8_append (validUTF8_append h1 h2) h3) h4

theorem jstring_validUTF8 {s : GoString} (h : JString (fun _ => False) s) :
    validUTF8 s = true := by
  obtain ⟨body, hs, hb⟩ := h
  rw [hs]
  exact validUTF8_cons_ascii (by omega)
    (validUTF8_append (jchars_validUTF8 hb) (by decide))

/-- A text of the grammar of RFC 8259 in UTF-8 is valid UTF-8. -/
theorem jsyntax_validUTF8 {k : JKind} {n : Nat} {s : GoString}
    (h : JSyntax (fun _ => False) k n s) : validUTF8 s = true := by
  induction h with
  | litNull n => decide
  | litTrue n => decide
  | litFalse n => decide
  | number n s hn => exact jnumber_validUTF8 hn
  | string n s hs => exact jstring_validUTF8 hs
  | emptyArray n w hw =>
    exact validUTF8_cons_ascii (by omega) (validUTF8_append (isWs_validUTF8 hw) (by decide))
  | array n body _ ih =>
    exact validUTF8_cons_ascii (by omega) (validUTF8_append ih (by decide))
  | emptyObject n w hw =>
    exact validUTF8_cons_ascii (by omega) (validUTF8_append (isWs_validUTF8 hw) (by decide))
  | object n body _ ih =>
    exact validUTF8_cons_ascii (by omega) (validUTF8_append ih (by decide))
  | lastElem n w1 v w2 h1 _ h2 ih =>
    exact validUTF8_append (validUTF8_append (isWs_validUTF8 h1) ih) (isWs_validUTF8 h2)
  | moreElems n w1 v w2 rest h1 _ h2 _ ihv ihr =>
    exact validUTF8_append
      (validUTF8_append (validUTF8_append (isWs_validUTF8 h1) ihv) (isWs_validUTF8 h2))
      (validUTF8_cons_ascii (by omega) ihr)
  | member n w1 k w2 w3 v w4 h1 hk h2 h3 _ h4 ih =>
    exact validUTF8_append
      (validUTF8_append (validUTF8_append (isWs_validUTF8 h1) (jstring_validUTF8 hk))
        (isWs_validUTF8 h2))
      (validUTF8_cons_ascii (by omega)
        (validUTF8_append (validUTF8_append (isWs_validUTF8 h3) ih) (isWs_validUTF8 h4)))
  | lastMember n m _ ih => exact ih
  | moreMembers n m rest _ _ ihm ihr =>
    exact validUTF8_append ihm (validUTF8_cons_ascii (by omega) ihr)

/-- A JSON text of RFC 8259 in UTF-8 is valid UTF-8. -/
theorem jsonText_validUTF8 {s : GoString} (h : JSONText s) : validUTF8 s = true := by
  obtain ⟨n, w1, v, w2, hs, h1, hv, h2⟩ := h
  rw [hs]
  exact validUTF8_append (validUTF8_append (isWs_validUTF8 h1) (jsyntax_validUTF8 hv))
    (isWs_validUTF8 h2)

/-- C4 fails on bytes that are no JSON text because a string holds a byte that is not
valid UTF-8: the reader takes the byte as string content, `Unmarshal` reports no
error, and `processB` goes on with a `Message` whose carrier and body are empty,
hands that carrier to `Extract` and starts its span. -/
theorem invalid_utf8_in_string_is_not_fatal :
    (∀ b ∈ rawByteMessage, b < 0x100) ∧
      validUTF8 rawByteMessage = false ∧
      ¬ JSONText rawByteMessage ∧
      json_Unmarshal rawByteMessage = .ok zeroMessage ∧
      (processB rawByteMessage).panicked = none ∧
      (processB rawByteMessage).events =
        [Event.getTracer "processB", Event.extract zeroCarrier, Event.spanStart "processB",
          Event.spanEvent "context extracted from carrier, now we're in the right parent trace",
          Event.spanEnd "processB"] :=
  ⟨by decide, by decide,
    fun h => absurd (jsonText_validUTF8 h) (by decide), rfl, rfl, rfl⟩

/-- C4 as amended: for every byte sequence that is not a JSON text even when bytes
from 0x80 up may stand on their own inside its strings, the deserialize step of
`processB` reports an error and yields no `Message`, and `processB` stops with the
panic `Unable to unmarshal JSON message` having done nothing but get its tracer: the
carrier is not handed to `Extract` and no span is started. -/
theorem malformed_input_is_fatal (data : GoString) (hbytes : ∀ b ∈ data, b < 0x100)
    (h : ¬ LaxJSONText data) :
    json_Unmarshal data = .error UnmarshalError.malformed ∧
      (∀ m, json_Unmarshal data ≠ .ok m) ∧
      (processB data).panicked = some (GoPanic.explicit "Unable to unmarshal JSON message") ∧
      (processB data).events = [Event.getTracer "processB"] ∧
      (∀ c, Event.extract c ∉ (processB data).events) ∧
      (∀ n, Event.spanStart n ∉ (processB data).events) := by
  have hp : parseJSON data = none := by
    rcases hp : parseJSON data with _ | v
    · rfl
    · exact absurd ⟨maxNestingDepth, parseJSON_sound hbytes hp⟩ h
  have hU : json_Unmarshal data = .error UnmarshalError.malformed := by
    unfold json_Unmarshal
    rw [hp]
  have hB : processB data =
      { events := [Event.getTracer "processB"],
        panicked := some (GoPanic.explicit "Unable to unmarshal JSON message") } := by
    unfold processB
    rw [hU]
  refine ⟨hU, ?_, ?_, ?_, ?_, ?_⟩
  · intro m hm
    rw [hU] at hm
    cases hm
  · rw [hB]
  · rw [hB]
  · intro c; rw [hB]; simp
  · intro n; rw [hB]; simp

/-- C4 as amended, on bytes that are the bare body text and no JSON: `processB`
panics before `Extract` and before any span. -/
theorem malformed_input_is_fatal_witness :
    (∀ b ∈ ascii "a message meant for process B", b < 0x100) ∧
      ¬ LaxJSONText (ascii "a message meant for process B") ∧
      (processB (ascii "a message meant for process B")).panicked
        = some (GoPanic.explicit "Unable to unmarshal JSON message") ∧
      (processB (ascii "a message meant for process B")).events
        = [Event.getTracer "processB"] :=
  have hb : ∀ b ∈ ascii "a message meant for process B", b < 0x100 := by decide
  have hn : ¬ LaxJSONText (ascii "a message meant for process B") := fun h => by
    obtain ⟨n, h⟩ := h
    obtain ⟨c, t, hs, hc⟩ := jsonTextOf_starts h
    have h0 : skipWs (ascii "a message meant for process B")
        = 0x61 :: (ascii " message meant for process B") := by decide
    rw [h0] at hs
    cases hs
    exact absurd hc (by decide)
  ⟨hb, hn, (malformed_input_is_fatal _ hb hn).2.2.1, (malformed_input_is_fatal _ hb hn).2.2.2.1⟩

theorem decodeString_error {cur : GoString} {v : JSON} {e : UnmarshalError}
    (h : decodeString cur v = .error e) : e = .typeMismatch := by
  cases v <;> simp [decodeString] at h <;> exact h.symm

theorem decodeEntries_error {ms : List (GoString × JSON)} :
    ∀ {es : Entries} {e : UnmarshalError},
      decodeEntries es ms = .error e → e = .typeMismatch := by
  induction ms with
  | nil => intro es e h; simp [decodeEntries] at h
  | cons m ms ih =>
    intro es e h
    obtain ⟨k, v⟩ := m
    unfold decodeEntries at h
    rcases hs : decodeString [] v with e' | s
    · rw [hs] at h
      simp only [Except.error.injEq] at h
      rw [← h]; exact decodeString_error hs
    · rw [hs] at h
      exact ih h

theorem decodeMap_error {cur : GoMap} {v : JSON} {e : UnmarshalError}
    (h : decodeMap cur v = .error e) : e = .typeMismatch := by
  cases v with
  | obj ms =>
    unfold decodeMap at h
    simp only at h
    rcases hs : decodeEntries (cur.getD []) ms with e' | es
    · rw [hs] at h
      simp only [Except.error.injEq] at h
      rw [← h]; exact decodeEntries_error hs
    · rw [hs] at h; simp at h
  | null => simp [decodeMap] at h
  | bool b => simp [decodeMap] at h; exact h.symm
  | num r => simp [decodeMap] at h; exact h.symm
  | str s => simp [decodeMap] at h; exact h.symm
  | arr a => simp [decodeMap] at h; exact h.symm

theorem decodeCarrierMembers_error {ms : List (GoString × JSON)} :
    ∀ {cur : Carrier} {e : UnmarshalError},
      decodeCarrierMembers cur ms = .error e → e = .typeMismatch := by
  induction ms with
  | nil => intro cur e h; simp [decodeCarrierMembers] at h
  | cons m ms ih =>
    intro cur e h
    obtain ⟨k, v⟩ := m
    unfold decodeCarrierMembers at h
    rcases hm : matchField carrierFields k with _ | f
    · rw [hm] at h; exact ih h
    · rw [hm] at h
      simp only at h
      rcases hs : decodeMap cur.Fields v with e' | mp
      · rw [hs] at h
        simp only [Except.error.injEq] at h
        rw [← h]; exact decodeMap_error hs
      · rw [hs] at h; exact ih h

theorem decodeCarrier_error {cur : Carrier} {v : JSON} {e : UnmarshalError}
    (h : decodeCarrier cur v = .error e) : e = .typeMismatch := by
  cases v with
  | obj ms => exact decodeCarrierMembers_error h
  | null => simp [decodeCarrier] at h
  | bool b => simp [decodeCarrier] at h; exact h.symm
  | num r => simp [decodeCarrier] at h; exact h.symm
  | str s => simp [decodeCarrier] at h; exact h.symm
  | arr a => simp [decodeCarrier] at h; exact h.symm

theorem decodeMessageMembers_error {ms : List (GoString × JSON)} :
    ∀ {cur : Message} {e : UnmarshalError},
      decodeMessageMembers cur ms = .error e → e = .typeMismatch := by
  induction ms with
  | nil => intro cur e h; simp [decodeMessageMembers] at h
  | cons m ms ih =>
    intro cur e h
    obtain ⟨k, v⟩ := m
    unfold decodeMessageMembers at h
    rcases hm : matchField messageFields k with _ | f
    · rw [hm] at h; exact ih h
    · rw [hm] at h
      simp only at h
      split at h
      · rcases hs : decodeCarrier cur.TraceContext v with e' | c
        · rw [hs] at h
          simp only [Except.error.injEq] at h
          rw [← h]; exact decodeCarrier_error hs
        · rw [hs] at h; exact ih h
      · rcases hs : decodeString cur.Body v with e' | c
        · rw [hs] at h
          simp only [Except.error.injEq] at h
          rw [← h]; exact decodeString_error hs
        · rw [hs] at h; exact ih h

/-- Reading a JSON value into a `Message` reports no syntax error. -/
theorem decodeMessage_error {cur : Message} {v : JSON} {e : UnmarshalError}
    (h : decodeMessage cur v = .error e) : e = .typeMismatch := by
  cases v with
  | obj ms => exact decodeMessageMembers_error h
  | null => simp [decodeMessage] at h
  | bool b => simp [decodeMessage] at h; exact h.symm
  | num r => simp [decodeMessage] at h; exact h.symm
  | str s => simp [decodeMessage] at h; exact h.symm
  | arr a => simp [decodeMessage] at h; exact h.symm

/-- For bytes, `Unmarshal` reports a syntax error exactly on the inputs that are no
JSON text nested at most `maxNestingDepth` deep, bytes from 0x80 up allowed to stand
on their own inside strings. -/
theorem json_Unmarshal_malformed_iff (data : GoString) (hbytes : ∀ b ∈ data, b < 0x100) :
    json_Unmarshal data = .error UnmarshalError.malformed ↔
      ¬ JSONTextOf (fun c => c < 0x100) maxNestingDepth data := by
  constructor
  · intro h ht
    obtain ⟨v, hv⟩ := parseJSON_complete ht (Nat.le_refl _)
    unfold json_Unmarshal at h
    rw [hv] at h
    have := decodeMessage_error h
    cases this
  · intro h
    rcases hp : parseJSON data with _ | v
    · unfold json_Unmarshal; rw [hp]
    · exact absurd (parseJSON_sound hbytes hp) h

/-! ## Members added to a message -/

theorem addedMembers_of_false {a b : List (GoString × JSON)}
    (h : AddedMembers (fun _ => False) a b) : a = b := by
  induction h with
  | done => rfl
  | keep m ms1 ms2 _ ih => rw [ih]
  | add n v ms1 ms2 hn _ _ => exact hn.elim

theorem addedToMessage_toMembers {e : GoString → Prop} {a b : List (GoString × JSON)}
    (h : AddedToMessage e (fun _ => False) a b) : AddedMembers e a b := by
  induction h with
  | done => exact AddedMembers.done
  | keep m ms1 ms2 _ ih => exact AddedMembers.keep m ms1 ms2 ih
  | inner n cs1 cs2 ms1 ms2 hcs _ ih =>
    rw [addedMembers_of_false hcs]
    exact AddedMembers.keep _ ms1 ms2 ih
  | add n v ms1 ms2 hn _ ih => exact AddedMembers.add n v ms1 ms2 hn ih

theorem addedToMessage_append {eT eC : GoString → Prop} {a b : List (GoString × JSON)}
    (h : AddedToMessage eT eC a b) {c : List (GoString × JSON)}
    (hc : AddedToMessage eT eC [] c) : AddedToMessage eT eC a (b ++ c) := by
  induction h with
  | done => exact hc
  | keep m ms1 ms2 _ ih => exact AddedToMessage.keep m ms1 _ ih
  | inner n cs1 cs2 ms1 ms2 hcs _ ih => exact AddedToMessage.inner n cs1 cs2 ms1 _ hcs ih
  | add n v ms1 ms2 hn _ ih => exact AddedToMessage.add n v ms1 _ hn ih

/-- Reading a member list to which members were added. -/
theorem membersAdded_reads (d : Nat) (same : GoString → GoString → Prop)
    (added : GoString → Prop) (eT eC : GoString → Prop)
    (hsame : ∀ m m2, same m m2 → ∃ k v v2, ReadsMember d m k v ∧ ReadsMember d m2 k v2 ∧
      (v2 = v ∨ ∃ cs cs2, v = JSON.obj cs ∧ v2 = JSON.obj cs2 ∧ AddedMembers eC cs cs2))
    (hadded : ∀ a, added a → ∃ k v, eT k ∧ ReadsMember d a k v)
    {b b2 : GoString} (h : MembersAdded same added b b2) :
    ∃ ms ms2, ReadsMembers d b ms ∧ ReadsMembers d b2 ms2 ∧ AddedToMessage eT eC ms ms2 ∧
      ∀ tail mst, ReadsMembers d tail mst →
        ReadsMembers d (b2 ++ 0x2C :: tail) (ms2 ++ mst) := by
  induction h with
  | last m m2 hs =>
    obtain ⟨k, v, v2, r1, r2, hv⟩ := hsame m m2 hs
    refine ⟨[(k, v)], [(k, v2)], r1.1, r2.1, ?_, fun tail mst ht => r2.2 tail mst ht⟩
    rcases hv with hv | ⟨cs, cs2, e1, e2, hcs⟩
    · rw [hv]; exact AddedToMessage.keep _ _ _ AddedToMessage.done
    · rw [e1, e2]; exact AddedToMessage.inner _ _ _ _ _ hcs AddedToMessage.done
  | keep m m2 r r2 hs _ ih =>
    obtain ⟨k, v, v2, r1, r2', hv⟩ := hsame m m2 hs
    obtain ⟨ms, ms2, hr, hr2, hadd, happ⟩ := ih
    refine ⟨(k, v) :: ms, (k, v2) :: ms2, r1.2 _ _ hr, r2'.2 _ _ hr2, ?_, ?_⟩
    · rcases hv with hv | ⟨cs, cs2, e1, e2, hcs⟩
      · rw [hv]; exact AddedToMessage.keep _ _ _ hadd
      · rw [e1, e2]; exact AddedToMessage.inner _ _ _ _ _ hcs hadd
    · intro tail mst ht
      have := r2'.2 _ _ (happ tail mst ht)
      simpa [List.append_assoc] using this
  | addBefore a r r2 ha _ ih =>
    obtain ⟨k, v, hk, ra⟩ := hadded a ha
    obtain ⟨ms, ms2, hr, hr2, hadd, happ⟩ := ih
    refine ⟨ms, (k, v) :: ms2, hr, ra.2 _ _ hr2, AddedToMessage.add _ _ _ _ hk hadd, ?_⟩
    intro tail mst ht
    have := ra.2 _ _ (happ tail mst ht)
    simpa [List.append_assoc] using this
  | addAfter a r r2 ha _ ih =>
    obtain ⟨k, v, hk, ra⟩ := hadded a ha
    obtain ⟨ms, ms2, hr, hr2, hadd, happ⟩ := ih
    refine ⟨ms, ms2 ++ [(k, v)], hr, happ a _ ra.1,
      addedToMessage_append hadd (AddedToMessage.add _ _ _ _ hk AddedToMessage.done), ?_⟩
    intro tail mst ht
    have := happ (a ++ 0x2C :: tail) _ (ra.2 tail mst ht)
    simpa [List.append_assoc] using this

theorem allAdded_reads (d : Nat) (added : GoString → Prop) (eT eC : GoString → Prop)
    (hadded : ∀ a, added a → ∃ k v, eT k ∧ ReadsMember d a k v)
    {b2 : GoString} (h : AllAdded added b2) :
    ∃ ms2, ReadsMembers d b2 ms2 ∧ AddedToMessage eT eC [] ms2 := by
  induction h with
  | one a ha =>
    obtain ⟨k, v, hk, ra⟩ := hadded a ha
    exact ⟨[(k, v)], ra.1, AddedToMessage.add _ _ _ _ hk AddedToMessage.done⟩
  | more a r ha _ ih =>
    obtain ⟨k, v, hk, ra⟩ := hadded a ha
    obtain ⟨ms2, hr, hadd⟩ := ih
    exact ⟨(k, v) :: ms2, ra.2 _ _ hr, AddedToMessage.add _ _ _ _ hk hadd⟩

/-- Reading an object to which members were added. -/
theorem objectAdded_reads (d : Nat) (hd : d + 1 ≤ maxNestingDepth)
    (same : GoString → GoString → Prop)
    (added : GoString → Prop) (eT eC : GoString → Prop)
    (hsame : ∀ m m2, same m m2 → ∃ k v v2, ReadsMember (d + 1) m k v ∧
      ReadsMember (d + 1) m2 k v2 ∧
      (v2 = v ∨ ∃ cs cs2, v = JSON.obj cs ∧ v2 = JSON.obj cs2 ∧ AddedMembers eC cs cs2))
    (hadded : ∀ a, added a → ∃ k v, eT k ∧ ReadsMember (d + 1) a k v)
    {o o2 : GoString} (h : ObjectAdded same added o o2) :
    ∃ ms ms2, ReadsValue d o (JSON.obj ms) ∧ ReadsValue d o2 (JSON.obj ms2) ∧
      AddedToMessage eT eC ms ms2 ∧ (∃ t, o = 0x7B :: t) ∧ (∃ t, o2 = 0x7B :: t) := by
  cases h with
  | toEmpty w b2 hw hb =>
    obtain ⟨ms2, hr, hadd⟩ := allAdded_reads (d + 1) added eT eC hadded hb
    exact ⟨[], ms2, readsValue_emptyObject d w hw hd, readsValue_object d b2 ms2 hd hr, hadd,
      ⟨_, rfl⟩, ⟨_, rfl⟩⟩
  | toMembers b b2 hb =>
    obtain ⟨ms, ms2, hr, hr2, hadd, _⟩ :=
      membersAdded_reads (d + 1) same added eT eC hsame hadded hb
    exact ⟨ms, ms2, readsValue_object d b ms hd hr, readsValue_object d b2 ms2 hd hr2, hadd,
      ⟨_, rfl⟩, ⟨_, rfl⟩⟩

theorem keptMember_reads {raw : Nat → Prop} {n d : Nat} (hd : d + n ≤ maxNestingDepth)
    {eC : GoString → Prop} {m m2 : GoString} (h : IsKeptMember raw n m m2) :
    ∃ k v v2, ReadsMember d m k v ∧ ReadsMember d m2 k v2 ∧
      (v2 = v ∨ ∃ cs cs2, v = JSON.obj cs ∧ v2 = JSON.obj cs2 ∧ AddedMembers eC cs cs2) := by
  obtain ⟨hm, rfl⟩ := h
  obtain ⟨k, v, _, hr⟩ := reader_accepts hm d hd
  exact ⟨k, v, v, hr, hr, Or.inl rfl⟩

theorem addedMember_reads {raw : Nat → Prop} {n d : Nat} (hd : d + n ≤ maxNestingDepth)
    {extra : GoString → Prop} {a : GoString} (h : IsAddedMember raw extra n a) :
    ∃ k v, extra k ∧ ReadsMember d a k v := by
  obtain ⟨hm, name, hname, hex⟩ := h
  obtain ⟨k, v, hk, hr⟩ := reader_accepts hm d hd
  rw [hname] at hk
  simp only [Option.some.injEq] at hk
  subst hk
  exact ⟨name, v, hex, hr⟩

theorem keptOrExtended_reads {raw : Nat → Prop} {n : Nat} (hn : n + 2 ≤ maxNestingDepth)
    {m m2 : GoString} (h : IsKeptOrExtended raw n m m2) :
    ∃ k v v2, ReadsMember 1 m k v ∧ ReadsMember 1 m2 k v2 ∧
      (v2 = v ∨ ∃ cs cs2, v = JSON.obj cs ∧ v2 = JSON.obj cs2 ∧
        AddedMembers (unknownTo carrierFields) cs cs2) := by
  rcases h with h | ⟨w1, k, w2, w3, o, o2, w4, hm, hm2, h1, hk, h2, h3, h4, hobj⟩
  · exact keptMember_reads (by omega) h
  · obtain ⟨cs, cs2, hr, hr2, hadd, ⟨t, ht⟩, ⟨t2, ht2⟩⟩ :=
      objectAdded_reads 1 (by omega) _ _ (unknownTo carrierFields) (fun _ => False)
        (fun m m2 hs => keptMember_reads (by omega) hs)
        (fun a ha => addedMember_reads (by omega) ha) hobj
    obtain ⟨kb, name, hkb, hname⟩ := parseStringBody_of_jstring hk
    subst hkb
    have p1 := readsMember_of_parts 1 w1 kb w2 w3 o w4 name (JSON.obj cs) h1 hname h2 h3 hr
      ⟨0x7B, t, ht, by decide⟩ h4
    have p2 := readsMember_of_parts 1 w1 kb w2 w3 o2 w4 name (JSON.obj cs2) h1 hname h2 h3 hr2
      ⟨0x7B, t2, ht2, by decide⟩ h4
    rw [← hm] at p1
    rw [← hm2] at p2
    exact ⟨name, _, _, p1.2, p2.2, Or.inr ⟨cs, cs2, rfl, rfl, addedToMessage_toMembers hadd⟩⟩

/-- C9 as amended: take the text `o` of a JSON object and put further members into
it, before any member or after the last one: into the top-level object members whose
names are no field name of `Message` exactly or up to case, and into the objects that
are values of top-level members (as the `traceContext` object) members whose names
are no field name of `Carrier` exactly or up to case; let every member, kept or
added, be nested so that the whole object is at most `maxNestingDepth` deep
(`n + 2 ≤ maxNestingDepth`). Then, between the same white space, the deserialize step
gives on the new text `o2` the result it gives on `o`: the same `Message` when `o`
deserializes into one. This holds for the grammar of RFC 8259 (`raw` nowhere true)
and for every widening of it by bytes from 0x80 up that may stand on their own in
strings. -/
theorem unknown_members_are_ignored (raw : Nat → Prop) (n : Nat) (w0 o o2 w5 : GoString)
    (hn : n + 2 ≤ maxNestingDepth) (h0 : IsWs w0) (h5 : IsWs w5)
    (hadd : ObjectAdded (IsKeptOrExtended raw n)
      (IsAddedMember raw (unknownTo messageFields) (n + 1)) o o2) :
    json_Unmarshal (w0 ++ o2 ++ w5) = json_Unmarshal (w0 ++ o ++ w5) ∧
      ∀ m, json_Unmarshal (w0 ++ o ++ w5) = .ok m → json_Unmarshal (w0 ++ o2 ++ w5) = .ok m := by
  obtain ⟨ms, ms2, hr, hr2, hrel, ⟨t, ht⟩, ⟨t2, ht2⟩⟩ :=
    objectAdded_reads 0 (by omega) _ _ (unknownTo messageFields) (unknownTo carrierFields)
      (fun m m2 hs => keptOrExtended_reads hn hs)
      (fun a ha => addedMember_reads (by omega) ha) hadd
  have p1 := parseJSON_of_readsValue w0 o w5 _ h0 ⟨0x7B, t, ht, by decide⟩ hr h5
  have p2 := parseJSON_of_readsValue w0 o2 w5 _ h0 ⟨0x7B, t2, ht2, by decide⟩ hr2 h5
  have heq : json_Unmarshal (w0 ++ o2 ++ w5) = json_Unmarshal (w0 ++ o ++ w5) := by
    unfold json_Unmarshal
    rw [p1, p2]
    exact decodeMessageMembers_added hrel zeroMessage
  exact ⟨heq, fun m hm => heq.trans hm⟩

/-- A string literal of plain ASCII characters is read as these characters. -/
theorem parseStringBody_plain (s rest : GoString)
    (h : ∀ c ∈ s, 0x20 ≤ c ∧ c < 0x80 ∧ c ≠ 0x22 ∧ c ≠ 0x5C) :
    parseStringBody 0 (s ++ 0x22 :: rest) = some (s, rest) := by
  induction s with
  | nil =>
    simp only [List.nil_append]
    unfold parseStringBody
    simp
  | cons c t ih =>
    have hc := h c (by simp)
    simp only [List.cons_append]
    conv_lhs => unfold parseStringBody
    have h1 : ¬ c < 0x20 := by omega
    simp [hc.2.1, hc.2.2.1, hc.2.2.2, h1, ih (fun x hx => h x (List.mem_cons_of_mem _ hx)),
      prepend]

/-- The name of a member whose key is written in plain ASCII characters is the text
between the quotation marks. -/
theorem memberName_plain (w name rest : GoString) (hw : IsWs w)
    (h : ∀ c ∈ name, 0x20 ≤ c ∧ c < 0x80 ∧ c ≠ 0x22 ∧ c ≠ 0x5C) :
    memberName (w ++ 0x22 :: (name ++ 0x22 :: rest)) = some name := by
  unfold memberName
  rw [skipWs_ws_of_not_space w hw 0x22 _ (by decide)]
  simp only [parseStringBody_plain name rest h]

/-- C9 as amended, on a message to which the members `note` (top level) and
`version` (under `traceContext`) are added: both messages deserialize into the same
`Message`. -/
theorem unknown_members_are_ignored_witness :
    json_Unmarshal extendedMessage = json_Unmarshal plainMessage ∧
      json_Unmarshal plainMessage = .ok
        { TraceContext := { Fields := some [(ascii "traceparent", ascii "v")] },
          Body := ascii "x" } := by
  have hstr : ∀ s : GoString, (∀ c ∈ s, 0x20 ≤ c ∧ c < 0x80 ∧ c ≠ 0x22 ∧ c ≠ 0x5C) →
      JString (fun _ => False) (0x22 :: (s ++ [0x22])) := fun s h => jstring_plain s h
  have mTP : JSyntax (fun _ => False) .member 0
      (0x22 :: (ascii "traceparent" ++ [0x22]) ++ 0x3A :: (0x22 :: (ascii "v" ++ [0x22]))) :=
    jsyntax_plainMember (hstr _ (by decide)) (JSyntax.string _ _ (hstr _ (by decide)))
  have mFields := jsyntax_plainMember (hstr (ascii "fields") (by decide))
    (JSyntax.object _ _ (JSyntax.lastMember _ _ mTP))
  have mVersion : JSyntax (fun _ => False) .member 1
      (0x22 :: (ascii "version" ++ [0x22]) ++ 0x3A :: [0x32]) :=
    jsyntax_plainMember (hstr _ (by decide)) (JSyntax.number _ _ (jnumber_digit _ (by decide)))
  have aVersion : IsAddedMember (fun _ => False) (unknownTo carrierFields) 1
      (0x22 :: (ascii "version" ++ [0x22]) ++ 0x3A :: [0x32]) :=
    ⟨mVersion, ascii "version", by decide, by unfold unknownTo; decide⟩
  have mBody : JSyntax (fun _ => False) .member 2
      (0x22 :: (ascii "body" ++ [0x22]) ++ 0x3A :: (0x22 :: (ascii "x" ++ [0x22]))) :=
    jsyntax_plainMember (hstr _ (by decide)) (JSyntax.string _ _ (hstr _ (by decide)))
  have mNote : JSyntax (fun _ => False) .member 2
      (0x22 :: (ascii "note" ++ [0x22]) ++ 0x3A :: (0x5B :: (([0x31] ++ 0x2C :: ascii "true")
        ++ [0x5D]))) :=
    jsyntax_plainMember (hstr _ (by decide))
      (JSyntax.array _ _ (jsyntax_plainElems (JSyntax.number _ _ (jnumber_digit _ (by decide)))
        (jsyntax_plainElem (JSyntax.litTrue _))))
  have aNote : IsAddedMember (fun _ => False) (unknownTo messageFields) 2 _ :=
    ⟨mNote, ascii "note", by decide, by unfold unknownTo; decide⟩
  have hTC : IsKeptOrExtended (fun _ => False) 1 _ _ :=
    Or.inr ⟨[], 0x22 :: (ascii "traceContext" ++ [0x22]), [], [], _, _, [], rfl, rfl, IsWs.nil,
      hstr _ (by decide), IsWs.nil, IsWs.nil, IsWs.nil,
      ObjectAdded.toMembers _ _
        (MembersAdded.addAfter _ _ _ aVersion (MembersAdded.last _ _ ⟨mFields, rfl⟩))⟩
  have h := unknown_members_are_ignored (fun _ => False) 1 [] _ _ [] (by decide) IsWs.nil
    IsWs.nil
    (ObjectAdded.toMembers _ _
      (MembersAdded.addBefore _ _ _ aNote
        (MembersAdded.keep _ _ _ _ hTC (MembersAdded.last _ _ (Or.inl ⟨mBody, rfl⟩)))))
  exact ⟨h.1, rfl⟩

end TracePropagation
